import Mathlib

/-!
Verification of the hub-labeling library (savrus/hl).

This file gives a shallow embedding, in Lean 4, of the data structures and
algorithms of the library: the label store (`hl/labeling.hpp`), the indexed
k-ary heap (`lib/kheap.hpp`), the legacy binary heap (`lib/binheap.hpp`),
the Dijkstra engine (`lib/dijkstra.hpp`), the pruned-labeling builder
(`lib/akiba.hpp` / `hl/akiba.hpp`) and the USP Dijkstra variant
(`hl/uhhl.hpp`), together with theorems settling the specification claims.

Modelling conventions:
  * `Vertex` and `Distance` are modelled as `Nat`; the C++ sentinel
    `infty = std::numeric_limits<int>::max()` becomes the literal
    `2 ^ 31 - 1`, and the sentinel `none = -1` for parents becomes
    `Option.none` (C++ vertex ids are non-negative, so `u < -1` on ints
    is `False`, which the `Option` translation mirrors).
  * C++ arrays are modelled as total functions `Nat → _`; `std::vector`
    bounds are tracked by the well-formedness invariants of each proof.
  * while-loops whose bodies pop a work queue are modelled with an explicit
    fuel parameter returning `Option`; claims about "after run completes"
    are stated under the hypothesis that the run returned `some _`.
-/

namespace HL

/-- The C++ `infty = std::numeric_limits<Distance>::max()` with `Distance = int`. -/
def infty : Nat := 2 ^ 31 - 1

/-- One label list: the `(hub, distance)` pairs of `label_v[u][side]` /
`label_d[u][side]`, in stored order. -/
abbrev Label := List (Nat × Nat)

/-- Strict hub order between two label entries (used to state the
"strictly increasing hub ids" invariants). -/
def hubLt (a b : Nat × Nat) : Prop := a.1 < b.1

instance : DecidableRel hubLt := fun a b => inferInstanceAs (Decidable (a.1 < b.1))

/-- The merge loop of `Labeling::query` (`hl/labeling.hpp` lines 51-61):
two cursors walk the lists; at a common hub `min` accumulates `d_u + d_v`,
otherwise the cursor at the smaller hub advances. -/
def queryLoop : Label → Label → Nat → Nat
  | [], _, r => r
  | _ :: _, [], r => r
  | (h1, d1) :: xs, (h2, d2) :: ys, r =>
    if h1 = h2 then queryLoop xs ys (min r (d1 + d2))
    else if h1 < h2 then queryLoop xs ((h2, d2) :: ys) r
    else queryLoop ((h1, d1) :: xs) ys r
termination_by xs ys => xs.length + ys.length

/-- `Labeling::query` on the two relevant lists: the merge starts with
accumulator `r = infty`. -/
def queryLists (xu yv : Label) : Nat := queryLoop xu yv infty

/-- All sums `d_u + d_v` over pairs of entries of the two lists that share
a hub (specification notion: the candidate distances of common hubs). -/
def commonSums (xs ys : Label) : List Nat :=
  xs.flatMap (fun e => ys.filterMap (fun f => if e.1 = f.1 then some (e.2 + f.2) else none))

theorem commonSums_nil (ys : Label) : commonSums [] ys = [] := rfl

theorem commonSums_cons (e : Nat × Nat) (xs ys : Label) :
    commonSums (e :: xs) ys =
      ys.filterMap (fun f => if e.1 = f.1 then some (e.2 + f.2) else none) ++ commonSums xs ys := by
  simp [commonSums]

theorem commonSums_cons_right_skip (xs : Label) (f : Nat × Nat)
    (ys : Label) (hne : ∀ e ∈ xs, e.1 ≠ f.1) :
    commonSums xs (f :: ys) = commonSums xs ys := by
  induction xs with
  | nil => rfl
  | cons e xs ih =>
    rw [commonSums_cons, commonSums_cons, List.filterMap_cons]
    have he : e.1 ≠ f.1 := hne e (List.mem_cons_self e xs)
    simp only [if_neg he]
    rw [ih (fun a ha => hne a (List.mem_cons_of_mem e ha))]

theorem commonSums_filter_none (e : Nat × Nat) (ys : Label)
    (hne : ∀ f ∈ ys, e.1 ≠ f.1) :
    ys.filterMap (fun f => if e.1 = f.1 then some (e.2 + f.2) else none) = [] := by
  induction ys with
  | nil => rfl
  | cons f ys ih =>
    rw [List.filterMap_cons]
    have := hne f (List.mem_cons_self f ys)
    simp only [if_neg this]
    exact ih (fun a ha => hne a (List.mem_cons_of_mem f ha))

theorem commonSums_nil_right (xs : Label) : commonSums xs [] = [] := by
  induction xs with
  | nil => rfl
  | cons e xs ih => rw [commonSums_cons, ih]; rfl

theorem foldr_min_init (l : List Nat) (a r : Nat) :
    l.foldr min (min r a) = min a (l.foldr min r) := by
  induction l with
  | nil => exact Nat.min_comm r a
  | cons b l ih => simp only [List.foldr_cons, ih]; exact Nat.min_left_comm b a _

/-- The merge loop computes the minimum of the accumulator and all
common-hub sums, provided both lists are strictly increasing by hub. -/
theorem queryLoop_eq (xs : Label) : ∀ (ys : Label) (r : Nat),
    xs.Pairwise hubLt → ys.Pairwise hubLt →
    queryLoop xs ys r = (commonSums xs ys).foldr min r := by
  induction xs with
  | nil => intro ys r _ _; rw [commonSums_nil]; cases ys <;> simp [queryLoop]
  | cons x xs ihx =>
    intro ys
    induction ys with
    | nil => intro r _ _; rw [commonSums_nil_right]; simp [queryLoop]
    | cons y ys ihy =>
      intro r hx hy
      obtain ⟨h1, d1⟩ := x
      obtain ⟨h2, d2⟩ := y
      rw [List.pairwise_cons] at hx hy
      by_cases heq : h1 = h2
      · rw [queryLoop, if_pos heq]
        rw [ihx ys (min r (d1 + d2)) hx.2 hy.2]
        rw [commonSums_cons, List.filterMap_cons, if_pos heq]
        rw [commonSums_filter_none (h1, d1) ys
          (fun f hf hcontra => by
            have := hy.1 f hf
            simp only [hubLt] at this
            omega)]
        rw [commonSums_cons_right_skip xs (h2, d2) ys
          (fun e he => by
            have := hx.1 e he
            simp only [hubLt] at this
            simp only []
            omega)]
        simp only [List.singleton_append, List.foldr_cons]
        exact foldr_min_init _ _ _
      · by_cases hlt : h1 < h2
        · rw [queryLoop, if_neg heq, if_pos hlt]
          rw [ihx ((h2, d2) :: ys) r hx.2 (List.pairwise_cons.mpr hy)]
          rw [commonSums_cons, commonSums_filter_none (h1, d1) ((h2, d2) :: ys)
            (fun f hf => by
              rcases List.mem_cons.mp hf with h | h
              · subst h; simpa using heq
              · have := hy.1 f h
                simp only [hubLt] at this
                simp only []
                omega)]
          rfl
        · rw [queryLoop, if_neg heq, if_neg hlt]
          rw [ihy r (List.pairwise_cons.mpr hx) hy.2]
          rw [commonSums_cons_right_skip ((h1, d1) :: xs) (h2, d2) ys
            (fun e he => by
              rcases List.mem_cons.mp he with h | h
              · subst h; simp only []; omega
              · have := hx.1 e h
                simp only [hubLt] at this
                simp only []
                omega)]

/-- The minimum of a nonempty list whose elements are below the seed is a
member of the list and a lower bound for it. -/
theorem foldr_min_mem (l : List Nat) (hne : l ≠ [])
    (hlt : ∀ a ∈ l, a < infty) :
    l.foldr min infty ∈ l ∧ ∀ a ∈ l, l.foldr min infty ≤ a := by
  induction l with
  | nil => exact absurd rfl hne
  | cons b l ih =>
    by_cases hl : l = []
    · subst hl
      constructor
      · simp only [List.foldr_cons, List.foldr_nil]
        have hb := hlt b (List.mem_cons_self b [])
        rw [Nat.min_eq_left (Nat.le_of_lt hb)]
        exact List.mem_cons_self b []
      · intro a ha
        rcases List.mem_singleton.mp ha with rfl
        simp only [List.foldr_cons, List.foldr_nil]
        omega
    · obtain ⟨hmem, hbound⟩ := ih hl (fun a ha => hlt a (List.mem_cons_of_mem b ha))
      constructor
      · simp only [List.foldr_cons]
        rcases Nat.le_total b (l.foldr min infty) with h | h
        · rw [Nat.min_eq_left h]; exact List.mem_cons_self b l
        · rw [Nat.min_eq_right h]; exact List.mem_cons_of_mem b hmem
      · intro a ha
        simp only [List.foldr_cons]
        rcases List.mem_cons.mp ha with rfl | h
        · exact Nat.min_le_left _ _
        · exact le_trans (Nat.min_le_right _ _) (hbound a h)

theorem mem_commonSums (xs ys : Label) (s : Nat) (hs : s ∈ commonSums xs ys) :
    ∃ e ∈ xs, ∃ f ∈ ys, e.1 = f.1 ∧ s = e.2 + f.2 := by
  simp only [commonSums, List.mem_flatMap, List.mem_filterMap] at hs
  obtain ⟨e, he, f, hf, hif⟩ := hs
  by_cases h : e.1 = f.1
  · rw [if_pos h] at hif
    exact ⟨e, he, f, hf, h, (Option.some_injective _ hif).symm⟩
  · rw [if_neg h] at hif
    exact absurd hif (Option.noConfusion)

/-- The label store (`hl/labeling.hpp`, class `Labeling`): for every vertex
and side, the list of `(hub, distance)` entries, in insertion order.
`n` is the vertex count passed to the constructor. -/
structure Labeling where
  n : Nat
  label : Nat → Bool → Label

/-- `Labeling::query(u, v, f)`: merge `label_v[u][f]` with `label_v[v][!f]`. -/
def Labeling.query (L : Labeling) (u v : Nat) (f : Bool) : Nat :=
  queryLists (L.label u f) (L.label v (!f))

/-- C2: for every `Labeling` in which `L[u][f]` and `L[v][¬f]` are
strictly increasing by hub id, and every pair of entries at a common hub
has `d_u + d_v < INFTY`, `query(u, v, f)` returns the minimum of
`d_u + d_v` over the common hubs, and returns `INFTY` exactly when the
two lists share no hub. -/
theorem claim_C2_query_merge (L : Labeling) (u v : Nat) (f : Bool)
    (hx : (L.label u f).Pairwise hubLt) (hy : (L.label v (!f)).Pairwise hubLt)
    (hov : ∀ e ∈ L.label u f, ∀ g ∈ L.label v (!f), e.1 = g.1 → e.2 + g.2 < infty) :
    (commonSums (L.label u f) (L.label v (!f)) = [] → L.query u v f = infty) ∧
    (commonSums (L.label u f) (L.label v (!f)) ≠ [] →
      L.query u v f ∈ commonSums (L.label u f) (L.label v (!f)) ∧
      ∀ s ∈ commonSums (L.label u f) (L.label v (!f)), L.query u v f ≤ s) := by
  have hq : L.query u v f = (commonSums (L.label u f) (L.label v (!f))).foldr min infty :=
    queryLoop_eq (L.label u f) (L.label v (!f)) infty hx hy
  constructor
  · intro hnil
    rw [hq, hnil]
    rfl
  · intro hne
    rw [hq]
    exact foldr_min_mem _ hne
      (fun a ha => by
        obtain ⟨e, he, g, hg, hig, hsum⟩ := mem_commonSums _ _ a ha
        rw [hsum]
        exact hov e he g hg hig)

/-- A concrete two-vertex labeling used as a witness input. -/
def witnessLabeling : Labeling :=
  ⟨2, fun u s =>
    if u = 0 then (if s then [(1, 2), (3, 4)] else [])
    else if u = 1 then (if s then [] else [(1, 3), (2, 5)])
    else []⟩

theorem claim_C2_query_merge_witness :
    commonSums (witnessLabeling.label 0 true)
      (witnessLabeling.label 1 (!true)) ≠ [] ∧
    (witnessLabeling.query 0 1 true ∈
      commonSums (witnessLabeling.label 0 true)
        (witnessLabeling.label 1 (!true)) ∧
    ∀ s ∈ commonSums (witnessLabeling.label 0 true)
        (witnessLabeling.label 1 (!true)),
      witnessLabeling.query 0 1 true ≤ s) :=
  ⟨by decide,
    (claim_C2_query_merge witnessLabeling 0 1 true (by decide) (by decide)
      (by decide)).2 (by decide)⟩

/-- The `Labeling(n)` constructor: `n` vertices, all lists empty. -/
def Labeling.init (n : Nat) : Labeling := ⟨n, fun _ _ => []⟩

/-- `Labeling::add(u, forward, v, d)`: append the entry `(v, d)` to
`L[u][forward]`. -/
def Labeling.add (L : Labeling) (u : Nat) (forward : Bool) (v d : Nat) : Labeling :=
  { L with label := fun w s =>
      if w = u ∧ s = forward then L.label w s ++ [(v, d)] else L.label w s }

/-- `Labeling::clear()`: empty the lists of every vertex `v < n`. -/
def Labeling.clear (L : Labeling) : Labeling :=
  { L with label := fun v s => if v < L.n then [] else L.label v s }

/-- The comparison used by `std::sort` on `std::pair<Vertex, Distance>`:
the reflexive closure of strict lexicographic order. -/
def pairLe (a b : Nat × Nat) : Prop := a.1 < b.1 ∨ (a.1 = b.1 ∧ a.2 ≤ b.2)

instance : DecidableRel pairLe := fun a b =>
  inferInstanceAs (Decidable (a.1 < b.1 ∨ (a.1 = b.1 ∧ a.2 ≤ b.2)))

instance : IsTotal (Nat × Nat) pairLe :=
  ⟨fun a b => by unfold pairLe; omega⟩

instance : IsTrans (Nat × Nat) pairLe :=
  ⟨fun a b c hab hbc => by unfold pairLe at *; omega⟩

/-- `Labeling::sort()` (`hl/labeling.hpp` lines 145-158): each list of a
vertex `v < n` is repacked into `(hub, distance)` pairs and sorted with
`std::sort`, i.e. by the lexicographic pair order. -/
def Labeling.sort (L : Labeling) : Labeling :=
  { L with label := fun v s =>
      if v < L.n then (L.label v s).insertionSort pairLe else L.label v s }

/-- Labeling states reachable from the constructor by a sequence of
`add` calls (the states quantified over by claim C7). -/
inductive ReachableAdds : Labeling → Prop
  | init (n : Nat) : ReachableAdds (Labeling.init n)
  | add {L : Labeling} (u : Nat) (forward : Bool) (v d : Nat) :
      ReachableAdds L → ReachableAdds (L.add u forward v d)

/-- A labeling in which the same hub `5` is added twice to `L[0][true]`. -/
def dupHubLabeling : Labeling := ((Labeling.init 1).add 0 true 5 1).add 0 true 5 2

/-- C7 counterexample: a reachable labeling state on which `sort()` does
not make the hub list strictly increasing (hub `5` occurs twice, so the
sorted list is only non-decreasing). -/
theorem claim_C7_counterexample :
    ReachableAdds dupHubLabeling ∧
      ¬ ((dupHubLabeling.sort).label 0 true).Pairwise hubLt :=
  ⟨ReachableAdds.add 0 true 5 2 (ReachableAdds.add 0 true 5 1 (ReachableAdds.init 1)),
    by decide⟩

/-- C7 (amended): for every labeling state reachable by `add` calls, after
`sort()` every hub list of a vertex `v < n` is sorted in the lexicographic
`(hub, distance)` order — so hub ids are non-decreasing — and it is strictly
increasing by hub id whenever the hubs of that list are pairwise distinct. -/
theorem claim_C7_sort_sorted (L : Labeling) (_hL : ReachableAdds L)
    (v : Nat) (hv : v < L.n) (s : Bool) :
    ((L.sort).label v s).Sorted pairLe ∧
      ((((L.sort).label v s).map Prod.fst).Nodup →
        ((L.sort).label v s).Pairwise hubLt) := by
  have hlabel : (L.sort).label v s = (L.label v s).insertionSort pairLe := by
    simp [Labeling.sort, if_pos hv]
  constructor
  · rw [hlabel]
    exact List.sorted_insertionSort pairLe (L.label v s)
  · intro hnd
    have hsorted : ((L.sort).label v s).Pairwise pairLe := by
      rw [hlabel]
      exact List.sorted_insertionSort pairLe (L.label v s)
    have hne : ((L.sort).label v s).Pairwise (fun a b : Nat × Nat => a.1 ≠ b.1) :=
      List.pairwise_map.mp hnd
    exact (hsorted.and hne).imp (fun {a b} hab => by
      rcases hab.1 with h | h
      · exact h
      · exact absurd h.1 hab.2)

/-- Token stream written for one label list by `Labeling::write`:
the list size, then each hub immediately followed by its distance. -/
def writeLabelTokens (l : Label) : List Nat :=
  l.length :: l.flatMap (fun e => [e.1, e.2])

/-- `Labeling::write` (`hl/labeling.hpp` lines 91-107), abstracted to the
stream of numbers printed: `n`, then for every vertex `v < n`, the tokens
of side 0 and of side 1. Whitespace layout and the success of the file
system are abstracted away. -/
def Labeling.write (L : Labeling) : List Nat :=
  L.n :: (List.range L.n).flatMap
    (fun v => writeLabelTokens (L.label v false) ++ writeLabelTokens (L.label v true))

/-- Parse `s` entries (hub then distance each) from the token stream;
`none` models an input-stream failure of `operator>>`. -/
def readEntries : Nat → List Nat → Option (Label × List Nat)
  | 0, ts => some ([], ts)
  | s + 1, h :: d :: ts =>
    match readEntries s ts with
    | some (l, r) => some ((h, d) :: l, r)
    | none => none
  | _ + 1, _ => none

/-- Parse one label list: its size, then its entries. -/
def readLabelTokens : List Nat → Option (Label × List Nat)
  | s :: ts => readEntries s ts
  | [] => none

/-- Parse the two lists (side 0, then side 1) of the given number of
vertices. -/
def readVertices : Nat → List Nat → Option (List (Label × Label) × List Nat)
  | 0, ts => some ([], ts)
  | c + 1, ts =>
    match readLabelTokens ts with
    | some (l0, ts1) =>
      match readLabelTokens ts1 with
      | some (l1, ts2) =>
        match readVertices c ts2 with
        | some (ls, r) => some ((l0, l1) :: ls, r)
        | none => none
      | none => none
    | none => none

/-- `Labeling::read` (`hl/labeling.hpp` lines 110-132) on a fresh labeling
(`check_n = 0`, so the size check is skipped): parse `n`, then both lists
of every vertex; succeed iff the stream is consumed exactly (the
`file.eof() && !file.fail()` check). -/
def Labeling.read (ts : List Nat) : Option Labeling :=
  match ts with
  | n :: ts1 =>
    match readVertices n ts1 with
    | some (ls, []) =>
      some ⟨n, fun v s =>
        if v < n then (if s then (ls.getD v ([], [])).2 else (ls.getD v ([], [])).1)
        else []⟩
    | _ => none
  | [] => none

theorem readEntries_writeTokens (l : Label) (rest : List Nat) :
    readEntries l.length (l.flatMap (fun e => [e.1, e.2]) ++ rest) = some (l, rest) := by
  induction l with
  | nil => rfl
  | cons e l ih =>
    obtain ⟨h, d⟩ := e
    simp only [List.flatMap_cons, List.length_cons, List.append_assoc, List.cons_append,
      List.nil_append]
    rw [readEntries, ih]

theorem readLabelTokens_writeTokens (l : Label) (rest : List Nat) :
    readLabelTokens (writeLabelTokens l ++ rest) = some (l, rest) := by
  rw [writeLabelTokens, List.cons_append, readLabelTokens]
  exact readEntries_writeTokens l rest

/-- Tokens of one vertex: side 0, then side 1. -/
def vertexTokens (p : Label × Label) : List Nat :=
  writeLabelTokens p.1 ++ writeLabelTokens p.2

theorem readVertices_writeTokens (ps : List (Label × Label)) (rest : List Nat) :
    readVertices ps.length (ps.flatMap vertexTokens ++ rest) = some (ps, rest) := by
  induction ps with
  | nil => rfl
  | cons p ps ih =>
    obtain ⟨l0, l1⟩ := p
    simp only [List.flatMap_cons, List.length_cons, vertexTokens, List.append_assoc]
    rw [readVertices]
    simp only [readLabelTokens_writeTokens, ih]

/-- C8: writing a labeling and reading it back into a fresh labeling
succeeds and reproduces the vertex count and, for every vertex and side,
exactly the same entry sequence. -/
theorem claim_C8_roundtrip (L : Labeling) :
    ∃ F, Labeling.read (Labeling.write L) = some F ∧
      F.n = L.n ∧ ∀ v, v < L.n → ∀ s, F.label v s = L.label v s := by
  have hps : (List.range L.n).flatMap
      (fun v => writeLabelTokens (L.label v false) ++ writeLabelTokens (L.label v true))
      = ((List.range L.n).map (fun v => (L.label v false, L.label v true))).flatMap
          vertexTokens := by
    rw [List.flatMap_map]
    rfl
  have hrv := readVertices_writeTokens
    ((List.range L.n).map (fun v => (L.label v false, L.label v true))) []
  rw [List.append_nil, List.length_map, List.length_range] at hrv
  refine ⟨⟨L.n, fun v s =>
      if v < L.n then
        (if s then
          (((List.range L.n).map (fun v => (L.label v false, L.label v true))).getD v ([], [])).2
         else
          (((List.range L.n).map (fun v => (L.label v false, L.label v true))).getD v ([], [])).1)
      else []⟩, ?_, rfl, ?_⟩
  · rw [Labeling.write]
    simp only [Labeling.read, hps, hrv]
  · intro v hv s
    have hget : ((List.range L.n).map (fun v => (L.label v false, L.label v true))).getD v
        ([], []) = (L.label v false, L.label v true) := by
      rw [List.getD_eq_getElem?_getD, List.getElem?_map, List.getElem?_range hv]
      rfl
    simp only [hget, if_pos hv]
    cases s <;> rfl

/-- Outcomes of the external collaborators (file system, checker) during one
CLI run. Command-line parsing itself is an external collaborator per the
specification; `badArgs` summarises every condition on which the parsing
code calls `usage()` (unknown flag, missing argument, `alpha < 1.0`, ...). -/
structure CLIEnv where
  graphOk : Bool
  orderReadOk : Bool
  orderMatches : Bool
  labelReadOk : Bool
  labelsGood : Bool
  labelWriteOk : Bool
  orderWriteOk : Bool

/-- Control flow of `main` in `hhl.cpp` after argument parsing: exit 1 on
argument error or unreadable graph; otherwise run the builder, print the
statistics, and attempt the requested output writes, whose failure only
prints a diagnostic. Returns (exit status, error diagnostics). -/
def hhlMain (badArgs wantLabel wantOrder : Bool) (env : CLIEnv) : Nat × List String :=
  if badArgs then (1, [])
  else if !env.graphOk then (1, ["Unable to read graph"])
  else (0,
    (if wantLabel && !env.labelWriteOk then ["Unable to write labels"] else []) ++
    (if wantOrder && !env.orderWriteOk then ["Unable to write order"] else []))

/-- Control flow of `main` in `akiba.cpp`: the order file is mandatory and
its read failure or size mismatch exits 1; label write failure does not. -/
def akibaMain (badArgs wantLabel : Bool) (env : CLIEnv) : Nat × List String :=
  if badArgs then (1, [])
  else if !env.graphOk then (1, ["Unable to read graph"])
  else if !env.orderReadOk then (1, ["Unable to read vertex order"])
  else if !env.orderMatches then (1, ["Order is incompatible with graph."])
  else (0, if wantLabel && !env.labelWriteOk then ["Unable to write labels"] else [])

/-- Control flow of `main` in `degree.cpp`: order output write failure only
prints a diagnostic. -/
def degreeMain (badArgs : Bool) (env : CLIEnv) : Nat × List String :=
  if badArgs then (1, [])
  else if !env.graphOk then (1, ["Unable to read graph"])
  else (0, if !env.orderWriteOk then ["Unable to write order"] else [])

/-- Control flow of `main` in `ghl.cpp` (`alpha < 1.0` is part of
`badArgs`, it calls `usage()`): label write failure only prints. -/
def ghlMain (badArgs wantLabel : Bool) (env : CLIEnv) : Nat × List String :=
  if badArgs then (1, [])
  else if !env.graphOk then (1, ["Unable to read graph"])
  else (0, if wantLabel && !env.labelWriteOk then ["Unable to write labels"] else [])

/-- Control flow of `main` in `lcheck.cpp`: with `-c`, bad labels exit 1. -/
def lcheckMain (badArgs check : Bool) (env : CLIEnv) : Nat × List String :=
  if badArgs then (1, [])
  else if !env.graphOk then (1, ["Unable to read graph"])
  else if !env.labelReadOk then (1, ["Unable to read labels"])
  else if check && !env.labelsGood then (1, ["Bad Labels"])
  else (0, [])

/-- An environment in which both output writes fail and everything else
succeeds. -/
def writeFailEnv : CLIEnv := ⟨true, true, true, true, true, false, false⟩

/-- C9 counterexample: `hhl` with good arguments, a readable graph and a
requested label output whose write fails prints the diagnostic but exits
with status 0, not 1 as the claim states. -/
theorem claim_C9_counterexample :
    (hhlMain false true false writeFailEnv).1 = 0 ∧
      (hhlMain false true false writeFailEnv).2 = ["Unable to write labels"] :=
  ⟨rfl, rfl⟩

/-- C9 (amended): every tool exits 0 on success and 1 on argument error or
input failure (unreadable graph for all tools; unreadable or mismatched
order for akiba; unreadable labels, or bad labels under `-c`, for lcheck).
Failure to write a requested label or order output file prints a diagnostic
to the error stream but leaves the exit status 0. -/
theorem claim_C9_exit_codes (badArgs wantLabel wantOrder check : Bool) (env : CLIEnv) :
    (hhlMain badArgs wantLabel wantOrder env).1
        = (if badArgs || !env.graphOk then 1 else 0) ∧
      (akibaMain badArgs wantLabel env).1
        = (if badArgs || !env.graphOk || !env.orderReadOk || !env.orderMatches
           then 1 else 0) ∧
      (degreeMain badArgs env).1 = (if badArgs || !env.graphOk then 1 else 0) ∧
      (ghlMain badArgs wantLabel env).1 = (if badArgs || !env.graphOk then 1 else 0) ∧
      (lcheckMain badArgs check env).1
        = (if badArgs || !env.graphOk || !env.labelReadOk || (check && !env.labelsGood)
           then 1 else 0) := by
  obtain ⟨g, oro, om, lr, lg, lw, ow⟩ := env
  revert badArgs wantLabel wantOrder check g oro om lr lg lw ow
  decide

/-- `invalid = std::numeric_limits<size_t>::max()`: the absent marker used
in `heap_pos`. -/
def invalidPos : Nat := 2 ^ 64 - 1

/-- The k-way heap of `lib/kheap.hpp` (`hl::KHeap`): current element count,
the heap array, the position array and the key array. The branching factor
`k` is passed to each operation (the C++ template parameter). -/
structure KHeap where
  size : Nat
  heap : Nat → Nat
  heap_pos : Nat → Nat
  key : Nat → Nat

/-- `KHeap(n)`: empty heap; the vectors are value-initialised (zeros) and
`heap_pos` is filled with `invalid`. -/
def KHeap.init : KHeap := ⟨0, fun _ => 0, fun _ => invalidPos, fun _ => 0⟩

/-- `KHeap::swap(i, j)`: swap the `heap_pos` entries of the two stored
elements, then the elements themselves. -/
def KHeap.swapPos (s : KHeap) (i j : Nat) : KHeap :=
  { s with
    heap_pos := Function.update
      (Function.update s.heap_pos (s.heap i) (s.heap_pos (s.heap j)))
      (s.heap j) (s.heap_pos (s.heap i)),
    heap := Function.update (Function.update s.heap i (s.heap j)) j (s.heap i) }

/-- The scan inside `KHeap::kid`: `m` is the offset of the smallest child
found so far, `j` the next offset to examine (the C++ `for` loop). -/
def kidGo (k : Nat) (s : KHeap) (c0 j m : Nat) : Nat :=
  if j < k ∧ c0 + j < s.size then
    kidGo k s c0 (j + 1)
      (if s.key (s.heap (c0 + j)) < s.key (s.heap (c0 + m)) then j else m)
  else m
termination_by k - j

/-- `KHeap::kid(i)`: position of the smallest existing child of `heap[i]`. -/
def KHeap.kid (k : Nat) (s : KHeap) (i : Nat) : Nat :=
  i * k + 1 + kidGo k s (i * k + 1) 1 0

theorem kid_gt (k : Nat) (hk : 0 < k) (s : KHeap) (i : Nat) : i < s.kid k i :=
  Nat.lt_of_le_of_lt (Nat.le_mul_of_pos_right i hk)
    (Nat.lt_of_lt_of_le (Nat.lt_succ_self _) (Nat.le_add_right _ _))

/-- First loop of `KHeap::fixup`: move `heap[i]` down while it exceeds its
smallest child; returns the state and the final position. The hypothesis
`0 < k` mirrors the C++ template constraint (`k = 0` would not terminate). -/
def KHeap.siftDown (k : Nat) (hk : 0 < k) (s : KHeap) (i : Nat) : KHeap × Nat :=
  if h : i * k + 1 < s.size ∧ s.key (s.heap (s.kid k i)) < s.key (s.heap i) then
    KHeap.siftDown k hk (s.swapPos i (s.kid k i)) (s.kid k i)
  else (s, i)
termination_by s.size - i
decreasing_by
  exact Nat.sub_lt_sub_left
    (Nat.lt_trans (Nat.lt_of_le_of_lt (Nat.le_mul_of_pos_right i hk)
      (Nat.lt_succ_self _)) h.1)
    (kid_gt k hk s i)

/-- Second loop of `KHeap::fixup`: move `heap[i]` up while it is below its
parent `(i-1)/k`. -/
def KHeap.siftUp (k : Nat) (s : KHeap) (i : Nat) : KHeap :=
  if h : 0 < i ∧ s.key (s.heap i) < s.key (s.heap ((i - 1) / k)) then
    KHeap.siftUp k (s.swapPos i ((i - 1) / k)) ((i - 1) / k)
  else s
termination_by i
decreasing_by
  exact Nat.lt_of_le_of_lt (Nat.div_le_self _ _) (Nat.pred_lt (Nat.pos_iff_ne_zero.mp h.1))

/-- `KHeap::fixup(i)`: the down-move loop followed by the up-move loop. -/
def KHeap.fixup (k : Nat) (hk : 0 < k) (s : KHeap) (i : Nat) : KHeap :=
  KHeap.siftUp k (KHeap.siftDown k hk s i).1 (KHeap.siftDown k hk s i).2

/-- `KHeap::update(v, kk)`: append `v` if absent, set its key, fix up. -/
def KHeap.update (k : Nat) (hk : 0 < k) (s : KHeap) (v kk : Nat) : KHeap :=
  let s1 := if s.heap_pos v = invalidPos then
      { s with heap_pos := Function.update s.heap_pos v s.size,
               heap := Function.update s.heap s.size v,
               size := s.size + 1 }
    else s
  let s2 := { s1 with key := Function.update s1.key v kk }
  KHeap.fixup k hk s2 (s2.heap_pos v)

/-- `KHeap::extract(v)`: no-op if absent; otherwise decrement the size and,
if `v` was not stored last, move the last element into its slot and fix up;
finally mark `v` absent. (The C++ `--size` cannot underflow here: in every
reachable state a present `v` forces `size > 0`.) -/
def KHeap.extract (k : Nat) (hk : 0 < k) (s : KHeap) (v : Nat) : KHeap :=
  if s.heap_pos v = invalidPos then s
  else
    let s1 : KHeap := { s with size := s.size - 1 }
    let s2 := if s.heap_pos v < s.size - 1 then
        KHeap.fixup k hk (s1.swapPos (s.heap_pos v) s1.size) (s.heap_pos v)
      else s1
    { s2 with heap_pos := Function.update s2.heap_pos v invalidPos }

/-- `KHeap::top()`: the stored minimum (meaningful on a non-empty heap). -/
def KHeap.top (s : KHeap) : Nat := s.heap 0

/-- `KHeap::pop()`: read the top and extract it. -/
def KHeap.pop (k : Nat) (hk : 0 < k) (s : KHeap) : Nat × KHeap :=
  (s.top, KHeap.extract k hk s s.top)

/-- `KHeap::empty()`. -/
def KHeap.emptyb (s : KHeap) : Bool := s.size == 0

/-- `KHeap::clear()`: mark every stored element absent, reset the size. -/
def KHeap.clear (s : KHeap) : KHeap :=
  { s with
    heap_pos := (List.range s.size).foldl
      (fun hp i => Function.update hp (s.heap i) invalidPos) s.heap_pos,
    size := 0 }

/-- Element `v` is stored in the heap (`heap_pos[v] != invalid`). -/
def KHeap.present (s : KHeap) (v : Nat) : Prop := s.heap_pos v ≠ invalidPos

instance (s : KHeap) (v : Nat) : Decidable (s.present v) :=
  inferInstanceAs (Decidable (s.heap_pos v ≠ invalidPos))

/-- `v` occurs in the occupied segment of the heap array. -/
def KHeap.inHeap (s : KHeap) (v : Nat) : Prop := ∃ q, q < s.size ∧ s.heap q = v

/-- The position array inverts the heap array on the occupied segment. -/
def posOf (s : KHeap) : Prop := ∀ i, i < s.size → s.heap_pos (s.heap i) = i

/-- Elements not stored in the array are marked absent. -/
def absentClean (s : KHeap) : Prop := ∀ v, ¬ s.inHeap v → s.heap_pos v = invalidPos

/-- k-ary heap order on the occupied segment: a parent key never exceeds a
child key (`heap[p]`'s children sit at positions `p*k+1 .. p*k+k`). -/
def heapOrd (k : Nat) (s : KHeap) : Prop :=
  ∀ p j, j < s.size → p * k + 1 ≤ j → j ≤ p * k + k →
    s.key (s.heap p) ≤ s.key (s.heap j)

/-- Full well-formedness of a `KHeap` over the element universe `[0, n)`. -/
structure KHeapWF (k n : Nat) (s : KHeap) : Prop where
  n_lt : n < invalidPos
  pos : posOf s
  clean : absentClean s
  elems : ∀ v, s.inHeap v → v < n
  size_le : s.size ≤ n
  ord : heapOrd k s

theorem heap_inj (s : KHeap) (hpos : posOf s) {i j : Nat}
    (hi : i < s.size) (hj : j < s.size) (h : s.heap i = s.heap j) : i = j := by
  have := hpos i hi
  rw [h, hpos j hj] at this
  omega

theorem inHeap_present (s : KHeap) (hpos : posOf s) (hsz : s.size < invalidPos)
    {v : Nat} (h : s.inHeap v) : s.present v := by
  obtain ⟨q, hq, rfl⟩ := h
  rw [KHeap.present, hpos q hq]
  omega

theorem present_loc (s : KHeap) (hclean : absentClean s)
    {v : Nat} (h : s.present v) : s.inHeap v := by
  by_contra hin
  exact h (hclean v hin)

theorem present_pos (s : KHeap) (hpos : posOf s) (hclean : absentClean s)
    {v : Nat} (h : s.present v) :
    s.heap_pos v < s.size ∧ s.heap (s.heap_pos v) = v := by
  obtain ⟨q, hq, rfl⟩ := present_loc s hclean h
  rw [hpos q hq]
  exact ⟨hq, rfl⟩

theorem parent_child_bounds (k j : Nat) (hk : 0 < k) (hj : 0 < j) :
    ((j - 1) / k) * k + 1 ≤ j ∧ j ≤ ((j - 1) / k) * k + k := by
  have h := Nat.div_add_mod (j - 1) k
  have hr : (j - 1) % k < k := Nat.mod_lt _ hk
  simp only [Nat.mul_comm ((j - 1) / k) k]
  omega

theorem parent_of_child (k i j : Nat) (hk : 0 < k)
    (h1 : i * k + 1 ≤ j) (h2 : j ≤ i * k + k) : (j - 1) / k = i := by
  have hlo : i ≤ (j - 1) / k := (Nat.le_div_iff_mul_le hk).mpr (by omega)
  have hhi : (j - 1) / k < i + 1 := (Nat.div_lt_iff_lt_mul hk).mpr (by
    have : (i + 1) * k = i * k + k := Nat.succ_mul i k
    omega)
  omega

/-- The root of a heap-ordered segment has the minimal key of the segment. -/
theorem heapOrd_root_min (k : Nat) (hk : 0 < k) (s : KHeap) (hord : heapOrd k s) :
    ∀ j, j < s.size → s.key (s.heap 0) ≤ s.key (s.heap j) := by
  intro j
  induction j using Nat.strong_induction_on with
  | _ j ih =>
    intro hj
    rcases Nat.eq_zero_or_pos j with rfl | hpos
    · exact Nat.le_refl _
    · obtain ⟨hc1, hc2⟩ := parent_child_bounds k j hk hpos
      have hpar : (j - 1) / k < j :=
        Nat.lt_of_le_of_lt (Nat.div_le_self _ _) (Nat.pred_lt (Nat.pos_iff_ne_zero.mp hpos))
      exact Nat.le_trans (ih _ hpar (Nat.lt_trans hpar hj)) (hord _ j hj hc1 hc2)

theorem swap_size (s : KHeap) (i j : Nat) : (s.swapPos i j).size = s.size := rfl

theorem swap_key (s : KHeap) (i j : Nat) : (s.swapPos i j).key = s.key := rfl

theorem swap_heap (s : KHeap) (i j p : Nat) :
    (s.swapPos i j).heap p =
      if p = j then s.heap i else if p = i then s.heap j else s.heap p := by
  simp only [KHeap.swapPos, Function.update]
  split
  · simp_all
  · split <;> simp_all

theorem swap_heap_pos (s : KHeap) (hpos : posOf s) {i j : Nat}
    (hi : i < s.size) (hj : j < s.size) (w : Nat) :
    (s.swapPos i j).heap_pos w =
      if w = s.heap j then i else if w = s.heap i then j else s.heap_pos w := by
  simp only [KHeap.swapPos, Function.update, hpos i hi, hpos j hj]
  split
  · simp_all
  · split <;> simp_all

theorem swap_posOf (s : KHeap) (hpos : posOf s) {i j : Nat}
    (hi : i < s.size) (hj : j < s.size) : posOf (s.swapPos i j) := by
  intro p hp
  rw [swap_size] at hp
  rw [swap_heap, swap_heap_pos s hpos hi hj]
  by_cases hpj : p = j
  · rw [if_pos hpj]
    by_cases hij : s.heap i = s.heap j
    · rw [if_pos hij]
      have := heap_inj s hpos hi hj hij
      omega
    · rw [if_neg hij, if_pos rfl]
      omega
  · rw [if_neg hpj]
    by_cases hpi : p = i
    · rw [if_pos hpi, if_pos rfl]
      omega
    · rw [if_neg hpi]
      have h1 : s.heap p ≠ s.heap j := fun h => hpj (heap_inj s hpos hp hj h)
      have h2 : s.heap p ≠ s.heap i := fun h => hpi (heap_inj s hpos hp hi h)
      rw [if_neg h1, if_neg h2]
      exact hpos p hp

theorem swap_inHeap (s : KHeap) {i j : Nat}
    (hi : i < s.size) (hj : j < s.size) (w : Nat) :
    (s.swapPos i j).inHeap w ↔ s.inHeap w := by
  constructor
  · rintro ⟨q, hq, hw⟩
    rw [swap_size] at hq
    rw [swap_heap] at hw
    by_cases hqj : q = j
    · rw [if_pos hqj] at hw; exact ⟨i, hi, hw⟩
    · rw [if_neg hqj] at hw
      by_cases hqi : q = i
      · rw [if_pos hqi] at hw; exact ⟨j, hj, hw⟩
      · rw [if_neg hqi] at hw; exact ⟨q, hq, hw⟩
  · rintro ⟨q, hq, hw⟩
    by_cases hqj : q = j
    · refine ⟨i, by rw [swap_size]; exact hi, ?_⟩
      rw [swap_heap]
      by_cases hij : i = j
      · rw [if_pos hij, hij, ← hqj]; exact hw
      · rw [if_neg hij, if_pos rfl, ← hqj]; exact hw
    · by_cases hqi : q = i
      · refine ⟨j, by rw [swap_size]; exact hj, ?_⟩
        rw [swap_heap, if_pos rfl, ← hqi]
        exact hw
      · refine ⟨q, by rw [swap_size]; exact hq, ?_⟩
        rw [swap_heap, if_neg hqj, if_neg hqi]
        exact hw

theorem swap_absentClean (s : KHeap) (hpos : posOf s) (hclean : absentClean s)
    {i j : Nat} (hi : i < s.size) (hj : j < s.size) :
    absentClean (s.swapPos i j) := by
  intro w hw
  rw [swap_inHeap s hi hj] at hw
  rw [swap_heap_pos s hpos hi hj,
    if_neg (fun h => hw ⟨j, hj, h.symm⟩), if_neg (fun h => hw ⟨i, hi, h.symm⟩)]
  exact hclean w hw

/-- What the fix-up loops preserve: position consistency, size, keys, the
array contents outside the segment, the positions of elements that are not
stored, and the stored element set. -/
structure SiftRes (s t : KHeap) : Prop where
  pos : posOf t
  size_eq : t.size = s.size
  key_eq : t.key = s.key
  frame_heap : ∀ p, s.size ≤ p → t.heap p = s.heap p
  frame_pos : ∀ w, ¬ s.inHeap w → t.heap_pos w = s.heap_pos w
  mem_iff : ∀ w, t.inHeap w ↔ s.inHeap w

theorem SiftRes.refl_res (s : KHeap) (hpos : posOf s) : SiftRes s s :=
  ⟨hpos, rfl, rfl, fun _ _ => rfl, fun _ _ => rfl, fun _ => Iff.rfl⟩

theorem SiftRes.comp {s t u : KHeap} (h1 : SiftRes s t) (h2 : SiftRes t u) :
    SiftRes s u where
  pos := h2.pos
  size_eq := h2.size_eq.trans h1.size_eq
  key_eq := h2.key_eq.trans h1.key_eq
  frame_heap := fun p hp =>
    (h2.frame_heap p (h1.size_eq ▸ hp)).trans (h1.frame_heap p hp)
  frame_pos := fun w hw =>
    (h2.frame_pos w (fun hin => hw ((h1.mem_iff w).mp hin))).trans (h1.frame_pos w hw)
  mem_iff := fun w => (h2.mem_iff w).trans (h1.mem_iff w)

theorem swap_SiftRes (s : KHeap) (hpos : posOf s) {i j : Nat}
    (hi : i < s.size) (hj : j < s.size) : SiftRes s (s.swapPos i j) where
  pos := swap_posOf s hpos hi hj
  size_eq := rfl
  key_eq := rfl
  frame_heap := fun p hp => by
    rw [swap_heap, if_neg (show ¬ p = j by omega), if_neg (show ¬ p = i by omega)]
  frame_pos := fun w hw => by
    rw [swap_heap_pos s hpos hi hj,
      if_neg (fun h => hw ⟨j, hj, h.symm⟩), if_neg (fun h => hw ⟨i, hi, h.symm⟩)]
  mem_iff := fun w => swap_inHeap s hi hj w

theorem kidGo_spec (k : Nat) (s : KHeap) (c0 : Nat) :
    ∀ fuel j m, fuel = k - j → m < k → c0 + m < s.size →
    (∀ o, o < j → c0 + o < s.size →
      s.key (s.heap (c0 + m)) ≤ s.key (s.heap (c0 + o))) →
    kidGo k s c0 j m < k ∧ c0 + kidGo k s c0 j m < s.size ∧
      ∀ o, o < k → c0 + o < s.size →
        s.key (s.heap (c0 + kidGo k s c0 j m)) ≤ s.key (s.heap (c0 + o)) := by
  intro fuel
  induction fuel with
  | zero =>
    intro j m hfuel hm hbound hpre
    have hj : ¬ (j < k ∧ c0 + j < s.size) := fun h => by omega
    rw [kidGo, if_neg hj]
    exact ⟨hm, hbound, fun o ho hos => hpre o (by omega) hos⟩
  | succ fuel ih =>
    intro j m hfuel hm hbound hpre
    have hjk : j < k := by omega
    rw [kidGo]
    by_cases hsz : c0 + j < s.size
    · rw [if_pos ⟨hjk, hsz⟩]
      by_cases hlt : s.key (s.heap (c0 + j)) < s.key (s.heap (c0 + m))
      · rw [if_pos hlt]
        exact ih (j + 1) j (by omega) hjk hsz
          (fun o ho hos => by
            rcases Nat.lt_or_ge o j with h | h
            · exact Nat.le_trans (Nat.le_of_lt hlt) (hpre o h hos)
            · have : o = j := by omega
              rw [this])
      · rw [if_neg hlt]
        exact ih (j + 1) m (by omega) hm hbound
          (fun o ho hos => by
            rcases Nat.lt_or_ge o j with h | h
            · exact hpre o h hos
            · have : o = j := by omega
              rw [this]
              exact Nat.le_of_not_lt hlt)
    · rw [if_neg (fun h => hsz h.2)]
      refine ⟨hm, hbound, fun o ho hos => ?_⟩
      rcases Nat.lt_or_ge o j with h | h
      · exact hpre o h hos
      · exact absurd hos (by omega)

theorem kid_spec (k : Nat) (hk : 0 < k) (s : KHeap) (i : Nat)
    (h : i * k + 1 < s.size) :
    i * k + 1 ≤ s.kid k i ∧ s.kid k i ≤ i * k + k ∧ s.kid k i < s.size ∧
    ∀ j, i * k + 1 ≤ j → j ≤ i * k + k → j < s.size →
      s.key (s.heap (s.kid k i)) ≤ s.key (s.heap j) := by
  have spec := kidGo_spec k s (i * k + 1) (k - 1) 1 0 (by omega) hk
    (by omega) (fun o ho _ => by interval_cases o; exact Nat.le_refl _)
  rw [KHeap.kid]
  refine ⟨by omega, by omega, spec.2.1, fun j hj1 hj2 hjs => ?_⟩
  have hrange : j - (i * k + 1) < k := by omega
  have := spec.2.2 (j - (i * k + 1)) hrange (by omega)
  rwa [show i * k + 1 + (j - (i * k + 1)) = j by omega] at this

/-- Heap order on every parent-child edge not incident to position `i`. -/
def ordExcept (k : Nat) (s : KHeap) (i : Nat) : Prop :=
  ∀ p j, j < s.size → p * k + 1 ≤ j → j ≤ p * k + k → p ≠ i → j ≠ i →
    s.key (s.heap p) ≤ s.key (s.heap j)

/-- The grandparent bound at `i`: `i`'s parent is below `i`'s children. -/
def gpBound (k : Nat) (s : KHeap) (i : Nat) : Prop :=
  0 < i → ∀ j, j < s.size → i * k + 1 ≤ j → j ≤ i * k + k →
    s.key (s.heap ((i - 1) / k)) ≤ s.key (s.heap j)

/-- The edge from `i`'s parent into `i` already holds. -/
def downSafe (k : Nat) (s : KHeap) (i : Nat) : Prop :=
  0 < i → s.key (s.heap ((i - 1) / k)) ≤ s.key (s.heap i)

/-- The edges from `i` into its children already hold. -/
def upSafe (k : Nat) (s : KHeap) (i : Nat) : Prop :=
  ∀ j, j < s.size → i * k + 1 ≤ j → j ≤ i * k + k →
    s.key (s.heap i) ≤ s.key (s.heap j)

theorem siftDown_ok (k : Nat) (hk : 0 < k) :
    ∀ fuel s i, fuel = s.size - i → posOf s → i < s.size →
    ordExcept k s i → gpBound k s i → downSafe k s i →
    SiftRes s (KHeap.siftDown k hk s i).1 ∧
      heapOrd k (KHeap.siftDown k hk s i).1 ∧
      (KHeap.siftDown k hk s i).2 < (KHeap.siftDown k hk s i).1.size := by
  intro fuel
  induction fuel using Nat.strong_induction_on with
  | _ fuel ih =>
    intro s i hfuel hpos hi hord hgp hds
    have hik : i ≤ i * k := Nat.le_mul_of_pos_right i hk
    rw [KHeap.siftDown]
    by_cases hcond : i * k + 1 < s.size ∧ s.key (s.heap (s.kid k i)) < s.key (s.heap i)
    · rw [dif_pos hcond]
      obtain ⟨hc1, hc2, hc3, hcmin⟩ := kid_spec k hk s i hcond.1
      have hic : i < s.kid k i := by omega
      have hparc : (s.kid k i - 1) / k = i := parent_of_child k i (s.kid k i) hk hc1 hc2
      have hswres := swap_SiftRes s hpos hi hc3
      have hpos' : posOf (s.swapPos i (s.kid k i)) := hswres.pos
      have hsz' : (s.swapPos i (s.kid k i)).size = s.size := rfl
      have hkey' : (s.swapPos i (s.kid k i)).key = s.key := rfl
      have hord' : ordExcept k (s.swapPos i (s.kid k i)) (s.kid k i) := by
        intro p j hj hcl hcu hpc hjc
        rw [hsz'] at hj
        rw [hkey', swap_heap, swap_heap]
        have hple : p ≤ p * k := Nat.le_mul_of_pos_right p hk
        by_cases hpi : p = i
        · have hji : j ≠ i := by omega
          rw [if_neg hpc, if_pos hpi, if_neg hjc, if_neg hji]
          exact hcmin j (hpi ▸ hcl) (hpi ▸ hcu) hj
        · by_cases hji : j = i
          · have hp0 : p * k + 1 ≤ i := hji ▸ hcl
            have hpar : p = (i - 1) / k :=
              (parent_of_child k p i hk hp0 (hji ▸ hcu)).symm
            have h0i : 0 < i := by omega
            rw [if_neg hpc, if_neg hpi, if_neg hjc, if_pos hji, hpar]
            exact hgp h0i (s.kid k i) hc3 hc1 hc2
          · rw [if_neg hpc, if_neg hpi, if_neg hjc, if_neg hji]
            exact hord p j hj hcl hcu hpi hji
      have hgp' : gpBound k (s.swapPos i (s.kid k i)) (s.kid k i) := by
        intro hc0 j hj hcl hcu
        rw [hsz'] at hj
        have hck : s.kid k i ≤ s.kid k i * k := Nat.le_mul_of_pos_right _ hk
        have hjc : j ≠ s.kid k i := by omega
        have hji : j ≠ i := by omega
        rw [hkey', swap_heap, swap_heap, hparc,
          if_neg (show ¬ i = s.kid k i by omega), if_pos rfl, if_neg hjc, if_neg hji]
        exact hord (s.kid k i) j hj hcl hcu (by omega) hji
      have hds' : downSafe k (s.swapPos i (s.kid k i)) (s.kid k i) := by
        intro _
        rw [hkey', swap_heap, swap_heap, hparc,
          if_neg (show ¬ i = s.kid k i by omega), if_pos rfl, if_pos rfl]
        exact Nat.le_of_lt hcond.2
      have hrec := ih (s.size - s.kid k i) (by omega)
        (s.swapPos i (s.kid k i)) (s.kid k i) (by rw [hsz']) hpos'
        (by rw [hsz']; exact hc3) hord' hgp' hds'
      exact ⟨hswres.comp hrec.1, hrec.2.1, hrec.2.2⟩
    · rw [dif_neg hcond]
      refine ⟨SiftRes.refl_res s hpos, ?_, hi⟩
      show heapOrd k s
      intro p j hj hcl hcu
      have hple : p ≤ p * k := Nat.le_mul_of_pos_right p hk
      by_cases hpi : p = i
      · subst hpi
        have hsz : p * k + 1 < s.size := by omega
        obtain ⟨hc1, hc2, hc3, hcmin⟩ := kid_spec k hk s p hsz
        have hnotlt : ¬ s.key (s.heap (s.kid k p)) < s.key (s.heap p) :=
          fun hlt => hcond ⟨hsz, hlt⟩
        exact Nat.le_trans (Nat.le_of_not_lt hnotlt) (hcmin j hcl hcu hj)
      · by_cases hji : j = i
        · have hp0 : p * k + 1 ≤ i := hji ▸ hcl
          have hpar : p = (i - 1) / k :=
            (parent_of_child k p i hk hp0 (hji ▸ hcu)).symm
          rw [hji, hpar]
          exact hds (by omega)
        · exact hord p j hj hcl hcu hpi hji

theorem siftUp_of_heapOrd (k : Nat) (hk : 0 < k) (s : KHeap) (i : Nat)
    (hord : heapOrd k s) (hi : i < s.size) : KHeap.siftUp k s i = s := by
  rw [KHeap.siftUp]
  rcases Nat.eq_zero_or_pos i with rfl | hpos
  · rw [dif_neg]
    rintro ⟨h0, _⟩
    exact absurd h0 (Nat.lt_irrefl 0)
  · obtain ⟨hc1, hc2⟩ := parent_child_bounds k i hk hpos
    rw [dif_neg]
    rintro ⟨_, hlt⟩
    exact absurd hlt (Nat.not_lt_of_le (hord _ i hi hc1 hc2))

theorem siftUp_ok (k : Nat) (hk : 0 < k) :
    ∀ i s, posOf s → i < s.size →
    (∀ p j, j < s.size → p * k + 1 ≤ j → j ≤ p * k + k → j ≠ i →
      s.key (s.heap p) ≤ s.key (s.heap j)) →
    gpBound k s i →
    SiftRes s (KHeap.siftUp k s i) ∧ heapOrd k (KHeap.siftUp k s i) := by
  intro i
  induction i using Nat.strong_induction_on with
  | _ i ih =>
    intro s hpos hi hord hgp
    rw [KHeap.siftUp]
    by_cases hcond : 0 < i ∧ s.key (s.heap i) < s.key (s.heap ((i - 1) / k))
    · rw [dif_pos hcond]
      obtain ⟨h0, hlt⟩ := hcond
      obtain ⟨hc1, hc2⟩ := parent_child_bounds k i hk h0
      have hparlt : (i - 1) / k < i :=
        Nat.lt_of_le_of_lt (Nat.div_le_self _ _) (Nat.pred_lt (Nat.pos_iff_ne_zero.mp h0))
      have hpar : (i - 1) / k < s.size := Nat.lt_trans hparlt hi
      have hswres := swap_SiftRes s hpos hi hpar
      have hpos2 : posOf (s.swapPos i ((i - 1) / k)) := hswres.pos
      have hord2 : ∀ p j, j < (s.swapPos i ((i - 1) / k)).size → p * k + 1 ≤ j →
          j ≤ p * k + k → j ≠ (i - 1) / k →
          (s.swapPos i ((i - 1) / k)).key ((s.swapPos i ((i - 1) / k)).heap p) ≤
            (s.swapPos i ((i - 1) / k)).key ((s.swapPos i ((i - 1) / k)).heap j) := by
        intro p j hj hcl hcu hjpar
        rw [swap_size] at hj
        rw [swap_key, swap_heap, swap_heap]
        have hple : p ≤ p * k := Nat.le_mul_of_pos_right p hk
        by_cases hji : j = i
        · have hp : p = (i - 1) / k :=
            (parent_of_child k p i hk (hji ▸ hcl) (hji ▸ hcu)).symm
          rw [if_neg hjpar, if_pos hji, if_pos hp]
          exact Nat.le_of_lt hlt
        · rw [if_neg hjpar, if_neg hji]
          by_cases hpi : p = i
          · rw [if_neg (show ¬ p = (i - 1) / k by omega), if_pos hpi]
            exact hgp h0 j hj (hpi ▸ hcl) (hpi ▸ hcu)
          · by_cases hppar : p = (i - 1) / k
            · rw [if_pos hppar]
              exact Nat.le_trans (Nat.le_of_lt hlt)
                (hppar ▸ hord p j hj hcl hcu hji)
            · rw [if_neg hppar, if_neg hpi]
              exact hord p j hj hcl hcu hji
      have hgp2 : gpBound k (s.swapPos i ((i - 1) / k)) ((i - 1) / k) := by
        intro hpar0 j hj hcl hcu
        rw [swap_size] at hj
        rw [swap_key, swap_heap, swap_heap]
        obtain ⟨hd1, hd2⟩ := parent_child_bounds k ((i - 1) / k) hk hpar0
        have hgplt : ((i - 1) / k - 1) / k < (i - 1) / k :=
          Nat.lt_of_le_of_lt (Nat.div_le_self _ _)
            (Nat.pred_lt (Nat.pos_iff_ne_zero.mp hpar0))
        have hgpne : ¬ ((i - 1) / k - 1) / k = (i - 1) / k := by omega
        have hgpni : ¬ ((i - 1) / k - 1) / k = i := by omega
        have hparni : ¬ ((i - 1) / k) = i := by omega
        have hjne : ¬ j = (i - 1) / k := by
          have : (i - 1) / k ≤ (i - 1) / k * k := Nat.le_mul_of_pos_right _ hk
          omega
        rw [if_neg hgpne, if_neg hgpni, if_neg hjne]
        have hbase : s.key (s.heap (((i - 1) / k - 1) / k)) ≤ s.key (s.heap ((i - 1) / k)) :=
          hord _ _ hpar hd1 hd2 hparni
        by_cases hji : j = i
        · rw [if_pos hji]
          exact hbase
        · rw [if_neg hji]
          exact Nat.le_trans hbase (hord _ j hj hcl hcu hji)
      have hrec := ih ((i - 1) / k) hparlt (s.swapPos i ((i - 1) / k)) hpos2
        (by rw [swap_size]; exact hpar) hord2 hgp2
      exact ⟨hswres.comp hrec.1, hrec.2⟩
    · rw [dif_neg hcond]
      refine ⟨SiftRes.refl_res s hpos, ?_⟩
      intro p j hj hcl hcu
      have hple : p ≤ p * k := Nat.le_mul_of_pos_right p hk
      by_cases hji : j = i
      · have h0 : 0 < i := by omega
        have hp : p = (i - 1) / k :=
          (parent_of_child k p i hk (hji ▸ hcl) (hji ▸ hcu)).symm
        have hnlt : ¬ s.key (s.heap i) < s.key (s.heap ((i - 1) / k)) :=
          fun hl => hcond ⟨h0, hl⟩
        rw [hji, hp]
        exact Nat.le_of_not_lt hnlt
      · exact hord p j hj hcl hcu hji

theorem fixup_ok (k : Nat) (hk : 0 < k) (s : KHeap) (i : Nat)
    (hpos : posOf s) (hi : i < s.size) (hord : ordExcept k s i)
    (hgp : gpBound k s i) (hud : downSafe k s i ∨ upSafe k s i) :
    SiftRes s (KHeap.fixup k hk s i) ∧ heapOrd k (KHeap.fixup k hk s i) := by
  rcases hud with hds | hus
  · obtain ⟨hres, hordres, hlt⟩ :=
      siftDown_ok k hk (s.size - i) s i rfl hpos hi hord hgp hds
    rw [KHeap.fixup, siftUp_of_heapOrd k hk _ _ hordres hlt]
    exact ⟨hres, hordres⟩
  · have hdown : KHeap.siftDown k hk s i = (s, i) := by
      rw [KHeap.siftDown, dif_neg]
      rintro ⟨hsz, hlt⟩
      obtain ⟨hc1, hc2, hc3, _⟩ := kid_spec k hk s i hsz
      exact absurd hlt (Nat.not_lt_of_le (hus _ hc3 hc1 hc2))
    rw [KHeap.fixup, hdown]
    exact siftUp_ok k hk i s hpos hi
      (fun p j hj hcl hcu hji => by
        by_cases hpi : p = i
        · subst hpi
          exact hus j hj hcl hcu
        · exact hord p j hj hcl hcu hpi hji)
      hgp

theorem present_iff_inHeap (s : KHeap) (hpos : posOf s) (hclean : absentClean s)
    (hsz : s.size < invalidPos) (w : Nat) : s.present w ↔ s.inHeap w :=
  ⟨present_loc s hclean, inHeap_present s hpos hsz⟩

theorem size_le_card (s : KHeap) (n : Nat) (hpos : posOf s)
    (helems : ∀ v, s.inHeap v → v < n) : s.size ≤ n := by
  have := Finset.card_le_card_of_injOn s.heap
    (fun a ha => by
      rw [Finset.mem_range] at ha
      rw [Finset.mem_range]
      exact helems _ ⟨a, ha, rfl⟩)
    (fun a ha b hb hab => by
      rw [Finset.coe_range, Set.mem_Iio] at ha hb
      exact heap_inj s hpos ha hb hab)
  simpa using this

theorem size_lt_of_absent (s : KHeap) (n : Nat) (hpos : posOf s)
    (helems : ∀ v, s.inHeap v → v < n) (hninv : n < invalidPos)
    {v : Nat} (hv : v < n) (habs : s.heap_pos v = invalidPos) : s.size < n := by
  have hle := size_le_card s n hpos helems
  have hnotin : ∀ a, a < s.size → s.heap a ≠ v := by
    intro a ha hav
    have := hpos a ha
    rw [hav, habs] at this
    omega
  have := Finset.card_le_card_of_injOn s.heap
    (fun a ha => by
      rw [Finset.mem_range] at ha
      rw [Finset.mem_erase]
      exact ⟨hnotin a ha, Finset.mem_range.mpr (helems _ ⟨a, ha, rfl⟩)⟩)
    (fun a ha b hb hab => by
      rw [Finset.coe_range, Set.mem_Iio] at ha hb
      exact heap_inj s hpos ha hb hab)
  rw [Finset.card_range, Finset.card_erase_of_mem (Finset.mem_range.mpr hv),
    Finset.card_range] at this
  omega

theorem update_WF (k n : Nat) (hk : 0 < k) (s : KHeap) (v kk : Nat)
    (hwf : KHeapWF k n s) (hv : v < n) :
    KHeapWF k n (KHeap.update k hk s v kk) ∧
      (KHeap.update k hk s v kk).key = Function.update s.key v kk ∧
      (∀ w, (KHeap.update k hk s v kk).present w ↔ (s.present w ∨ w = v)) ∧
      (¬ s.present v → (KHeap.update k hk s v kk).size = s.size + 1) ∧
      (s.present v → (KHeap.update k hk s v kk).size = s.size) := by
  obtain ⟨hninv, hpos, hclean, helems, hszle, hord⟩ := hwf
  have hszinv : s.size < invalidPos := Nat.lt_of_le_of_lt hszle hninv
  by_cases hcase : s.heap_pos v = invalidPos
  · -- v is absent: it is appended at position s.size
    have habs : ¬ s.present v := fun h => h hcase
    have hslt : s.size < n := size_lt_of_absent s n hpos helems hninv hv hcase
    have hnotin : ∀ a, a < s.size → s.heap a ≠ v := by
      intro a ha hav
      have := hpos a ha
      rw [hav, hcase] at this
      omega
    have hupd : KHeap.update k hk s v kk =
        KHeap.fixup k hk
          ⟨s.size + 1, Function.update s.heap s.size v,
            Function.update s.heap_pos v s.size,
            Function.update s.key v kk⟩ s.size := by
      rw [KHeap.update, if_pos hcase]
      simp only [Function.update_same]
    set s2 : KHeap :=
      ⟨s.size + 1, Function.update s.heap s.size v,
        Function.update s.heap_pos v s.size,
        Function.update s.key v kk⟩ with hs2
    have hsz2 : s2.size = s.size + 1 := rfl
    have hheap2 : ∀ q, q < s.size → s2.heap q = s.heap q := by
      intro q hq
      exact Function.update_noteq (by omega) _ _
    have hkey2 : ∀ w, w ≠ v → s2.key w = s.key w := by
      intro w hw
      exact Function.update_noteq hw _ _
    have hpos2 : posOf s2 := by
      intro q hq
      rw [hsz2] at hq
      rcases Nat.lt_or_ge q s.size with h | h
      · rw [hheap2 q h]
        show Function.update s.heap_pos v s.size (s.heap q) = q
        rw [Function.update_noteq (hnotin q h)]
        exact hpos q h
      · have hq' : q = s.size := by omega
        rw [hq']
        show Function.update s.heap_pos v s.size (s2.heap s.size) = s.size
        have hvq : s2.heap s.size = v := Function.update_same _ _ _
        rw [hvq, Function.update_same]
    have hin2 : ∀ w, s2.inHeap w ↔ (s.inHeap w ∨ w = v) := by
      intro w
      constructor
      · rintro ⟨q, hq, rfl⟩
        rw [hsz2] at hq
        rcases Nat.lt_or_ge q s.size with h | h
        · exact Or.inl ⟨q, h, (hheap2 q h).symm⟩
        · have hq' : q = s.size := by omega
          subst hq'
          exact Or.inr (Function.update_same _ _ _)
      · rintro (⟨q, hq, rfl⟩ | rfl)
        · exact ⟨q, by omega, hheap2 q hq⟩
        · exact ⟨s.size, by omega, Function.update_same _ _ _⟩
    have hfix := fixup_ok k hk s2 s.size hpos2 (by omega)
      (by
        intro p j hj hcl hcu hpn hjn
        rw [hsz2] at hj
        have hj' : j < s.size := by omega
        have hp' : p < s.size := by
          have hple : p ≤ p * k := Nat.le_mul_of_pos_right p hk
          omega
        rw [hheap2 j hj', hheap2 p hp']
        rw [show s2.key = Function.update s.key v kk from rfl]
        rw [Function.update_noteq (hnotin p hp'), Function.update_noteq (hnotin j hj')]
        exact hord p j hj' hcl hcu)
      (by
        intro _ j hj hcl hcu
        rw [hsz2] at hj
        have hple : s.size ≤ s.size * k := Nat.le_mul_of_pos_right _ hk
        omega)
      (Or.inr (by
        intro j hj hcl hcu
        rw [hsz2] at hj
        have hple : s.size ≤ s.size * k := Nat.le_mul_of_pos_right _ hk
        omega))
    obtain ⟨hres, hordres⟩ := hfix
    rw [hupd]
    set t := KHeap.fixup k hk s2 s.size with ht
    have htsz : t.size = s.size + 1 := by rw [hres.size_eq, hsz2]
    have htin : ∀ w, t.inHeap w ↔ (s.inHeap w ∨ w = v) := by
      intro w
      rw [hres.mem_iff w]
      exact hin2 w
    have htclean : absentClean t := by
      intro w hw
      rw [htin w] at hw
      push_neg at hw
      have hnot2 : ¬ s2.inHeap w := fun hin => by
        rcases (hin2 w).mp hin with h | h
        · exact hw.1 h
        · exact hw.2 h
      rw [hres.frame_pos w hnot2]
      show Function.update s.heap_pos v s.size w = invalidPos
      rw [Function.update_noteq hw.2]
      exact hclean w hw.1
    have htpres : ∀ w, t.present w ↔ (s.present w ∨ w = v) := by
      intro w
      rw [present_iff_inHeap t hres.pos htclean (by omega), htin w,
        ← present_iff_inHeap s hpos hclean hszinv]
    refine ⟨⟨hninv, hres.pos, htclean, ?_, by omega, hordres⟩, ?_, htpres,
      fun _ => htsz, fun hp => absurd hp habs⟩
    · intro w hw
      rcases (htin w).mp hw with h | rfl
      · exact helems w h
      · exact hv
    · rw [hres.key_eq]
  · -- v is already stored: only its key changes
    have hpres : s.present v := hcase
    obtain ⟨hploc, hpheap⟩ := present_pos s hpos hclean hpres
    have hupd : KHeap.update k hk s v kk =
        KHeap.fixup k hk ⟨s.size, s.heap, s.heap_pos, Function.update s.key v kk⟩
          (s.heap_pos v) := by
      rw [KHeap.update, if_neg hcase]
    set s2 : KHeap := ⟨s.size, s.heap, s.heap_pos, Function.update s.key v kk⟩ with hs2
    have hsz2 : s2.size = s.size := rfl
    have hpos2 : posOf s2 := hpos
    have hneq : ∀ q, q < s.size → q ≠ s.heap_pos v → s.heap q ≠ v := by
      intro q hq hqv h
      rw [← hpheap] at h
      exact hqv (heap_inj s hpos hq hploc h)
    obtain ⟨hb1, hb2⟩ :
        (0 < s.heap_pos v →
          (s.heap_pos v - 1) / k * k + 1 ≤ s.heap_pos v ∧
            s.heap_pos v ≤ (s.heap_pos v - 1) / k * k + k) ∧
        (s.heap_pos v - 1) / k ≤ s.heap_pos v := by
      constructor
      · intro h0
        exact parent_child_bounds k _ hk h0
      · exact Nat.le_trans (Nat.div_le_self _ _) (Nat.sub_le _ _)
    have hfix := fixup_ok k hk s2 (s.heap_pos v) hpos2 hploc
      (by
        intro p j hj hcl hcu hpn hjn
        have hp' : p < s.size := by
          have hple : p ≤ p * k := Nat.le_mul_of_pos_right p hk
          omega
        show Function.update s.key v kk (s.heap p) ≤ Function.update s.key v kk (s.heap j)
        rw [Function.update_noteq (hneq p hp' hpn), Function.update_noteq (hneq j hj hjn)]
        exact hord p j hj hcl hcu)
      (by
        intro h0 j hj hcl hcu
        obtain ⟨hd1, hd2⟩ := hb1 h0
        have hparlt : (s.heap_pos v - 1) / k < s.heap_pos v := by
          exact Nat.lt_of_le_of_lt (Nat.div_le_self _ _)
            (Nat.pred_lt (Nat.pos_iff_ne_zero.mp h0))
        have hjgt : s.heap_pos v < j := by
          have hple : s.heap_pos v ≤ s.heap_pos v * k := Nat.le_mul_of_pos_right _ hk
          omega
        show Function.update s.key v kk (s.heap ((s.heap_pos v - 1) / k)) ≤
          Function.update s.key v kk (s.heap j)
        rw [Function.update_noteq (hneq _ (by omega) (by omega)),
          Function.update_noteq (hneq j hj (by omega))]
        calc s.key (s.heap ((s.heap_pos v - 1) / k))
            ≤ s.key (s.heap (s.heap_pos v)) := hord _ _ hploc hd1 hd2
          _ ≤ s.key (s.heap j) := hord _ j hj hcl hcu)
      (by
        by_cases hkk : s.key v ≤ kk
        · refine Or.inl (fun h0 => ?_)
          obtain ⟨hd1, hd2⟩ := hb1 h0
          have hparlt : (s.heap_pos v - 1) / k < s.heap_pos v := by
            exact Nat.lt_of_le_of_lt (Nat.div_le_self _ _)
              (Nat.pred_lt (Nat.pos_iff_ne_zero.mp h0))
          show Function.update s.key v kk (s.heap ((s.heap_pos v - 1) / k)) ≤
            Function.update s.key v kk (s.heap (s.heap_pos v))
          rw [Function.update_noteq (hneq _ (by omega) (by omega)), hpheap,
            Function.update_same]
          have := hord _ _ hploc hd1 hd2
          rw [hpheap] at this
          omega
        · refine Or.inr (fun j hj hcl hcu => ?_)
          have hjgt : s.heap_pos v < j := by
            have hple : s.heap_pos v ≤ s.heap_pos v * k := Nat.le_mul_of_pos_right _ hk
            omega
          show Function.update s.key v kk (s.heap (s.heap_pos v)) ≤
            Function.update s.key v kk (s.heap j)
          rw [hpheap, Function.update_same,
            Function.update_noteq (hneq j hj (by omega))]
          have := hord _ j hj hcl hcu
          rw [hpheap] at this
          omega)
    obtain ⟨hres, hordres⟩ := hfix
    rw [hupd]
    set t := KHeap.fixup k hk s2 (s.heap_pos v) with ht
    have htsz : t.size = s.size := hres.size_eq
    have htin : ∀ w, t.inHeap w ↔ s.inHeap w := fun w => hres.mem_iff w
    have htclean : absentClean t := by
      intro w hw
      rw [htin w] at hw
      rw [hres.frame_pos w hw]
      exact hclean w hw
    have htpres : ∀ w, t.present w ↔ (s.present w ∨ w = v) := by
      intro w
      rw [present_iff_inHeap t hres.pos htclean (by omega), htin w,
        ← present_iff_inHeap s hpos hclean hszinv]
      constructor
      · exact Or.inl
      · rintro (h | rfl)
        · exact h
        · exact hpres
    refine ⟨⟨hninv, hres.pos, htclean, ?_, by omega, hordres⟩, ?_, htpres,
      fun hp => absurd hpres hp, fun _ => htsz⟩
    · intro w hw
      exact helems w ((htin w).mp hw)
    · rw [hres.key_eq]

theorem extract_WF (k n : Nat) (hk : 0 < k) (s : KHeap) (v : Nat)
    (hwf : KHeapWF k n s) :
    KHeapWF k n (KHeap.extract k hk s v) ∧
      (KHeap.extract k hk s v).key = s.key ∧
      (∀ w, (KHeap.extract k hk s v).present w ↔ (s.present w ∧ w ≠ v)) ∧
      (s.present v → (KHeap.extract k hk s v).size = s.size - 1) ∧
      (¬ s.present v → KHeap.extract k hk s v = s) := by
  obtain ⟨hninv, hpos, hclean, helems, hszle, hord⟩ := hwf
  have hszinv : s.size < invalidPos := Nat.lt_of_le_of_lt hszle hninv
  by_cases hcase : s.heap_pos v = invalidPos
  · -- v is absent: extract is a no-op
    have habs : ¬ s.present v := fun h => h hcase
    have hid : KHeap.extract k hk s v = s := by
      rw [KHeap.extract, if_pos hcase]
    rw [hid]
    refine ⟨⟨hninv, hpos, hclean, helems, hszle, hord⟩, rfl, ?_,
      fun hp => absurd hp habs, fun _ => rfl⟩
    intro w
    constructor
    · intro h
      refine ⟨h, ?_⟩
      rintro rfl
      exact habs h
    · exact And.left
  · have hpres : s.present v := hcase
    obtain ⟨hploc, hpheap⟩ := present_pos s hpos hclean hpres
    by_cases hmid : s.heap_pos v < s.size - 1
    · -- v is strictly inside: the last element replaces it and is fixed up
      have hxne : s.heap (s.size - 1) ≠ v := by
        intro h
        rw [← hpheap] at h
        have := heap_inj s hpos (by omega) hploc h
        omega
      have hxpos : s.heap_pos (s.heap (s.size - 1)) = s.size - 1 := hpos _ (by omega)
      have hupd : KHeap.extract k hk s v =
          { KHeap.fixup k hk
              ((⟨s.size - 1, s.heap, s.heap_pos, s.key⟩ : KHeap).swapPos
                (s.heap_pos v) (s.size - 1))
              (s.heap_pos v) with
            heap_pos := Function.update
              (KHeap.fixup k hk
                ((⟨s.size - 1, s.heap, s.heap_pos, s.key⟩ : KHeap).swapPos
                  (s.heap_pos v) (s.size - 1))
                (s.heap_pos v)).heap_pos v invalidPos } := by
        rw [KHeap.extract, if_neg hcase]
        simp only []
        rw [if_pos hmid]
      set sw : KHeap :=
        (⟨s.size - 1, s.heap, s.heap_pos, s.key⟩ : KHeap).swapPos
          (s.heap_pos v) (s.size - 1) with hsw
      have hswsz : sw.size = s.size - 1 := rfl
      have hswkey : sw.key = s.key := rfl
      have hswheap : ∀ q, sw.heap q =
          if q = s.size - 1 then v
          else if q = s.heap_pos v then s.heap (s.size - 1) else s.heap q := by
        intro q
        show Function.update (Function.update s.heap (s.heap_pos v)
          (s.heap (s.size - 1))) (s.size - 1) (s.heap (s.heap_pos v)) q = _
        rw [hpheap]
        simp only [Function.update]
        split
        · simp_all
        · split <;> simp_all
      have hswhp : ∀ w, sw.heap_pos w =
          if w = s.heap (s.size - 1) then s.heap_pos v
          else if w = v then s.size - 1 else s.heap_pos w := by
        intro w
        show Function.update (Function.update s.heap_pos
          (s.heap (s.heap_pos v)) (s.heap_pos (s.heap (s.size - 1))))
          (s.heap (s.size - 1)) (s.heap_pos (s.heap (s.heap_pos v))) w = _
        rw [hpheap, hxpos]
        simp only [Function.update]
        split
        · simp_all
        · split <;> simp_all
      have hswpos : posOf sw := by
        intro q hq
        rw [hswsz] at hq
        rw [hswheap q]
        by_cases hqp : q = s.heap_pos v
        · rw [if_neg (by omega), if_pos hqp, hswhp, if_pos rfl, hqp]
        · rw [if_neg (by omega), if_neg hqp, hswhp]
          have h1 : s.heap q ≠ s.heap (s.size - 1) := by
            intro h
            have := heap_inj s hpos (by omega) (by omega) h
            omega
          have h2 : s.heap q ≠ v := by
            intro h
            rw [← hpheap] at h
            exact hqp (heap_inj s hpos (by omega) hploc h)
          rw [if_neg h1, if_neg h2]
          exact hpos q (by omega)
      have hswin : ∀ w, sw.inHeap w ↔ (s.inHeap w ∧ w ≠ v) := by
        intro w
        constructor
        · rintro ⟨q, hq, rfl⟩
          rw [hswsz] at hq
          rw [hswheap q, if_neg (by omega)]
          by_cases hqp : q = s.heap_pos v
          · rw [if_pos hqp]
            exact ⟨⟨s.size - 1, by omega, rfl⟩, hxne⟩
          · rw [if_neg hqp]
            refine ⟨⟨q, by omega, rfl⟩, ?_⟩
            intro h
            rw [← hpheap] at h
            exact hqp (heap_inj s hpos (by omega) hploc h)
        · rintro ⟨⟨q, hq, rfl⟩, hne⟩
          have hqp : q ≠ s.heap_pos v := by
            intro h
            rw [h, hpheap] at hne
            exact hne rfl
          by_cases hql : q = s.size - 1
          · refine ⟨s.heap_pos v, by omega, ?_⟩
            rw [hswheap, if_neg (by omega), if_pos rfl, hql]
          · refine ⟨q, by omega, ?_⟩
            rw [hswheap, if_neg hql, if_neg hqp]
      have hfix := fixup_ok k hk sw (s.heap_pos v) hswpos (by omega)
        (by
          intro p j hj hcl hcu hpn hjn
          rw [hswsz] at hj
          have hp' : p < s.size - 1 := by
            have hple : p ≤ p * k := Nat.le_mul_of_pos_right p hk
            omega
          rw [hswkey, hswheap p, hswheap j, if_neg (by omega), if_neg hpn,
            if_neg (by omega), if_neg hjn]
          exact hord p j (by omega) hcl hcu)
        (by
          intro h0 j hj hcl hcu
          rw [hswsz] at hj
          have hparlt : (s.heap_pos v - 1) / k < s.heap_pos v :=
            Nat.lt_of_le_of_lt (Nat.div_le_self _ _)
              (Nat.pred_lt (Nat.pos_iff_ne_zero.mp h0))
          have hjgt : s.heap_pos v < j := by
            have hple : s.heap_pos v ≤ s.heap_pos v * k := Nat.le_mul_of_pos_right _ hk
            omega
          obtain ⟨hd1, hd2⟩ := parent_child_bounds k (s.heap_pos v) hk h0
          rw [hswkey, hswheap, hswheap, if_neg (by omega), if_neg (by omega),
            if_neg (by omega), if_neg (by omega)]
          calc s.key (s.heap ((s.heap_pos v - 1) / k))
              ≤ s.key (s.heap (s.heap_pos v)) := hord _ _ hploc hd1 hd2
            _ ≤ s.key (s.heap j) := hord _ j (by omega) hcl hcu)
        (by
          rcases Nat.eq_zero_or_pos (s.heap_pos v) with h0 | h0
          · exact Or.inl (fun hc => by omega)
          · have hparlt : (s.heap_pos v - 1) / k < s.heap_pos v :=
              Nat.lt_of_le_of_lt (Nat.div_le_self _ _)
                (Nat.pred_lt (Nat.pos_iff_ne_zero.mp h0))
            obtain ⟨hd1, hd2⟩ := parent_child_bounds k (s.heap_pos v) hk h0
            by_cases hxp : s.key (s.heap ((s.heap_pos v - 1) / k)) ≤
                s.key (s.heap (s.size - 1))
            · refine Or.inl (fun _ => ?_)
              rw [hswkey, hswheap, hswheap, if_neg (by omega), if_neg (by omega),
                if_neg (by omega), if_pos rfl]
              exact hxp
            · refine Or.inr (fun j hj hcl hcu => ?_)
              rw [hswsz] at hj
              have hjgt : s.heap_pos v < j := by
                have hple : s.heap_pos v ≤ s.heap_pos v * k :=
                  Nat.le_mul_of_pos_right _ hk
                omega
              rw [hswkey, hswheap, hswheap, if_neg (by omega), if_pos rfl,
                if_neg (by omega), if_neg (by omega)]
              have hchain : s.key (s.heap ((s.heap_pos v - 1) / k)) ≤
                  s.key (s.heap j) := by
                calc s.key (s.heap ((s.heap_pos v - 1) / k))
                    ≤ s.key (s.heap (s.heap_pos v)) := hord _ _ hploc hd1 hd2
                  _ ≤ s.key (s.heap j) := hord _ j (by omega) hcl hcu
              omega)
      obtain ⟨hres, hordres⟩ := hfix
      rw [hupd]
      set t2 := KHeap.fixup k hk sw (s.heap_pos v) with ht2
      have ht2sz : t2.size = s.size - 1 := hres.size_eq
      have ht2in : ∀ w, t2.inHeap w ↔ (s.inHeap w ∧ w ≠ v) := by
        intro w
        rw [hres.mem_iff w]
        exact hswin w
      have ht2key : t2.key = s.key := hres.key_eq
      have hvnotin : ¬ t2.inHeap v := by
        rw [ht2in v]
        rintro ⟨_, h⟩
        exact h rfl
      refine ⟨⟨hninv, ?_, ?_, ?_, ?_, ?_⟩, ?_, ?_, fun _ => ?_, fun hp => absurd hpres hp⟩
      · intro q hq
        show Function.update t2.heap_pos v invalidPos (t2.heap q) = q
        have : t2.heap q ≠ v := fun h => hvnotin ⟨q, hq, h⟩
        rw [Function.update_noteq this]
        exact hres.pos q hq
      · intro w hw
        by_cases hwv : w = v
        · subst hwv
          exact Function.update_same _ _ _
        · show Function.update t2.heap_pos v invalidPos w = invalidPos
          rw [Function.update_noteq hwv]
          have hnot2 : ¬ t2.inHeap w := hw
          have hnotsw : ¬ sw.inHeap w := fun h => hnot2 ((hres.mem_iff w).mpr h)
          rw [hres.frame_pos w hnotsw, hswhp,
            if_neg (fun h => hnotsw ((hswin w).mpr
              ⟨by rw [h]; exact ⟨s.size - 1, by omega, rfl⟩,
               by rw [h]; exact hxne⟩)), if_neg hwv]
          refine hclean w (fun hin => hnotsw ((hswin w).mpr ⟨hin, hwv⟩))
      · intro w hw
        exact helems w ((ht2in w).mp hw).1
      · show t2.size ≤ n
        omega
      · exact hordres
      · exact ht2key
      · intro w
        by_cases hwv : w = v
        · subst hwv
          constructor
          · intro h
            exact absurd (Function.update_same _ _ _) h
          · rintro ⟨_, h⟩
            exact absurd rfl h
        · show ¬ Function.update t2.heap_pos v invalidPos w = invalidPos ↔ _
          rw [Function.update_noteq hwv]
          by_cases hin : t2.inHeap w
          · have hp2 : t2.present w :=
              inHeap_present t2 hres.pos (by omega) hin
            have hps : s.present w :=
              inHeap_present s hpos hszinv ((ht2in w).mp hin).1
            exact iff_of_true hp2 ⟨hps, hwv⟩
          · have hnotsw : ¬ sw.inHeap w := fun h => hin ((hres.mem_iff w).mpr h)
            have hnots : ¬ s.inHeap w := fun h => hnotsw ((hswin w).mpr ⟨h, hwv⟩)
            have h1 : t2.heap_pos w = invalidPos := by
              rw [hres.frame_pos w hnotsw, hswhp,
                if_neg (fun h => hnotsw ((hswin w).mpr
                  ⟨by rw [h]; exact ⟨s.size - 1, by omega, rfl⟩,
                   by rw [h]; exact hxne⟩)), if_neg hwv]
              exact hclean w hnots
            refine iff_of_false (fun h => h h1) ?_
            rintro ⟨h, _⟩
            exact h (hclean w hnots)
      · exact ht2sz
    · -- v is the last stored element
      have hlast : s.heap_pos v = s.size - 1 := by omega
      have hupd : KHeap.extract k hk s v =
          ⟨s.size - 1, s.heap, Function.update s.heap_pos v invalidPos, s.key⟩ := by
        rw [KHeap.extract, if_neg hcase]
        simp only []
        rw [if_neg hmid]
      rw [hupd]
      have hnotin : ∀ q, q < s.size - 1 → s.heap q ≠ v := by
        intro q hq h
        rw [← hpheap] at h
        have := heap_inj s hpos (by omega) hploc h
        omega
      refine ⟨⟨hninv, ?_, ?_, ?_, by show s.size - 1 ≤ n; omega, ?_⟩, rfl, ?_,
        fun _ => rfl, fun hp => absurd hpres hp⟩
      · intro q hq
        have hq' : q < s.size - 1 := hq
        show Function.update s.heap_pos v invalidPos (s.heap q) = q
        rw [Function.update_noteq (hnotin q hq')]
        exact hpos q (by omega)
      · intro w hw
        by_cases hwv : w = v
        · subst hwv
          exact Function.update_same _ _ _
        · show Function.update s.heap_pos v invalidPos w = invalidPos
          rw [Function.update_noteq hwv]
          refine hclean w ?_
          rintro ⟨q, hq, rfl⟩
          by_cases hql : q = s.size - 1
          · rw [hql, ← hlast, hpheap] at hwv
            exact hwv rfl
          · exact hw ⟨q, show q < s.size - 1 by omega, rfl⟩
      · intro w hw
        obtain ⟨q, hq, rfl⟩ := hw
        have hq' : q < s.size - 1 := hq
        exact helems _ ⟨q, by omega, rfl⟩
      · intro p j hj hcl hcu
        have hj' : j < s.size - 1 := hj
        exact hord p j (by omega) hcl hcu
      · intro w
        by_cases hwv : w = v
        · subst hwv
          constructor
          · intro h
            exact absurd (Function.update_same _ _ _) h
          · rintro ⟨_, h⟩
            exact absurd rfl h
        · show ¬ Function.update s.heap_pos v invalidPos w = invalidPos ↔ _
          rw [Function.update_noteq hwv]
          constructor
          · exact fun h => ⟨h, hwv⟩
          · exact And.left

theorem init_WF (k n : Nat) (hn : n < invalidPos) : KHeapWF k n KHeap.init := by
  refine ⟨hn, ?_, ?_, ?_, ?_, ?_⟩
  · intro i hi
    exact absurd hi (by simp [KHeap.init])
  · intro v _
    rfl
  · rintro v ⟨q, hq, _⟩
    exact absurd hq (by simp [KHeap.init])
  · exact Nat.zero_le n
  · intro p j hj _ _
    exact absurd hj (by simp [KHeap.init])

/-- In a well-formed non-empty heap the top element is stored and carries
the minimum key among the stored elements. -/
theorem top_min (k n : Nat) (hk : 0 < k) (s : KHeap) (hwf : KHeapWF k n s)
    (hne : 0 < s.size) :
    s.present s.top ∧ ∀ w, s.present w → s.key s.top ≤ s.key w := by
  have hszinv : s.size < invalidPos := Nat.lt_of_le_of_lt hwf.size_le hwf.n_lt
  constructor
  · exact inHeap_present s hwf.pos hszinv ⟨0, hne, rfl⟩
  · intro w hw
    obtain ⟨hloc, hheap⟩ := present_pos s hwf.pos hwf.clean hw
    have := heapOrd_root_min k hk s hwf.ord (s.heap_pos w) hloc
    rwa [hheap] at this

/-- One heap operation of a test sequence (claims C6 and C10). -/
inductive HeapOp where
  | update (v kk : Nat) : HeapOp
  | extract (v : Nat) : HeapOp
  | pop : HeapOp
  | top : HeapOp
  | emptyq : HeapOp
deriving DecidableEq

/-- Execute one operation on a `KHeap`; the second component is the value
observed by the caller (for `pop`, `top` and `empty`). -/
def KHeap.stepOp (k : Nat) (hk : 0 < k) (s : KHeap) : HeapOp → KHeap × Option Nat
  | .update v kk => (KHeap.update k hk s v kk, none)
  | .extract v => (KHeap.extract k hk s v, none)
  | .pop => ((KHeap.pop k hk s).2, some (KHeap.pop k hk s).1)
  | .top => (s, some s.top)
  | .emptyq => (s, some (if s.emptyb then 1 else 0))

/-- Run a sequence of operations on a `KHeap`. -/
def KHeap.runOps (k : Nat) (hk : 0 < k) (s : KHeap) : List HeapOp → KHeap
  | [] => s
  | op :: ops => KHeap.runOps k hk (KHeap.stepOp k hk s op).1 ops

/-- The operation only mentions elements of the universe `[0, n)`. -/
def opValidb (n : Nat) : HeapOp → Bool
  | HeapOp.update v _ => v < n
  | HeapOp.extract v => v < n
  | _ => true

/-- The operations only mention elements of the universe `[0, n)`. -/
def opsValid (n : Nat) (ops : List HeapOp) : Prop :=
  ∀ op ∈ ops, opValidb n op = true

instance (n : Nat) (ops : List HeapOp) : Decidable (opsValid n ops) :=
  List.decidableBAll _ ops

theorem runOps_WF (k n : Nat) (hk : 0 < k) :
    ∀ (ops : List HeapOp) (s : KHeap), KHeapWF k n s → opsValid n ops →
    KHeapWF k n (KHeap.runOps k hk s ops) := by
  intro ops
  induction ops with
  | nil => exact fun s hs _ => hs
  | cons op ops ih =>
    intro s hs hval
    have hval' : opsValid n ops := fun o ho => hval o (List.mem_cons_of_mem op ho)
    have hop : ∀ o, o ∈ op :: ops → _ := hval
    cases op with
    | update v kk =>
      have hvn : v < n := by
        simpa [opValidb] using hval _ (List.mem_cons_self _ _)
      exact ih _ (update_WF k n hk s v kk hs hvn).1 hval'
    | extract v => exact ih _ (extract_WF k n hk s v hs).1 hval'
    | pop => exact ih _ (extract_WF k n hk s s.top hs).1 hval'
    | top => exact ih _ hs hval'
    | emptyq => exact ih _ hs hval'

/-- Drain the heap by repeated `pop`, recording the key of each popped
element (`fuel` bounds the number of pops; `size` suffices). -/
def drainKeys (k : Nat) (hk : 0 < k) : Nat → KHeap → List Nat
  | 0, _ => []
  | fuel + 1, s =>
    if s.size = 0 then []
    else s.key s.top :: drainKeys k hk fuel (KHeap.extract k hk s s.top)

theorem drainKeys_sorted (k n : Nat) (hk : 0 < k) :
    ∀ (fuel : Nat) (s : KHeap), KHeapWF k n s →
    (drainKeys k hk fuel s).Chain' (· ≤ ·) ∧
      (∀ a ∈ drainKeys k hk fuel s, ∃ w, s.present w ∧ a = s.key w) := by
  intro fuel
  induction fuel with
  | zero => exact fun s _ => ⟨List.chain'_nil, by simp [drainKeys]⟩
  | succ fuel ih =>
    intro s hs
    rw [drainKeys]
    by_cases hsz : s.size = 0
    · rw [if_pos hsz]
      exact ⟨List.chain'_nil, by simp⟩
    · rw [if_neg hsz]
      obtain ⟨htop, hmin⟩ := top_min k n hk s hs (Nat.pos_of_ne_zero hsz)
      have hext := extract_WF k n hk s s.top hs
      obtain ⟨hrest, hmem⟩ := ih (KHeap.extract k hk s s.top) hext.1
      constructor
      · refine List.chain'_cons'.mpr ⟨?_, hrest⟩
        intro b hb
        have hbmem : b ∈ drainKeys k hk fuel (KHeap.extract k hk s s.top) :=
          List.mem_of_mem_head? hb
        obtain ⟨w, hw, rfl⟩ := hmem b hbmem
        have hwpres : s.present w := ((hext.2.2.1 w).mp hw).1
        rw [hext.2.1]
        exact hmin w hwpres
      · intro a ha
        rcases List.mem_cons.mp ha with rfl | ha
        · exact ⟨s.top, htop, rfl⟩
        · obtain ⟨w, hw, rfl⟩ := hmem a ha
          exact ⟨w, ((hext.2.2.1 w).mp hw).1, (congrFun hext.2.1 w).symm ▸ rfl⟩

/-- C6: starting from `KHeap(n)`, after any finite sequence of `update`,
`extract`, `pop`, `top` and `empty` operations on elements below `n`, the
heap is well formed, a non-empty heap's `pop`/`top` return a stored element
of minimal current key, and draining the heap by repeated pops yields the
keys in non-decreasing order. -/
theorem claim_C6_kheap_pop_min (k n : Nat) (hk : 0 < k) (hn : n < invalidPos)
    (ops : List HeapOp) (hval : opsValid n ops) :
    KHeapWF k n (KHeap.runOps k hk KHeap.init ops) ∧
      (0 < (KHeap.runOps k hk KHeap.init ops).size →
        (KHeap.runOps k hk KHeap.init ops).present
            (KHeap.runOps k hk KHeap.init ops).top ∧
          ∀ w, (KHeap.runOps k hk KHeap.init ops).present w →
            (KHeap.runOps k hk KHeap.init ops).key
                (KHeap.runOps k hk KHeap.init ops).top ≤
              (KHeap.runOps k hk KHeap.init ops).key w) ∧
      ((drainKeys k hk (KHeap.runOps k hk KHeap.init ops).size
          (KHeap.runOps k hk KHeap.init ops)).Chain' (· ≤ ·)) := by
  have hwf := runOps_WF k n hk ops KHeap.init (init_WF k n hn) hval
  exact ⟨hwf, fun hpos => top_min k n hk _ hwf hpos,
    (drainKeys_sorted k n hk _ _ hwf).1⟩

theorem claim_C6_kheap_pop_min_witness :
    KHeapWF 4 3 (KHeap.runOps 4 (by decide) KHeap.init
        [HeapOp.update 0 7, HeapOp.update 1 3, HeapOp.update 2 5,
         HeapOp.pop, HeapOp.update 0 1, HeapOp.extract 2]) ∧
      (0 < (KHeap.runOps 4 (by decide) KHeap.init
          [HeapOp.update 0 7, HeapOp.update 1 3, HeapOp.update 2 5,
           HeapOp.pop, HeapOp.update 0 1, HeapOp.extract 2]).size →
        (KHeap.runOps 4 (by decide) KHeap.init
            [HeapOp.update 0 7, HeapOp.update 1 3, HeapOp.update 2 5,
             HeapOp.pop, HeapOp.update 0 1, HeapOp.extract 2]).present
            (KHeap.runOps 4 (by decide) KHeap.init
              [HeapOp.update 0 7, HeapOp.update 1 3, HeapOp.update 2 5,
               HeapOp.pop, HeapOp.update 0 1, HeapOp.extract 2]).top ∧
          ∀ w, (KHeap.runOps 4 (by decide) KHeap.init
              [HeapOp.update 0 7, HeapOp.update 1 3, HeapOp.update 2 5,
               HeapOp.pop, HeapOp.update 0 1, HeapOp.extract 2]).present w →
            (KHeap.runOps 4 (by decide) KHeap.init
                [HeapOp.update 0 7, HeapOp.update 1 3, HeapOp.update 2 5,
                 HeapOp.pop, HeapOp.update 0 1, HeapOp.extract 2]).key
                (KHeap.runOps 4 (by decide) KHeap.init
                  [HeapOp.update 0 7, HeapOp.update 1 3, HeapOp.update 2 5,
                   HeapOp.pop, HeapOp.update 0 1, HeapOp.extract 2]).top ≤
              (KHeap.runOps 4 (by decide) KHeap.init
                [HeapOp.update 0 7, HeapOp.update 1 3, HeapOp.update 2 5,
                 HeapOp.pop, HeapOp.update 0 1, HeapOp.extract 2]).key w) ∧
      ((drainKeys 4 (by decide) (KHeap.runOps 4 (by decide) KHeap.init
          [HeapOp.update 0 7, HeapOp.update 1 3, HeapOp.update 2 5,
           HeapOp.pop, HeapOp.update 0 1, HeapOp.extract 2]).size
          (KHeap.runOps 4 (by decide) KHeap.init
            [HeapOp.update 0 7, HeapOp.update 1 3, HeapOp.update 2 5,
             HeapOp.pop, HeapOp.update 0 1, HeapOp.extract 2])).Chain' (· ≤ ·)) :=
  claim_C6_kheap_pop_min 4 3 (by decide) (by decide)
    [HeapOp.update 0 7, HeapOp.update 1 3, HeapOp.update 2 5,
     HeapOp.pop, HeapOp.update 0 1, HeapOp.extract 2] (by decide)

/-- The legacy binary heap of `lib/binheap.hpp` (`BinHeap`): positions are
1-based (`heap[1..size]`), `heap_pos[v] = 0` marks `v` absent. -/
structure BinHeap where
  size : Nat
  heap : Nat → Nat
  heap_pos : Nat → Nat
  key : Nat → Nat

/-- `BinHeap(n)`: empty heap with value-initialised vectors. -/
def BinHeap.init : BinHeap := ⟨0, fun _ => 0, fun _ => 0, fun _ => 0⟩

/-- `BinHeap::swap(i, j)`. -/
def BinHeap.swapPos (s : BinHeap) (i j : Nat) : BinHeap :=
  { s with
    heap_pos := Function.update
      (Function.update s.heap_pos (s.heap i) (s.heap_pos (s.heap j)))
      (s.heap j) (s.heap_pos (s.heap i)),
    heap := Function.update (Function.update s.heap i (s.heap j)) j (s.heap i) }

/-- `BinHeap::kid(i)`: `2*i`, plus one when the right child exists and has
the smaller key. -/
def BinHeap.kid (s : BinHeap) (i : Nat) : Nat :=
  2 * i + (if 2 * i + 1 ≤ s.size ∧
    s.key (s.heap (2 * i + 1)) < s.key (s.heap (2 * i)) then 1 else 0)

/-- First loop of `BinHeap::fixup`. -/
def BinHeap.siftDown (s : BinHeap) (i : Nat) : BinHeap × Nat :=
  if h : i * 2 ≤ s.size ∧ s.key (s.heap (s.kid i)) < s.key (s.heap i) then
    BinHeap.siftDown (s.swapPos i (s.kid i)) (s.kid i)
  else (s, i)
termination_by s.size + 1 - i
decreasing_by
  have hki : i < s.kid i := by
    rw [BinHeap.kid]
    rcases Nat.eq_zero_or_pos i with rfl | hp
    · by_cases hc : 2 * 0 + 1 ≤ s.size ∧ s.key (s.heap (2 * 0 + 1)) < s.key (s.heap (2 * 0))
      · rw [if_pos hc]
        omega
      · exfalso
        rw [BinHeap.kid, if_neg hc] at h
        exact Nat.lt_irrefl _ h.2
    · split <;> omega
  have hsz : (s.swapPos i (s.kid i)).size = s.size := rfl
  have h1 := h.1
  omega

/-- Second loop of `BinHeap::fixup`. -/
def BinHeap.siftUp (s : BinHeap) (i : Nat) : BinHeap :=
  if h : 1 < i ∧ s.key (s.heap i) < s.key (s.heap (i / 2)) then
    BinHeap.siftUp (s.swapPos i (i / 2)) (i / 2)
  else s
termination_by i
decreasing_by
  have h1 := h.1
  omega

/-- `BinHeap::fixup(i)`. -/
def BinHeap.fixup (s : BinHeap) (i : Nat) : BinHeap :=
  BinHeap.siftUp (BinHeap.siftDown s i).1 (BinHeap.siftDown s i).2

/-- `BinHeap::update(v, k)`. -/
def BinHeap.update (s : BinHeap) (v kk : Nat) : BinHeap :=
  let s1 := if s.heap_pos v = 0 then
      { s with size := s.size + 1,
               heap_pos := Function.update s.heap_pos v (s.size + 1),
               heap := Function.update s.heap (s.size + 1) v }
    else s
  let s2 := { s1 with key := Function.update s1.key v kk }
  BinHeap.fixup s2 (s2.heap_pos v)

/-- `BinHeap::extract(v)` (`heap_pos[v] < size--` compares with the old
size, then `swap(pos, size + 1)` touches the old last slot). -/
def BinHeap.extract (s : BinHeap) (v : Nat) : BinHeap :=
  if s.heap_pos v = 0 then s
  else
    let s1 : BinHeap := { s with size := s.size - 1 }
    let s2 := if s.heap_pos v < s.size then
        BinHeap.fixup (s1.swapPos (s.heap_pos v) (s1.size + 1)) (s.heap_pos v)
      else s1
    { s2 with heap_pos := Function.update s2.heap_pos v 0 }

/-- `BinHeap::top()`: `heap[1]`. -/
def BinHeap.top (s : BinHeap) : Nat := s.heap 1

/-- `BinHeap::pop()`. -/
def BinHeap.pop (s : BinHeap) : Nat × BinHeap := (s.top, s.extract s.top)

/-- `BinHeap::empty()`. -/
def BinHeap.emptyb (s : BinHeap) : Bool := s.size == 0

/-- The lockstep relation between the legacy binary heap and a binary
(`k = 2`) `KHeap`: same size and keys, contents shifted by one position,
absent marked `0` on the left and `invalid` on the right. -/
structure BKRel (b : BinHeap) (s : KHeap) : Prop where
  size_eq : b.size = s.size
  heap_eq : ∀ i, b.heap (i + 1) = s.heap i
  pos_rel : ∀ v, (b.heap_pos v = 0 ∧ s.heap_pos v = invalidPos) ∨
    (s.heap_pos v ≠ invalidPos ∧ b.heap_pos v = s.heap_pos v + 1)
  key_eq : ∀ v, b.key v = s.key v

theorem BKRel.absent_iff {b : BinHeap} {s : KHeap} (h : BKRel b s) (v : Nat) :
    b.heap_pos v = 0 ↔ s.heap_pos v = invalidPos := by
  rcases h.pos_rel v with ⟨h1, h2⟩ | ⟨h1, h2⟩
  · exact iff_of_true h1 h2
  · exact iff_of_false (by omega) h1

theorem BKRel.pos_shift {b : BinHeap} {s : KHeap} (h : BKRel b s) {v : Nat}
    (hv : s.heap_pos v ≠ invalidPos) : b.heap_pos v = s.heap_pos v + 1 := by
  rcases h.pos_rel v with ⟨_, h2⟩ | ⟨_, h2⟩
  · exact absurd h2 hv
  · exact h2

theorem swap_BKRel {b : BinHeap} {s : KHeap} (h : BKRel b s) {i j : Nat}
    (hpi : s.heap_pos (s.heap i) = i) (hpj : s.heap_pos (s.heap j) = j)
    (hiv : i ≠ invalidPos) (hjv : j ≠ invalidPos) :
    BKRel (b.swapPos (i + 1) (j + 1)) (s.swapPos i j) := by
  have hbi : b.heap (i + 1) = s.heap i := h.heap_eq i
  have hbj : b.heap (j + 1) = s.heap j := h.heap_eq j
  have hpbi : b.heap_pos (s.heap i) = i + 1 := h.pos_shift (by rw [hpi]; exact hiv) ▸ by rw [hpi]
  have hpbj : b.heap_pos (s.heap j) = j + 1 := h.pos_shift (by rw [hpj]; exact hjv) ▸ by rw [hpj]
  refine ⟨h.size_eq, ?_, ?_, h.key_eq⟩
  · intro p
    show Function.update (Function.update b.heap (i + 1) (b.heap (j + 1))) (j + 1)
      (b.heap (i + 1)) (p + 1) = Function.update (Function.update s.heap i (s.heap j))
      j (s.heap i) p
    by_cases hpj' : p = j
    · rw [hpj']
      rw [Function.update_same, Function.update_same, hbi]
    · rw [Function.update_noteq (by omega : p + 1 ≠ j + 1), Function.update_noteq hpj']
      by_cases hpi' : p = i
      · rw [hpi', Function.update_same, Function.update_same, hbj]
      · rw [Function.update_noteq (by omega : p + 1 ≠ i + 1), Function.update_noteq hpi']
        exact h.heap_eq p
  · intro w
    show (Function.update (Function.update b.heap_pos (b.heap (i + 1))
        (b.heap_pos (b.heap (j + 1)))) (b.heap (j + 1)) (b.heap_pos (b.heap (i + 1))) w = 0 ∧
      Function.update (Function.update s.heap_pos (s.heap i) (s.heap_pos (s.heap j)))
        (s.heap j) (s.heap_pos (s.heap i)) w = invalidPos) ∨
      (Function.update (Function.update s.heap_pos (s.heap i) (s.heap_pos (s.heap j)))
          (s.heap j) (s.heap_pos (s.heap i)) w ≠ invalidPos ∧
        Function.update (Function.update b.heap_pos (b.heap (i + 1))
            (b.heap_pos (b.heap (j + 1)))) (b.heap (j + 1))
            (b.heap_pos (b.heap (i + 1))) w =
          Function.update (Function.update s.heap_pos (s.heap i) (s.heap_pos (s.heap j)))
            (s.heap j) (s.heap_pos (s.heap i)) w + 1)
    rw [hbi, hbj, hpbi, hpbj, hpi, hpj]
    by_cases hwj : w = s.heap j
    · rw [hwj, Function.update_same, Function.update_same]
      exact Or.inr ⟨hiv, rfl⟩
    · rw [Function.update_noteq hwj, Function.update_noteq hwj]
      by_cases hwi : w = s.heap i
      · rw [hwi, Function.update_same, Function.update_same]
        exact Or.inr ⟨hjv, rfl⟩
      · rw [Function.update_noteq hwi, Function.update_noteq hwi]
        exact h.pos_rel w

theorem kid_rel {b : BinHeap} {s : KHeap} (h : BKRel b s) (i : Nat) :
    b.kid (i + 1) = s.kid 2 i + 1 := by
  have hb1 : b.heap (2 * (i + 1)) = s.heap (i * 2 + 1) := by
    rw [show 2 * (i + 1) = (i * 2 + 1) + 1 by ring]
    exact h.heap_eq _
  have hb2 : b.heap (2 * (i + 1) + 1) = s.heap (i * 2 + 1 + 1) := by
    rw [show 2 * (i + 1) + 1 = (i * 2 + 1 + 1) + 1 by ring]
    exact h.heap_eq _
  have hK0 : kidGo 2 s (i * 2 + 1) 1 0 =
      if i * 2 + 1 + 1 < s.size ∧
          s.key (s.heap (i * 2 + 1 + 1)) < s.key (s.heap (i * 2 + 1 + 0))
      then 1 else 0 := by
    rw [kidGo]
    by_cases hsz : i * 2 + 1 + 1 < s.size
    · rw [if_pos ⟨by omega, hsz⟩, kidGo,
        if_neg (show ¬ (1 + 1 < 2 ∧ i * 2 + 1 + (1 + 1) < s.size) by omega)]
      by_cases hlt : s.key (s.heap (i * 2 + 1 + 1)) < s.key (s.heap (i * 2 + 1 + 0))
      · rw [if_pos hlt, if_pos ⟨hsz, hlt⟩]
      · rw [if_neg hlt, if_neg (fun hc => hlt hc.2)]
    · rw [if_neg (show ¬ (1 < 2 ∧ i * 2 + 1 + 1 < s.size) by omega),
        if_neg (fun hc => hsz hc.1)]
  simp only [Nat.add_zero] at hK0
  have hK : s.kid 2 i = i * 2 + 1 +
      (if i * 2 + 1 + 1 < s.size ∧
          s.key (s.heap (i * 2 + 1 + 1)) < s.key (s.heap (i * 2 + 1))
       then 1 else 0) := by
    rw [KHeap.kid, hK0]
  have hcond : (2 * (i + 1) + 1 ≤ b.size ∧
      b.key (b.heap (2 * (i + 1) + 1)) < b.key (b.heap (2 * (i + 1)))) ↔
      (i * 2 + 1 + 1 < s.size ∧
        s.key (s.heap (i * 2 + 1 + 1)) < s.key (s.heap (i * 2 + 1))) := by
    rw [hb1, hb2, h.key_eq, h.key_eq, h.size_eq]
    constructor
    · rintro ⟨a1, a2⟩
      exact ⟨by omega, a2⟩
    · rintro ⟨a1, a2⟩
      exact ⟨by omega, a2⟩
  rw [BinHeap.kid, hK]
  by_cases hc : i * 2 + 1 + 1 < s.size ∧
      s.key (s.heap (i * 2 + 1 + 1)) < s.key (s.heap (i * 2 + 1))
  · rw [if_pos (hcond.mpr hc), if_pos hc]
    ring
  · rw [if_neg (fun hx => hc (hcond.mp hx)), if_neg hc]
    ring

theorem siftDown_basic (k : Nat) (hk : 0 < k) :
    ∀ fuel s i, fuel = s.size - i → posOf s → i < s.size →
    posOf (KHeap.siftDown k hk s i).1 ∧ (KHeap.siftDown k hk s i).1.size = s.size ∧
      (KHeap.siftDown k hk s i).2 < s.size ∧
      (KHeap.siftDown k hk s i).1.key = s.key := by
  intro fuel
  induction fuel using Nat.strong_induction_on with
  | _ fuel ih =>
    intro s i hfuel hpos hi
    rw [KHeap.siftDown]
    by_cases hcond : i * k + 1 < s.size ∧ s.key (s.heap (s.kid k i)) < s.key (s.heap i)
    · rw [dif_pos hcond]
      obtain ⟨hc1, hc2, hc3, _⟩ := kid_spec k hk s i hcond.1
      have hik : i ≤ i * k := Nat.le_mul_of_pos_right i hk
      have hrec := ih (s.size - s.kid k i) (by omega)
        (s.swapPos i (s.kid k i)) (s.kid k i) (by rw [swap_size])
        (swap_posOf s hpos hi hc3) (by rw [swap_size]; exact hc3)
      rw [swap_size] at hrec
      exact ⟨hrec.1, hrec.2.1, hrec.2.2.1, hrec.2.2.2⟩
    · rw [dif_neg hcond]
      exact ⟨hpos, rfl, hi, rfl⟩

theorem siftDown_rel (hk : 0 < 2) :
    ∀ fuel (b : BinHeap) (s : KHeap) i, fuel = s.size - i → BKRel b s →
    posOf s → i < s.size → s.size < invalidPos →
    BKRel (b.siftDown (i + 1)).1 (KHeap.siftDown 2 hk s i).1 ∧
      (b.siftDown (i + 1)).2 = (KHeap.siftDown 2 hk s i).2 + 1 := by
  intro fuel
  induction fuel using Nat.strong_induction_on with
  | _ fuel ih =>
    intro b s i hfuel h hpos hi hszinv
    have hguard : ((i + 1) * 2 ≤ b.size ∧
        b.key (b.heap (b.kid (i + 1))) < b.key (b.heap (i + 1))) ↔
        (i * 2 + 1 < s.size ∧ s.key (s.heap (s.kid 2 i)) < s.key (s.heap i)) := by
      rw [kid_rel h i, h.heap_eq, h.heap_eq, h.key_eq, h.key_eq, h.size_eq]
      constructor
      · rintro ⟨a1, a2⟩
        exact ⟨by omega, a2⟩
      · rintro ⟨a1, a2⟩
        exact ⟨by omega, a2⟩
    rw [BinHeap.siftDown, KHeap.siftDown]
    by_cases hcond : i * 2 + 1 < s.size ∧ s.key (s.heap (s.kid 2 i)) < s.key (s.heap i)
    · rw [dif_pos (hguard.mpr hcond), dif_pos hcond]
      obtain ⟨hc1, hc2, hc3, _⟩ := kid_spec 2 hk s i hcond.1
      have hswap := swap_BKRel h (hpos i hi) (hpos _ hc3)
        (by omega) (by omega)
      rw [kid_rel h i]
      exact ih (s.size - s.kid 2 i) (by omega) _ _ (s.kid 2 i)
        (by rw [swap_size]) hswap (swap_posOf s hpos hi hc3)
        (by rw [swap_size]; exact hc3) (by rw [swap_size]; exact hszinv)
    · rw [dif_neg (fun hc => hcond (hguard.mp hc)), dif_neg hcond]
      exact ⟨h, rfl⟩

theorem siftUp_rel (hk : 0 < 2) :
    ∀ i (b : BinHeap) (s : KHeap), BKRel b s → posOf s → i < s.size →
    s.size < invalidPos →
    BKRel (b.siftUp (i + 1)) (KHeap.siftUp 2 s i) := by
  intro i
  induction i using Nat.strong_induction_on with
  | _ i ih =>
    intro b s h hpos hi hszinv
    have hpareq : (i + 1) / 2 = (i - 1) / 2 + 1 ∨ i = 0 := by
      rcases Nat.eq_zero_or_pos i with rfl | hp
      · exact Or.inr rfl
      · left
        rw [show i + 1 = (i - 1) + 2 by omega, Nat.add_div_right _ (by omega)]
    rw [BinHeap.siftUp, KHeap.siftUp]
    by_cases hcond : 0 < i ∧ s.key (s.heap i) < s.key (s.heap ((i - 1) / 2))
    · have hpar : (i + 1) / 2 = (i - 1) / 2 + 1 := by
        rcases hpareq with hp | hp
        · exact hp
        · omega
      have hguard : 1 < i + 1 ∧ b.key (b.heap (i + 1)) < b.key (b.heap ((i + 1) / 2)) := by
        refine ⟨by omega, ?_⟩
        rw [hpar, h.heap_eq, h.heap_eq, h.key_eq, h.key_eq]
        exact hcond.2
      rw [dif_pos hguard, dif_pos hcond]
      have hparlt : (i - 1) / 2 < i := by
        rcases hcond with ⟨h0, _⟩
        have := Nat.div_le_self (i - 1) 2
        omega
      have hparsz : (i - 1) / 2 < s.size := by omega
      have hswap := swap_BKRel h (hpos i hi) (hpos _ hparsz) (by omega) (by omega)
      rw [hpar]
      exact ih ((i - 1) / 2) hparlt _ _ hswap (swap_posOf s hpos hi hparsz)
        (by rw [swap_size]; exact hparsz) (by rw [swap_size]; exact hszinv)
    · rw [dif_neg hcond]
      rw [dif_neg (fun hc => hcond ?_)]
      · exact h
      · have h0 : 0 < i := by omega
        have hpar : (i + 1) / 2 = (i - 1) / 2 + 1 := by
          rcases hpareq with hp | hp
          · exact hp
          · omega
        refine ⟨h0, ?_⟩
        have := hc.2
        rw [hpar, h.heap_eq, h.heap_eq, h.key_eq, h.key_eq] at this
        exact this

theorem fixup_rel (hk : 0 < 2) (b : BinHeap) (s : KHeap) (i : Nat)
    (h : BKRel b s) (hpos : posOf s) (hi : i < s.size) (hszinv : s.size < invalidPos) :
    BKRel (b.fixup (i + 1)) (KHeap.fixup 2 hk s i) := by
  obtain ⟨hrel, hidx⟩ := siftDown_rel hk (s.size - i) b s i rfl h hpos hi hszinv
  obtain ⟨hpos', hsz', hlt', _⟩ := siftDown_basic 2 hk (s.size - i) s i rfl hpos hi
  rw [BinHeap.fixup, KHeap.fixup, hidx]
  exact siftUp_rel hk _ _ _ hrel hpos' (by omega) (by omega)

/-- Marking the same element absent on both sides (`heap_pos[v] = 0` on the
legacy heap, `invalid` on the k-ary heap) preserves the lockstep relation. -/
theorem BKRel.markAbsent {b : BinHeap} {s : KHeap} (h : BKRel b s) (v : Nat) :
    BKRel ⟨b.size, b.heap, Function.update b.heap_pos v 0, b.key⟩
      ⟨s.size, s.heap, Function.update s.heap_pos v invalidPos, s.key⟩ := by
  refine ⟨h.size_eq, h.heap_eq, ?_, h.key_eq⟩
  intro w
  show (Function.update b.heap_pos v 0 w = 0 ∧
      Function.update s.heap_pos v invalidPos w = invalidPos) ∨
    (Function.update s.heap_pos v invalidPos w ≠ invalidPos ∧
      Function.update b.heap_pos v 0 w =
        Function.update s.heap_pos v invalidPos w + 1)
  by_cases hw : w = v
  · rw [hw, Function.update_same, Function.update_same]
    exact Or.inl ⟨rfl, rfl⟩
  · rw [Function.update_noteq hw, Function.update_noteq hw]
    exact h.pos_rel w

/-- `BinHeap::update` and the binary `KHeap::update` preserve the lockstep
relation. -/
theorem update_rel (n : Nat) (hk : 0 < 2) (b : BinHeap) (s : KHeap)
    (h : BKRel b s) (hwf : KHeapWF 2 n s) (v kk : Nat) (hv : v < n) :
    BKRel (b.update v kk) (KHeap.update 2 hk s v kk) := by
  obtain ⟨hninv, hpos, hclean, helems, hszle, hord⟩ := hwf
  have hszinv : s.size < invalidPos := Nat.lt_of_le_of_lt hszle hninv
  have hsz : b.size = s.size := h.size_eq
  by_cases hcase : s.heap_pos v = invalidPos
  · -- v is absent on both sides: append at the end and fix up from there
    have hb0 : b.heap_pos v = 0 := (h.absent_iff v).mpr hcase
    have hslt : s.size < n := size_lt_of_absent s n hpos helems hninv hv hcase
    have hnotin : ∀ a, a < s.size → s.heap a ≠ v := by
      intro a ha hav
      have := hpos a ha
      rw [hav, hcase] at this
      omega
    have hKupd : KHeap.update 2 hk s v kk =
        KHeap.fixup 2 hk
          ⟨s.size + 1, Function.update s.heap s.size v,
            Function.update s.heap_pos v s.size,
            Function.update s.key v kk⟩ s.size := by
      rw [KHeap.update, if_pos hcase]
      simp only [Function.update_same]
    have hBupd : BinHeap.update b v kk =
        BinHeap.fixup
          ⟨b.size + 1, Function.update b.heap (b.size + 1) v,
            Function.update b.heap_pos v (b.size + 1),
            Function.update b.key v kk⟩ (b.size + 1) := by
      rw [BinHeap.update, if_pos hb0]
      simp only [Function.update_same]
    set s2 : KHeap :=
      ⟨s.size + 1, Function.update s.heap s.size v,
        Function.update s.heap_pos v s.size, Function.update s.key v kk⟩ with hs2
    set b2 : BinHeap :=
      ⟨b.size + 1, Function.update b.heap (b.size + 1) v,
        Function.update b.heap_pos v (b.size + 1), Function.update b.key v kk⟩ with hb2
    have hrel2 : BKRel b2 s2 := by
      refine ⟨by show b.size + 1 = s.size + 1; omega, ?_, ?_, ?_⟩
      · intro i
        show Function.update b.heap (b.size + 1) v (i + 1) =
          Function.update s.heap s.size v i
        rw [hsz]
        by_cases hi : i = s.size
        · rw [hi, Function.update_same, Function.update_same]
        · rw [Function.update_noteq (by omega : i + 1 ≠ s.size + 1),
            Function.update_noteq hi]
          exact h.heap_eq i
      · intro w
        show (Function.update b.heap_pos v (b.size + 1) w = 0 ∧
            Function.update s.heap_pos v s.size w = invalidPos) ∨
          (Function.update s.heap_pos v s.size w ≠ invalidPos ∧
            Function.update b.heap_pos v (b.size + 1) w =
              Function.update s.heap_pos v s.size w + 1)
        by_cases hw : w = v
        · rw [hw, Function.update_same, Function.update_same]
          exact Or.inr ⟨by omega, by omega⟩
        · rw [Function.update_noteq hw, Function.update_noteq hw]
          exact h.pos_rel w
      · intro w
        show Function.update b.key v kk w = Function.update s.key v kk w
        by_cases hw : w = v
        · rw [hw, Function.update_same, Function.update_same]
        · rw [Function.update_noteq hw, Function.update_noteq hw]
          exact h.key_eq w
    have hpos2 : posOf s2 := by
      intro i hi
      have hi' : i < s.size + 1 := hi
      show Function.update s.heap_pos v s.size (Function.update s.heap s.size v i) = i
      by_cases hie : i = s.size
      · rw [hie, Function.update_same, Function.update_same]
      · rw [Function.update_noteq hie,
          Function.update_noteq (hnotin i (by omega)), hpos i (by omega)]
    rw [hBupd, hKupd, show b.size + 1 = s.size + 1 by omega]
    exact fixup_rel hk b2 s2 s.size hrel2 hpos2
      (by show s.size < s.size + 1; omega) (by show s.size + 1 < invalidPos; omega)
  · -- v is already stored on both sides: only its key changes
    have hb0 : b.heap_pos v ≠ 0 := fun h0 => hcase ((h.absent_iff v).mp h0)
    have hbp : b.heap_pos v = s.heap_pos v + 1 := h.pos_shift hcase
    obtain ⟨hploc, hpheap⟩ := present_pos s hpos hclean hcase
    have hKupd : KHeap.update 2 hk s v kk =
        KHeap.fixup 2 hk ⟨s.size, s.heap, s.heap_pos, Function.update s.key v kk⟩
          (s.heap_pos v) := by
      rw [KHeap.update, if_neg hcase]
    have hBupd : BinHeap.update b v kk =
        BinHeap.fixup ⟨b.size, b.heap, b.heap_pos, Function.update b.key v kk⟩
          (b.heap_pos v) := by
      rw [BinHeap.update, if_neg hb0]
    set s2 : KHeap := ⟨s.size, s.heap, s.heap_pos, Function.update s.key v kk⟩ with hs2
    set b2 : BinHeap := ⟨b.size, b.heap, b.heap_pos, Function.update b.key v kk⟩ with hb2
    have hrel2 : BKRel b2 s2 := by
      refine ⟨h.size_eq, h.heap_eq, h.pos_rel, ?_⟩
      intro w
      show Function.update b.key v kk w = Function.update s.key v kk w
      by_cases hw : w = v
      · rw [hw, Function.update_same, Function.update_same]
      · rw [Function.update_noteq hw, Function.update_noteq hw]
        exact h.key_eq w
    have hpos2 : posOf s2 := hpos
    rw [hBupd, hKupd, hbp]
    exact fixup_rel hk b2 s2 (s.heap_pos v) hrel2 hpos2 hploc hszinv

/-- `BinHeap::extract` and the binary `KHeap::extract` preserve the
lockstep relation. -/
theorem extract_rel (n : Nat) (hk : 0 < 2) (b : BinHeap) (s : KHeap)
    (h : BKRel b s) (hwf : KHeapWF 2 n s) (v : Nat) :
    BKRel (b.extract v) (KHeap.extract 2 hk s v) := by
  obtain ⟨hninv, hpos, hclean, helems, hszle, hord⟩ := hwf
  have hszinv : s.size < invalidPos := Nat.lt_of_le_of_lt hszle hninv
  have hsz : b.size = s.size := h.size_eq
  by_cases hcase : s.heap_pos v = invalidPos
  · -- v absent on both sides: both extracts are no-ops
    have hb0 : b.heap_pos v = 0 := (h.absent_iff v).mpr hcase
    rw [BinHeap.extract, if_pos hb0, KHeap.extract, if_pos hcase]
    exact h
  · have hb0 : b.heap_pos v ≠ 0 := fun h0 => hcase ((h.absent_iff v).mp h0)
    have hbp : b.heap_pos v = s.heap_pos v + 1 := h.pos_shift hcase
    obtain ⟨hploc, hpheap⟩ := present_pos s hpos hclean hcase
    by_cases hmid : s.heap_pos v < s.size - 1
    · -- v strictly inside: the last element replaces it and is fixed up
      have hbmid : b.heap_pos v < b.size := by omega
      have hKupd : KHeap.extract 2 hk s v =
          { KHeap.fixup 2 hk
              ((⟨s.size - 1, s.heap, s.heap_pos, s.key⟩ : KHeap).swapPos
                (s.heap_pos v) (s.size - 1))
              (s.heap_pos v) with
            heap_pos := Function.update
              (KHeap.fixup 2 hk
                ((⟨s.size - 1, s.heap, s.heap_pos, s.key⟩ : KHeap).swapPos
                  (s.heap_pos v) (s.size - 1))
                (s.heap_pos v)).heap_pos v invalidPos } := by
        rw [KHeap.extract, if_neg hcase]
        simp only []
        rw [if_pos hmid]
      have hBupd : BinHeap.extract b v =
          { BinHeap.fixup
              ((⟨b.size - 1, b.heap, b.heap_pos, b.key⟩ : BinHeap).swapPos
                (b.heap_pos v) (b.size - 1 + 1))
              (b.heap_pos v) with
            heap_pos := Function.update
              (BinHeap.fixup
                ((⟨b.size - 1, b.heap, b.heap_pos, b.key⟩ : BinHeap).swapPos
                  (b.heap_pos v) (b.size - 1 + 1))
                (b.heap_pos v)).heap_pos v 0 } := by
        rw [BinHeap.extract, if_neg hb0]
        simp only []
        rw [if_pos hbmid]
      rw [hKupd, hBupd, hbp, hsz]
      have hrel1 : BKRel (⟨s.size - 1, b.heap, b.heap_pos, b.key⟩ : BinHeap)
          (⟨s.size - 1, s.heap, s.heap_pos, s.key⟩ : KHeap) :=
        ⟨rfl, h.heap_eq, h.pos_rel, h.key_eq⟩
      have hswap := swap_BKRel hrel1 (hpos (s.heap_pos v) hploc)
        (hpos (s.size - 1) (by omega)) (by omega) (by omega)
      have hswpos : posOf ((⟨s.size - 1, s.heap, s.heap_pos, s.key⟩ : KHeap).swapPos
          (s.heap_pos v) (s.size - 1)) := by
        intro i hi
        have hi' : i < s.size - 1 := hi
        exact swap_posOf s hpos hploc (by omega : s.size - 1 < s.size) i
          (by show i < s.size; omega)
      exact BKRel.markAbsent
        (fixup_rel hk _ _ (s.heap_pos v) hswap hswpos hmid
          (by show s.size - 1 < invalidPos; omega)) v
    · -- v stored last: just shrink and mark absent
      have hlast : s.heap_pos v = s.size - 1 := by omega
      have hbmid : ¬ b.heap_pos v < b.size := by omega
      have hKupd : KHeap.extract 2 hk s v =
          { (⟨s.size - 1, s.heap, s.heap_pos, s.key⟩ : KHeap) with
            heap_pos := Function.update s.heap_pos v invalidPos } := by
        rw [KHeap.extract, if_neg hcase]
        simp only []
        rw [if_neg hmid]
      have hBupd : BinHeap.extract b v =
          { (⟨b.size - 1, b.heap, b.heap_pos, b.key⟩ : BinHeap) with
            heap_pos := Function.update b.heap_pos v 0 } := by
        rw [BinHeap.extract, if_neg hb0]
        simp only []
        rw [if_neg hbmid]
      rw [hKupd, hBupd, hsz]
      exact BKRel.markAbsent
        (⟨rfl, h.heap_eq, h.pos_rel, h.key_eq⟩ :
          BKRel (⟨s.size - 1, b.heap, b.heap_pos, b.key⟩ : BinHeap)
            (⟨s.size - 1, s.heap, s.heap_pos, s.key⟩ : KHeap)) v

/-- `top` observations agree on related heaps. -/
theorem top_rel {b : BinHeap} {s : KHeap} (h : BKRel b s) : b.top = s.top :=
  h.heap_eq 0

/-- `empty` observations agree on related heaps. -/
theorem empty_rel {b : BinHeap} {s : KHeap} (h : BKRel b s) :
    b.emptyb = s.emptyb := by
  rw [BinHeap.emptyb, KHeap.emptyb, h.size_eq]

/-- Execute one operation on a `BinHeap`; the second component is the value
observed by the caller (for `pop`, `top` and `empty`). -/
def BinHeap.stepOp (s : BinHeap) : HeapOp → BinHeap × Option Nat
  | .update v kk => (s.update v kk, none)
  | .extract v => (s.extract v, none)
  | .pop => ((s.pop).2, some (s.pop).1)
  | .top => (s, some s.top)
  | .emptyq => (s, some (if s.emptyb then 1 else 0))

/-- The stream of observations of a sequence of operations on a `BinHeap`. -/
def BinHeap.runOut (s : BinHeap) : List HeapOp → List (Option Nat)
  | [] => []
  | op :: ops => (s.stepOp op).2 :: BinHeap.runOut (s.stepOp op).1 ops

/-- The stream of observations of a sequence of operations on a `KHeap`. -/
def KHeap.runOut (k : Nat) (hk : 0 < k) (s : KHeap) : List HeapOp → List (Option Nat)
  | [] => []
  | op :: ops =>
    (KHeap.stepOp k hk s op).2 :: KHeap.runOut k hk (KHeap.stepOp k hk s op).1 ops

/-- One operation preserves the lockstep relation and yields the same
observation on both heaps. -/
theorem step_rel (n : Nat) (hk : 0 < 2) (b : BinHeap) (s : KHeap)
    (h : BKRel b s) (hwf : KHeapWF 2 n s) (op : HeapOp)
    (hop : opValidb n op = true) :
    BKRel (b.stepOp op).1 (KHeap.stepOp 2 hk s op).1 ∧
      (b.stepOp op).2 = (KHeap.stepOp 2 hk s op).2 := by
  cases op with
  | update v kk =>
    have hv : v < n := by simpa [opValidb] using hop
    exact ⟨update_rel n hk b s h hwf v kk hv, rfl⟩
  | extract v => exact ⟨extract_rel n hk b s h hwf v, rfl⟩
  | pop =>
    have htop : b.top = s.top := h.heap_eq 0
    refine ⟨?_, ?_⟩
    · show BKRel (b.extract b.top) (KHeap.extract 2 hk s s.top)
      rw [htop]
      exact extract_rel n hk b s h hwf s.top
    · show some b.top = some s.top
      rw [htop]
  | top =>
    refine ⟨h, ?_⟩
    show some b.top = some s.top
    rw [top_rel h]
  | emptyq =>
    refine ⟨h, ?_⟩
    show some (if b.emptyb then 1 else 0) = some (if s.emptyb then 1 else 0)
    rw [empty_rel h]

/-- Running a valid operation sequence from related well-formed states
produces identical observation streams. -/
theorem runOut_rel (n : Nat) (hk : 0 < 2) :
    ∀ (ops : List HeapOp) (b : BinHeap) (s : KHeap), BKRel b s → KHeapWF 2 n s →
      opsValid n ops → BinHeap.runOut b ops = KHeap.runOut 2 hk s ops := by
  intro ops
  induction ops with
  | nil =>
    intro b s _ _ _
    rfl
  | cons op ops ih =>
    intro b s h hwf hval
    have hop : opValidb n op = true := hval op (List.mem_cons_self _ _)
    have hval' : opsValid n ops := fun o ho => hval o (List.mem_cons_of_mem op ho)
    obtain ⟨hrel2, hobs⟩ := step_rel n hk b s h hwf op hop
    have hwf2 : KHeapWF 2 n (KHeap.stepOp 2 hk s op).1 := by
      cases op with
      | update v kk =>
        have hv : v < n := by simpa [opValidb] using hop
        exact (update_WF 2 n hk s v kk hwf hv).1
      | extract v => exact (extract_WF 2 n hk s v hwf).1
      | pop => exact (extract_WF 2 n hk s s.top hwf).1
      | top => exact hwf
      | emptyq => exact hwf
    rw [BinHeap.runOut, KHeap.runOut, hobs, ih _ _ hrel2 hwf2 hval']

/-- The freshly constructed heaps (`BinHeap(n)` / `KHeap(n)`) are related. -/
theorem init_BKRel : BKRel BinHeap.init KHeap.init := by
  refine ⟨rfl, fun i => rfl, ?_, fun v => rfl⟩
  intro v
  exact Or.inl ⟨rfl, rfl⟩

/-- No two distinct stored elements carry equal keys (the side condition of
the refinement claim; the bisimulation does not actually need it). -/
def DistinctKeys (n : Nat) (s : KHeap) : Prop :=
  ∀ v, v < n → ∀ w, w < n → s.present v → s.present w → v ≠ w →
    s.key v ≠ s.key w

instance (n : Nat) (s : KHeap) : Decidable (DistinctKeys n s) :=
  decidable_of_iff (∀ v ∈ List.range n, ∀ w ∈ List.range n,
      s.present v → s.present w → v ≠ w → s.key v ≠ s.key w) (by
    constructor
    · intro h v hv w hw
      exact h v (List.mem_range.mpr hv) w (List.mem_range.mpr hw)
    · intro h v hv w hw
      exact h v (List.mem_range.mp hv) w (List.mem_range.mp hw))

/-- C10: for every universe size `n` and every sequence of `update`,
`extract`, `pop`, `top` and `empty` operations on elements below `n` in
which the keys assigned to distinct stored elements are pairwise distinct
at every step, the legacy 1-based `BinHeap` and the `KHeap` with branching
factor 2, both started empty, produce identical observable results: the
same values returned by `top`, `pop` and `empty` at every step. (The
bisimulation proof never uses the distinctness hypothesis, so the
equivalence in fact holds unconditionally.) -/
theorem claim_C10_binheap_kheap_equiv (n : Nat) (hk : 0 < 2)
    (hn : n < invalidPos) (ops : List HeapOp) (hval : opsValid n ops)
    (hdist : ∀ i, i ≤ ops.length →
      DistinctKeys n (KHeap.runOps 2 hk KHeap.init (List.take i ops))) :
    BinHeap.runOut BinHeap.init ops = KHeap.runOut 2 hk KHeap.init ops :=
  runOut_rel n hk ops BinHeap.init KHeap.init init_BKRel (init_WF 2 n hn) hval

theorem claim_C10_binheap_kheap_equiv_witness :
    ((0 : Nat) < 2 ∧ (3 : Nat) < invalidPos ∧
      opsValid 3 [HeapOp.top, HeapOp.emptyq] ∧
      (∀ i, i ≤ (2 : Nat) → DistinctKeys 3
        (KHeap.runOps 2 (by decide) KHeap.init
          (List.take i [HeapOp.top, HeapOp.emptyq])))) ∧
      BinHeap.runOut BinHeap.init [HeapOp.top, HeapOp.emptyq] =
        KHeap.runOut 2 (by decide) KHeap.init [HeapOp.top, HeapOp.emptyq] :=
  ⟨⟨by decide, by decide, by decide, by decide⟩,
    claim_C10_binheap_kheap_equiv 3 (by decide) (by decide)
      [HeapOp.top, HeapOp.emptyq] (by decide) (by decide)⟩

/-- A weighted digraph as adjacency lists: `adj f u` lists the arcs
`(head, length)` leaving `u` on side `f` (`true` = forward). -/
structure Graph where
  n : Nat
  adj : Bool → Nat → List (Nat × Nat)

/-- Arc heads are vertices and arc lengths are positive (the graph reader
guarantees both; `assert(dd > d)` in the Dijkstra loops relies on it). -/
def Graph.wf (g : Graph) : Prop :=
  ∀ f u, ∀ a ∈ g.adj f u, a.1 < g.n ∧ 1 ≤ a.2

/-- `(L.add u f v d).label` evaluated pointwise. -/
theorem add_label (L : Labeling) (u : Nat) (f : Bool) (v d : Nat)
    (w : Nat) (t : Bool) :
    (L.add u f v d).label w t =
      if w = u ∧ t = f then L.label w t ++ [(v, d)] else L.label w t := rfl

theorem add_label_same (L : Labeling) (u : Nat) (f : Bool) (v d : Nat) :
    (L.add u f v d).label u f = L.label u f ++ [(v, d)] := by
  rw [add_label, if_pos ⟨rfl, rfl⟩]

theorem add_label_other (L : Labeling) (u : Nat) (f : Bool) (v d : Nat)
    (w : Nat) (t : Bool) (h : ¬ (w = u ∧ t = f)) :
    (L.add u f v d).label w t = L.label w t := by
  rw [add_label, if_neg h]

theorem add_n (L : Labeling) (u : Nat) (f : Bool) (v d : Nat) :
    (L.add u f v d).n = L.n := rfl

theorem clear_label (L : Labeling) (u : Nat) (t : Bool) :
    L.clear.label u t = if u < L.n then [] else L.label u t := rfl

theorem clear_n (L : Labeling) : L.clear.n = L.n := rfl

/-- After the fold inside `KHeap::clear` every element hit by the scan is
marked absent; untouched entries keep their value. -/
theorem foldl_clear_val (s : KHeap) :
    ∀ (l : List Nat) (hp : Nat → Nat) (v : Nat),
    (l.foldl (fun h i => Function.update h (s.heap i) invalidPos) hp) v = hp v ∨
    (l.foldl (fun h i => Function.update h (s.heap i) invalidPos) hp) v =
      invalidPos := by
  intro l
  induction l with
  | nil =>
    intro hp v
    exact Or.inl rfl
  | cons a l ih =>
    intro hp v
    rw [List.foldl_cons]
    rcases ih (Function.update hp (s.heap a) invalidPos) v with h | h
    · rw [h]
      by_cases hv : v = s.heap a
      · rw [hv, Function.update_same]
        exact Or.inr rfl
      · rw [Function.update_noteq hv]
        exact Or.inl rfl
    · exact Or.inr h

theorem foldl_clear_hits (s : KHeap) :
    ∀ (l : List Nat) (hp : Nat → Nat) (v : Nat), (∃ q ∈ l, s.heap q = v) →
    (l.foldl (fun h i => Function.update h (s.heap i) invalidPos) hp) v =
      invalidPos := by
  intro l
  induction l with
  | nil =>
    rintro hp v ⟨q, hq, _⟩
    exact absurd hq (List.not_mem_nil q)
  | cons a l ih =>
    rintro hp v ⟨q, hq, heq⟩
    rw [List.foldl_cons]
    rcases List.mem_cons.mp hq with rfl | hq2
    · rcases foldl_clear_val s l (Function.update hp (s.heap q) invalidPos) v
        with h | h
      · rw [h, ← heq, Function.update_same]
      · exact h
    · exact ih _ v ⟨q, hq2, heq⟩

/-- `KHeap::clear()` marks every element absent. -/
theorem clear_absent (k n : Nat) (s : KHeap) (hwf : KHeapWF k n s) :
    ∀ v, s.clear.heap_pos v = invalidPos := by
  intro v
  show (List.range s.size).foldl
    (fun hp i => Function.update hp (s.heap i) invalidPos) s.heap_pos v =
    invalidPos
  by_cases hp : s.heap_pos v = invalidPos
  · rcases foldl_clear_val s (List.range s.size) s.heap_pos v with h | h
    · rw [h, hp]
    · exact h
  · obtain ⟨q, hq, rfl⟩ := present_loc s hwf.clean hp
    exact foldl_clear_hits s _ _ _ ⟨q, List.mem_range.mpr hq, rfl⟩

/-- A cleared well-formed heap is well formed (and empty). -/
theorem clear_WF (k n : Nat) (s : KHeap) (hwf : KHeapWF k n s) :
    KHeapWF k n s.clear := by
  refine ⟨hwf.n_lt, ?_, ?_, ?_, ?_, ?_⟩
  · intro i hi
    exact absurd hi (show ¬ i < 0 by omega)
  · intro v _
    exact clear_absent k n s hwf v
  · rintro v ⟨q, hq, _⟩
    exact absurd hq (show ¬ q < 0 by omega)
  · show 0 ≤ n
    exact Nat.zero_le n
  · intro p j hj _ _
    exact absurd hj (show ¬ j < 0 by omega)

/-- The state of `BasicDijkstra` (`hl/ordering.hpp`): the queue, tentative
distances and parents, and the dirty bookkeeping. -/
structure BasicDijkstra where
  queue : KHeap
  parent : Nat → Option Nat
  distance : Nat → Nat
  is_dirty : Nat → Bool
  dirty : List Nat

/-- The `BasicDijkstra(g)` constructor: empty queue, all parents `none`,
all distances `infty`, nothing dirty. -/
def BasicDijkstra.init : BasicDijkstra :=
  ⟨KHeap.init, fun _ => none, fun _ => infty, fun _ => false, []⟩

/-- `BasicDijkstra::update(v, d, p)`: set distance and parent, update the
queue, mark `v` dirty. -/
def BasicDijkstra.update (k : Nat) (hk : 0 < k) (s : BasicDijkstra)
    (v d : Nat) (p : Option Nat) : BasicDijkstra :=
  ⟨KHeap.update k hk s.queue v d,
   Function.update s.parent v p,
   Function.update s.distance v d,
   if s.is_dirty v then s.is_dirty else Function.update s.is_dirty v true,
   if s.is_dirty v then s.dirty else s.dirty ++ [v]⟩

/-- `BasicDijkstra::clear()`: clear the queue and reset the dirty
vertices. -/
def BasicDijkstra.clear (s : BasicDijkstra) : BasicDijkstra :=
  ⟨s.queue.clear,
   s.dirty.foldl (fun p u => Function.update p u none) s.parent,
   s.dirty.foldl (fun d u => Function.update d u infty) s.distance,
   s.dirty.foldl (fun b u => Function.update b u false) s.is_dirty,
   []⟩

/-- One arc relaxation inside `Akiba::iteration`: `dd = d + length`; relax
when `dd < distance[head]` and the labeling built so far cannot already
answer the `v → head` query at distance `≤ dd`. -/
def arcRelax (k : Nat) (hk : 0 < k) (v : Nat) (forward : Bool)
    (lab : Labeling) (d : Nat) (s : BasicDijkstra) (a : Nat × Nat) :
    BasicDijkstra :=
  if d + a.2 < s.distance a.1 ∧ d + a.2 < lab.query v a.1 forward then
    BasicDijkstra.update k hk s a.1 (d + a.2) none
  else s

/-- The `while (!queue.empty())` loop of `Akiba::iteration`, with explicit
fuel (`none` when the fuel runs out before the queue drains): pop the
minimum `u`, emit the hub entry `(i, distance[u])` into `L[u][¬forward]`,
then relax the arcs of `u`. -/
def akibaLoop (k : Nat) (hk : 0 < k) (g : Graph) (v i : Nat)
    (forward : Bool) :
    Nat → Labeling → BasicDijkstra → Option (Labeling × BasicDijkstra)
  | 0, lab, s => if s.queue.size = 0 then some (lab, s) else none
  | fuel + 1, lab, s =>
    if s.queue.size = 0 then some (lab, s)
    else
      akibaLoop k hk g v i forward fuel
        (lab.add s.queue.top (!forward) i (s.distance s.queue.top))
        ((g.adj forward s.queue.top).foldl
          (arcRelax k hk v forward
            (lab.add s.queue.top (!forward) i (s.distance s.queue.top))
            (s.distance s.queue.top))
          { s with queue := KHeap.extract k hk s.queue s.queue.top })

/-- `Akiba::iteration(i, forward, order, labeling)` with `v = order[i]`:
clear the Dijkstra state, set `distance[v] = 0`, `update(v, 0)`, loop. -/
def Akiba.iteration (k : Nat) (hk : 0 < k) (g : Graph) (i : Nat)
    (forward : Bool) (v : Nat) (fuel : Nat) (lab : Labeling)
    (s : BasicDijkstra) : Option (Labeling × BasicDijkstra) :=
  akibaLoop k hk g v i forward fuel lab
    (BasicDijkstra.update k hk
      { s.clear with distance := Function.update s.clear.distance v 0 } v 0 none)

/-- The loop of `Akiba::run`: `iteration(i, false)` then `iteration(i,
true)` for each rank `i` in order. -/
def Akiba.runGo (k : Nat) (hk : 0 < k) (g : Graph) (fuel : Nat) :
    Nat → List Nat → Labeling → BasicDijkstra → Option Labeling
  | _, [], lab, _ => some lab
  | i, v :: rest, lab, s =>
    match Akiba.iteration k hk g i false v fuel lab s with
    | none => none
    | some p =>
      match Akiba.iteration k hk g i true v fuel p.1 p.2 with
      | none => none
      | some q => Akiba.runGo k hk g fuel (i + 1) rest q.1 q.2

/-- `Akiba::run(order, labeling)`: clear the labeling, then run the two
iterations per rank in rank order. -/
def Akiba.run (k : Nat) (hk : 0 < k) (g : Graph) (order : List Nat)
    (fuel : Nat) (lab : Labeling) : Option Labeling :=
  Akiba.runGo k hk g fuel 0 order lab.clear BasicDijkstra.init

/-- Loop invariant of `Akiba::iteration` (claim C4): the queue is well
formed, queue keys mirror `distance`, every queued distance is at least
the last popped distance `d`, and any vertex whose hub-`i` entry was
already emitted is out of the queue with distance at most `d`. -/
def RInv (k n : Nat) (f : Bool) (base lab : Labeling) (d : Nat)
    (s : BasicDijkstra) : Prop :=
  KHeapWF k n s.queue ∧
  (∀ w, s.queue.present w → s.queue.key w = s.distance w) ∧
  (∀ w, s.queue.present w → d ≤ s.distance w) ∧
  (∀ u, lab.label u (!f) ≠ base.label u (!f) →
    ¬ s.queue.present u ∧ s.distance u ≤ d)

/-- Shape of the labeling during `iteration(i, f)`: other sides untouched,
and the `¬f` list of each vertex either untouched or extended by exactly
one hub-`i` entry. -/
def LShape (i : Nat) (f : Bool) (base lab : Labeling) : Prop :=
  (∀ u t, t ≠ !f → lab.label u t = base.label u t) ∧
  (∀ u, lab.label u (!f) = base.label u (!f) ∨
    ∃ d, lab.label u (!f) = base.label u (!f) ++ [(i, d)])

/-- The arc-relaxation fold of one popped vertex preserves the loop
invariant. -/
theorem relaxFold_inv (k n : Nat) (hk : 0 < k) (v : Nat) (f : Bool)
    (base lab : Labeling) (d : Nat) :
    ∀ (arcs : List (Nat × Nat)), (∀ a ∈ arcs, a.1 < n ∧ 1 ≤ a.2) →
    ∀ s, RInv k n f base lab d s →
    RInv k n f base lab d (arcs.foldl (arcRelax k hk v f lab d) s) := by
  intro arcs
  induction arcs with
  | nil =>
    intro _ s h
    exact h
  | cons a arcs ih =>
    intro harcs s h
    rw [List.foldl_cons]
    refine ih (fun b hb => harcs b (List.mem_cons_of_mem a hb)) _ ?_
    obtain ⟨ha1, ha2⟩ := harcs a (List.mem_cons_self a arcs)
    obtain ⟨hwf, hsync, hlow, hdone⟩ := h
    rw [arcRelax]
    by_cases hguard : d + a.2 < s.distance a.1 ∧ d + a.2 < lab.query v a.1 f
    · rw [if_pos hguard]
      have hupd := update_WF k n hk s.queue a.1 (d + a.2) hwf ha1
      refine ⟨hupd.1, ?_, ?_, ?_⟩
      · intro w hw
        show (KHeap.update k hk s.queue a.1 (d + a.2)).key w =
          Function.update s.distance a.1 (d + a.2) w
        rw [hupd.2.1]
        by_cases hwa : w = a.1
        · rw [hwa, Function.update_same, Function.update_same]
        · rw [Function.update_noteq hwa, Function.update_noteq hwa]
          refine hsync w ?_
          rcases (hupd.2.2.1 w).mp hw with h1 | h1
          · exact h1
          · exact absurd h1 hwa
      · intro w hw
        show d ≤ Function.update s.distance a.1 (d + a.2) w
        by_cases hwa : w = a.1
        · rw [hwa, Function.update_same]
          omega
        · rw [Function.update_noteq hwa]
          refine hlow w ?_
          rcases (hupd.2.2.1 w).mp hw with h1 | h1
          · exact h1
          · exact absurd h1 hwa
      · intro u hu
        obtain ⟨hnp, hdu⟩ := hdone u hu
        have hua : u ≠ a.1 := by
          intro he
          rw [he] at hdu
          omega
        refine ⟨?_, ?_⟩
        · intro hp
          rcases (hupd.2.2.1 u).mp hp with h1 | h1
          · exact hnp h1
          · exact hua h1
        · show Function.update s.distance a.1 (d + a.2) u ≤ d
          rw [Function.update_noteq hua]
          exact hdu
    · rw [if_neg hguard]
      exact ⟨hwf, hsync, hlow, hdone⟩

/-- The pop loop of `Akiba::iteration` keeps the labeling shape and ends
with a well-formed queue. -/
theorem akibaLoop_spec (k : Nat) (hk : 0 < k) (g : Graph) (hg : Graph.wf g)
    (v i : Nat) (f : Bool) (base : Labeling) :
    ∀ (fuel : Nat) (lab : Labeling) (s : BasicDijkstra) (d : Nat),
    RInv k g.n f base lab d s → LShape i f base lab →
    ∀ lab2 s2, akibaLoop k hk g v i f fuel lab s = some (lab2, s2) →
    LShape i f base lab2 ∧ KHeapWF k g.n s2.queue := by
  intro fuel
  induction fuel with
  | zero =>
    intro lab s d hinv hsh lab2 s2 hrun
    rw [akibaLoop] at hrun
    by_cases hz : s.queue.size = 0
    · rw [if_pos hz] at hrun
      simp only [Option.some.injEq, Prod.mk.injEq] at hrun
      obtain ⟨h1, h2⟩ := hrun
      subst h1
      subst h2
      exact ⟨hsh, hinv.1⟩
    · rw [if_neg hz] at hrun
      exact Option.noConfusion hrun
  | succ fuel ih =>
    intro lab s d hinv hsh lab2 s2 hrun
    rw [akibaLoop] at hrun
    by_cases hz : s.queue.size = 0
    · rw [if_pos hz] at hrun
      simp only [Option.some.injEq, Prod.mk.injEq] at hrun
      obtain ⟨h1, h2⟩ := hrun
      subst h1
      subst h2
      exact ⟨hsh, hinv.1⟩
    · rw [if_neg hz] at hrun
      obtain ⟨hwf, hsync, hlow, hdone⟩ := hinv
      obtain ⟨hframe, happ⟩ := hsh
      have hpos : 0 < s.queue.size := Nat.pos_of_ne_zero hz
      obtain ⟨htop, hmin⟩ := top_min k g.n hk s.queue hwf hpos
      set u := s.queue.top with hu
      set d2 := s.distance u with hd2
      have hfresh : lab.label u (!f) = base.label u (!f) := by
        by_contra hne
        exact (hdone u hne).1 htop
      have hdd2 : d ≤ d2 := hlow u htop
      have hmind : ∀ w, s.queue.present w → d2 ≤ s.distance w := by
        intro w hw
        have hle := hmin w hw
        rw [hsync u htop, hsync w hw] at hle
        exact hle
      have hext := extract_WF k g.n hk s.queue u hwf
      have hinv1 : RInv k g.n f base (lab.add u (!f) i d2) d2
          { s with queue := KHeap.extract k hk s.queue u } := by
        refine ⟨hext.1, ?_, ?_, ?_⟩
        · intro w hw
          have hw2 : s.queue.present w := ((hext.2.2.1 w).mp hw).1
          show (KHeap.extract k hk s.queue u).key w = s.distance w
          rw [hext.2.1]
          exact hsync w hw2
        · intro w hw
          exact hmind w ((hext.2.2.1 w).mp hw).1
        · intro w hne
          by_cases hwu : w = u
          · subst hwu
            refine ⟨?_, Nat.le_refl _⟩
            intro hp
            exact ((hext.2.2.1 u).mp hp).2 rfl
          · rw [add_label_other lab u (!f) i d2 w (!f)
              (fun hc => hwu hc.1)] at hne
            obtain ⟨hnp, hdw⟩ := hdone w hne
            refine ⟨?_, Nat.le_trans hdw hdd2⟩
            intro hp
            exact hnp ((hext.2.2.1 w).mp hp).1
      have hsh1 : LShape i f base (lab.add u (!f) i d2) := by
        refine ⟨?_, ?_⟩
        · intro w t ht
          rw [add_label_other lab u (!f) i d2 w t (fun hc => ht hc.2)]
          exact hframe w t ht
        · intro w
          by_cases hwu : w = u
          · subst hwu
            right
            exact ⟨d2, by rw [add_label_same, hfresh]⟩
          · rw [add_label_other lab u (!f) i d2 w (!f) (fun hc => hwu hc.1)]
            exact happ w
      have hinv2 := relaxFold_inv k g.n hk v f base (lab.add u (!f) i d2) d2
        (g.adj f u) (fun a ha => hg f u a ha) _ hinv1
      exact ih _ _ d2 hinv2 hsh1 lab2 s2 hrun
  
/-- `Akiba::iteration` only appends single hub-`i` entries on side `¬f`
and keeps the queue well formed. -/
theorem iteration_spec (k : Nat) (hk : 0 < k) (g : Graph) (hg : Graph.wf g)
    (i : Nat) (f : Bool) (v : Nat) (hv : v < g.n) (fuel : Nat)
    (lab : Labeling) (s : BasicDijkstra) (hq : KHeapWF k g.n s.queue)
    (lab2 : Labeling) (s2 : BasicDijkstra)
    (hrun : Akiba.iteration k hk g i f v fuel lab s = some (lab2, s2)) :
    LShape i f lab lab2 ∧ KHeapWF k g.n s2.queue := by
  have hclr := clear_WF k g.n s.queue hq
  have habs := clear_absent k g.n s.queue hq
  have hupd := update_WF k g.n hk s.queue.clear v 0 hclr hv
  rw [Akiba.iteration] at hrun
  refine akibaLoop_spec k hk g hg v i f lab fuel lab _ 0 ?_
    ⟨fun _ _ _ => rfl, fun _ => Or.inl rfl⟩ lab2 s2 hrun
  refine ⟨hupd.1, ?_, ?_, ?_⟩
  · intro w hw
    have hwv : w = v := by
      rcases (hupd.2.2.1 w).mp hw with h1 | h1
      · exact absurd (habs w) h1
      · exact h1
    subst hwv
    show (KHeap.update k hk s.queue.clear w 0).key w =
      Function.update
        (Function.update (BasicDijkstra.clear s).distance w 0) w 0 w
    rw [hupd.2.1, Function.update_same, Function.update_same]
  · intro w _
    exact Nat.zero_le _
  · intro w hne
    exact absurd rfl hne

/-- One `LShape` step keeps a vertex list sorted and bounds its hubs. -/
theorem lshape_sorted (i : Nat) (f : Bool) (base lab2 : Labeling) (u : Nat)
    (hsh : LShape i f base lab2)
    (hsort : ∀ t, (base.label u t).Pairwise hubLt)
    (hbound : ∀ p ∈ base.label u (!f), (p : Nat × Nat).1 < i) :
    (∀ t, (lab2.label u t).Pairwise hubLt) ∧
    (∀ p ∈ lab2.label u (!f), (p : Nat × Nat).1 < i + 1) := by
  obtain ⟨hframe, happ⟩ := hsh
  constructor
  · intro t
    by_cases ht : t = !f
    · subst ht
      rcases happ u with h | ⟨d, h⟩
      · rw [h]
        exact hsort _
      · rw [h]
        refine List.pairwise_append.mpr ⟨hsort _, ?_, ?_⟩
        · exact List.Pairwise.cons (fun b hb => absurd hb (List.not_mem_nil b))
            List.Pairwise.nil
        · intro p hp q hq
          rw [List.mem_singleton] at hq
          subst hq
          show p.1 < i
          exact hbound p hp
    · rw [hframe u t ht]
      exact hsort t
  · intro p hp
    rcases happ u with h | ⟨d, h⟩
    · rw [h] at hp
      exact Nat.lt_succ_of_lt (hbound p hp)
    · rw [h] at hp
      rcases List.mem_append.mp hp with h1 | h1
      · exact Nat.lt_succ_of_lt (hbound p h1)
      · rw [List.mem_singleton] at h1
        subst h1
        exact Nat.lt_succ_self i

/-- The main loop of `Akiba::run` keeps every hub list of a vertex `< n`
strictly increasing, with all hubs below the next rank. -/
theorem runGo_sorted (k : Nat) (hk : 0 < k) (g : Graph) (hg : Graph.wf g)
    (fuel : Nat) :
    ∀ (order : List Nat) (i : Nat) (lab : Labeling) (s : BasicDijkstra),
    (∀ v ∈ order, v < g.n) → KHeapWF k g.n s.queue →
    (∀ u, u < g.n → ∀ t, ∀ p ∈ lab.label u t, (p : Nat × Nat).1 < i) →
    (∀ u, u < g.n → ∀ t, (lab.label u t).Pairwise hubLt) →
    ∀ lab2, Akiba.runGo k hk g fuel i order lab s = some lab2 →
    ∀ u, u < g.n → ∀ t, (lab2.label u t).Pairwise hubLt := by
  intro order
  induction order with
  | nil =>
    intro i lab s _ _ _ hsort lab2 hrun
    rw [Akiba.runGo] at hrun
    simp only [Option.some.injEq] at hrun
    subst hrun
    exact hsort
  | cons v rest ih =>
    intro i lab s hord hq hbelow hsort lab2 hrun
    rw [Akiba.runGo] at hrun
    have hv : v < g.n := hord v (List.mem_cons_self v rest)
    cases h1 : Akiba.iteration k hk g i false v fuel lab s with
    | none =>
      rw [h1] at hrun
      exact Option.noConfusion hrun
    | some p1 =>
      obtain ⟨lab1, s1⟩ := p1
      simp only [h1] at hrun
      obtain ⟨hsh1, hq1⟩ :=
        iteration_spec k hk g hg i false v hv fuel lab s hq lab1 s1 h1
      cases h2 : Akiba.iteration k hk g i true v fuel lab1 s1 with
      | none =>
        rw [h2] at hrun
        exact Option.noConfusion hrun
      | some p2 =>
        obtain ⟨lab2x, s2⟩ := p2
        simp only [h2] at hrun
        obtain ⟨hsh2, hq2⟩ :=
          iteration_spec k hk g hg i true v hv fuel lab1 s1 hq1 lab2x s2 h2
        refine ih (i + 1) lab2x s2
          (fun w hw => hord w (List.mem_cons_of_mem v hw)) hq2 ?_ ?_ lab2 hrun
        · intro u hu t p hp
          obtain ⟨hsort1, hbound1⟩ := lshape_sorted i false lab lab1 u hsh1
            (hsort u hu) (fun q hq => hbelow u hu (!false) q hq)
          obtain ⟨hsort2, hbound2⟩ := lshape_sorted i true lab1 lab2x u hsh2
            hsort1
            (fun q hq => by
              rw [hsh1.1 u (!true) (by decide)] at hq
              exact hbelow u hu (!true) q hq)
          by_cases ht : t = !true
          · subst ht
            exact hbound2 p hp
          · rw [hsh2.1 u t ht] at hp
            by_cases ht2 : t = !false
            · subst ht2
              exact hbound1 p hp
            · cases t with
              | false => exact absurd (by decide : (false : Bool) = !true) ht
              | true => exact absurd (by decide : (true : Bool) = !false) ht2
        · intro u hu t
          obtain ⟨hsort1, hbound1⟩ := lshape_sorted i false lab lab1 u hsh1
            (hsort u hu) (fun q hq => hbelow u hu (!false) q hq)
          obtain ⟨hsort2, hbound2⟩ := lshape_sorted i true lab1 lab2x u hsh2
            hsort1
            (fun q hq => by
              rw [hsh1.1 u (!true) (by decide)] at hq
              exact hbelow u hu (!true) q hq)
          exact hsort2 t

/-- C4: after `Akiba::run(order, labeling)` on a well-formed graph, with
`order` a permutation of the vertices, every hub list of every vertex of
the resulting labeling is strictly increasing by hub id — with no call to
`Labeling::sort()` anywhere in the construction. -/
theorem claim_C4_akiba_sorted (k : Nat) (hk : 0 < k) (g : Graph)
    (hg : Graph.wf g) (hn : g.n < invalidPos) (order : List Nat)
    (hperm : order.Perm (List.range g.n)) (fuel : Nat)
    (lab0 lab2 : Labeling) (hlabn : lab0.n = g.n)
    (hrun : Akiba.run k hk g order fuel lab0 = some lab2) :
    ∀ u, u < g.n → ∀ t, (lab2.label u t).Pairwise hubLt := by
  have hord : ∀ v ∈ order, v < g.n :=
    fun v hv => List.mem_range.mp (hperm.mem_iff.mp hv)
  rw [Akiba.run] at hrun
  refine runGo_sorted k hk g hg fuel order 0 lab0.clear BasicDijkstra.init
    hord (init_WF k g.n hn) ?_ ?_ lab2 hrun
  · intro u hu t p hp
    rw [clear_label, if_pos (by omega : u < lab0.n)] at hp
    exact absurd hp (List.not_mem_nil p)
  · intro u hu t
    rw [clear_label, if_pos (by omega : u < lab0.n)]
    exact List.Pairwise.nil

/-- A one-vertex graph with no arcs, used as a witness input. -/
def wGraph4 : Graph := ⟨1, fun _ _ => []⟩

/-- The labeling `Akiba::run` produces on `wGraph4` with order `[0]`. -/
def wLab4 : Labeling :=
  ((Labeling.init 1).clear.add 0 true 0 0).add 0 false 0 0

set_option maxHeartbeats 4000000 in
theorem claim_C4_akiba_sorted_witness :
    (Graph.wf wGraph4 ∧ wGraph4.n < invalidPos ∧
      ([0] : List Nat).Perm (List.range wGraph4.n) ∧
      (Labeling.init 1).n = wGraph4.n ∧
      Akiba.run 4 (by decide) wGraph4 [0] 2 (Labeling.init 1) =
        some wLab4) ∧
      (∀ u, u < wGraph4.n → ∀ t, (wLab4.label u t).Pairwise hubLt) := by
  have hwf : Graph.wf wGraph4 :=
    fun f u a ha => absurd ha (List.not_mem_nil a)
  have hrun : Akiba.run 4 (by decide) wGraph4 [0] 2 (Labeling.init 1) =
      some wLab4 := by
    simp [Akiba.run, Akiba.runGo, Akiba.iteration, akibaLoop, arcRelax,
      BasicDijkstra.update, BasicDijkstra.clear, BasicDijkstra.init,
      KHeap.update, KHeap.fixup, KHeap.siftDown, KHeap.siftUp, KHeap.kid,
      kidGo, KHeap.extract, KHeap.top, KHeap.clear, KHeap.init,
      KHeap.swapPos, Function.update, infty, invalidPos, wGraph4, wLab4]
  have hperm : ([0] : List Nat).Perm (List.range wGraph4.n) := by decide
  exact ⟨⟨hwf, by decide, hperm, rfl, hrun⟩,
    claim_C4_akiba_sorted 4 (by decide) wGraph4 hwf (by decide) [0]
      hperm 2 (Labeling.init 1) wLab4 rfl hrun⟩

/-- The signed `Vertex` comparison `u < p` of `uhhl.hpp` where `p` may be
`none = -1`: a real vertex is never below `none`. -/
def vlt (u : Nat) : Option Nat → Prop
  | none => False
  | some w => u < w

instance (u : Nat) (p : Option Nat) : Decidable (vlt u p) := by
  cases p with
  | none => exact isFalse (fun h => h)
  | some w => exact inferInstanceAs (Decidable (u < w))

/-- `UHHL::SP::USPDijkstra` state: the `BasicDijkstra` part plus the hop
counters. -/
structure USPDijkstra where
  bd : BasicDijkstra
  hops : Nat → Nat

/-- `uspd_update(v, dd, h, u)`: set the hop count, then distance, parent
and queue via `BasicDijkstra::update`. -/
def uspd_update (k : Nat) (hk : 0 < k) (s : USPDijkstra) (v dd h : Nat)
    (u : Option Nat) : USPDijkstra :=
  ⟨BasicDijkstra.update k hk s.bd v dd u, Function.update s.hops v h⟩

/-- `uspd_clear()`: zero the hops of the dirty vertices, then `clear()`. -/
def uspd_clear (s : USPDijkstra) : USPDijkstra :=
  ⟨s.bd.clear, s.bd.dirty.foldl (fun h u => Function.update h u 0) s.hops⟩

/-- The three-way USP relaxation guard of `USPDijkstra::run`: strictly
shorter distance, or equal distance and strictly fewer hops, or equal
both and a smaller parent id. -/
def guardP (s : USPDijkstra) (u d : Nat) (a : Nat × Nat) : Prop :=
  d + a.2 < s.bd.distance a.1 ∨
  (d + a.2 = s.bd.distance a.1 ∧ s.hops u + 1 < s.hops a.1) ∨
  (d + a.2 = s.bd.distance a.1 ∧ s.hops u + 1 = s.hops a.1 ∧
    vlt u (s.bd.parent a.1))

instance (s : USPDijkstra) (u d : Nat) (a : Nat × Nat) :
    Decidable (guardP s u d a) := by
  unfold guardP
  infer_instance

/-- One scanned arc of `USPDijkstra::run`: `assert(dd > d && dd < infty)`
aborts the run (`none`); otherwise relax when the guard holds. -/
def uspdRelax (k : Nat) (hk : 0 < k) (u d : Nat) (s : USPDijkstra)
    (a : Nat × Nat) : Option USPDijkstra :=
  if d + a.2 ≤ d ∨ infty ≤ d + a.2 then none
  else if guardP s u d a then
    some (uspd_update k hk s a.1 (d + a.2) (s.hops u + 1) (some u))
  else some s

/-- Scan the arc list of a popped vertex. -/
def uspdRelaxList (k : Nat) (hk : 0 < k) (u d : Nat) :
    List (Nat × Nat) → USPDijkstra → Option USPDijkstra
  | [], s => some s
  | a :: arcs, s =>
    match uspdRelax k hk u d s a with
    | none => none
    | some s2 => uspdRelaxList k hk u d arcs s2

/-- The `while (!queue.empty())` loop of `USPDijkstra::run`, with fuel. -/
def uspdLoop (k : Nat) (hk : 0 < k) (g : Graph) (f : Bool) :
    Nat → USPDijkstra → Option USPDijkstra
  | 0, s => if s.bd.queue.size = 0 then some s else none
  | fuel + 1, s =>
    if s.bd.queue.size = 0 then some s
    else
      match uspdRelaxList k hk s.bd.queue.top
        (s.bd.distance s.bd.queue.top) (g.adj f s.bd.queue.top)
        ⟨{ s.bd with queue := KHeap.extract k hk s.bd.queue s.bd.queue.top },
          s.hops⟩ with
      | none => none
      | some s2 => uspdLoop k hk g f fuel s2

/-- `USPDijkstra::run(v, forward)`: clear, seed the source, loop. -/
def USPDijkstra.run (k : Nat) (hk : 0 < k) (g : Graph) (v : Nat) (f : Bool)
    (fuel : Nat) (s : USPDijkstra) : Option USPDijkstra :=
  uspdLoop k hk g f fuel (uspd_update k hk (uspd_clear s) v 0 0 none)

/-- Walks in `g` along side `f`: `PathTo g f v u d h` says there is a walk
from `v` to `u` of total length `d` using `h` arcs. -/
inductive PathTo (g : Graph) (f : Bool) (v : Nat) : Nat → Nat → Nat → Prop where
  | refl : PathTo g f v v 0 0
  | step {w d h u len} : PathTo g f v w d h → (u, len) ∈ g.adj f w →
      PathTo g f v u (d + len) (h + 1)

/-- All arcs of `w` have been scanned consistently: the assert bound holds
and no arc of `w` can currently relax. -/
def noRelax (g : Graph) (f : Bool) (s : USPDijkstra) (w : Nat) : Prop :=
  ∀ a ∈ g.adj f w, s.bd.distance w + a.2 < infty ∧
    ¬ guardP s w (s.bd.distance w) a

/-- The invariant of `USPDijkstra::run` (claim C3). -/
structure UPack (k : Nat) (g : Graph) (f : Bool) (v : Nat)
    (s : USPDijkstra) : Prop where
  wf : KHeapWF k g.n s.bd.queue
  pres : ∀ w, s.bd.queue.present w → s.bd.distance w ≠ infty
  dv : s.bd.distance v = 0
  hv : s.hops v = 0
  bound : ∀ w, s.bd.distance w ≤ infty
  sound : ∀ w, s.bd.distance w ≠ infty →
    PathTo g f v w (s.bd.distance w) (s.hops w)
  scan : ∀ w, s.bd.distance w ≠ infty →
    s.bd.queue.present w ∨ noRelax g f s w
  par : ∀ u, s.bd.distance u ≠ infty → u ≠ v →
    ∃ w len, s.bd.parent u = some w ∧ (u, len) ∈ g.adj f w ∧
      s.bd.distance w ≠ infty ∧
      s.bd.distance w + len ≤ s.bd.distance u ∧
      (s.bd.distance w + len = s.bd.distance u →
        s.hops w + 1 ≤ s.hops u)

/-- The persistent-state contract between runs: every vertex whose
distance is not `infty` is recorded in the dirty list. -/
def StClean (s : USPDijkstra) : Prop :=
  ∀ w, s.bd.distance w ≠ infty → w ∈ s.bd.dirty

/-- A fold of constant-value updates evaluated pointwise. -/
theorem foldl_const_update {α : Type} (c : α) :
    ∀ (l : List Nat) (f : Nat → α) (w : Nat),
    (l.foldl (fun f u => Function.update f u c) f) w =
      if w ∈ l then c else f w := by
  intro l
  induction l with
  | nil =>
    intro f w
    rw [List.foldl_nil, if_neg (List.not_mem_nil w)]
  | cons a l ih =>
    intro f w
    rw [List.foldl_cons, ih]
    by_cases hw : w ∈ l
    · rw [if_pos hw, if_pos (List.mem_cons_of_mem a hw)]
    · rw [if_neg hw]
      by_cases hwa : w = a
      · rw [hwa, Function.update_same, if_pos (List.mem_cons_self a l)]
      · rw [Function.update_noteq hwa, if_neg (by
          intro hc
          rcases List.mem_cons.mp hc with h | h
          · exact hwa h
          · exact hw h)]

/-- Core stability of the USP guard: once an arc `(w, b)` cannot relax, a
relaxation of some head `x` by a scanner `u0` cannot re-enable it. -/
theorem guard_stable (dist hops : Nat → Nat) (parent : Nat → Option Nat)
    (u0 x dd0 w c : Nat) (b : Nat × Nat)
    (hup : dd0 < dist x ∨ (dd0 = dist x ∧ hops u0 + 1 < hops x) ∨
      (dd0 = dist x ∧ hops u0 + 1 = hops x ∧ vlt u0 (parent x)))
    (hold : ¬ (c + b.2 < dist b.1 ∨
      (c + b.2 = dist b.1 ∧ hops w + 1 < hops b.1) ∨
      (c + b.2 = dist b.1 ∧ hops w + 1 = hops b.1 ∧ vlt w (parent b.1)))) :
    ¬ (c + b.2 < Function.update dist x dd0 b.1 ∨
      (c + b.2 = Function.update dist x dd0 b.1 ∧
        hops w + 1 < Function.update hops x (hops u0 + 1) b.1) ∨
      (c + b.2 = Function.update dist x dd0 b.1 ∧
        hops w + 1 = Function.update hops x (hops u0 + 1) b.1 ∧
        vlt w (Function.update parent x (some u0) b.1))) := by
  by_cases hbx : b.1 = x
  · rw [hbx, Function.update_same, Function.update_same, Function.update_same]
    rw [hbx] at hold
    have h1 : ¬ c + b.2 < dist x := fun hc => hold (Or.inl hc)
    have h2 : c + b.2 = dist x → ¬ hops w + 1 < hops x :=
      fun he hc => hold (Or.inr (Or.inl ⟨he, hc⟩))
    have h3 : c + b.2 = dist x → hops w + 1 = hops x → ¬ vlt w (parent x) :=
      fun he hh hc => hold (Or.inr (Or.inr ⟨he, hh, hc⟩))
    intro hnew
    rcases hup with hu1 | ⟨hu1, hu2⟩ | ⟨hu1, hu2, hu3⟩
    · rcases hnew with hn | ⟨hn, _⟩ | ⟨hn, _, _⟩
      · exact h1 (by omega)
      · exact h1 (by omega)
      · exact h1 (by omega)
    · rcases hnew with hn | ⟨hn, hn2⟩ | ⟨hn, hn2, _⟩
      · exact h1 (by omega)
      · exact h2 (by omega) (by omega)
      · exact h2 (by omega) (by omega)
    · cases hpx : parent x with
      | none =>
        rw [hpx] at hu3
        exact hu3
      | some p =>
        rw [hpx] at hu3
        have hu3' : u0 < p := hu3
        rcases hnew with hn | ⟨hn, hn2⟩ | ⟨hn, hn2, hn3⟩
        · exact h1 (by omega)
        · exact h2 (by omega) (by omega)
        · have hh3 := h3 (by omega) (by omega)
          rw [hpx] at hh3
          have hple : ¬ w < p := hh3
          have hwu : w < u0 := hn3
          omega
  · rw [Function.update_noteq hbx, Function.update_noteq hbx,
      Function.update_noteq hbx]
    exact hold

/-- Scanning the arcs of the popped vertex `u0` preserves the invariant
and finishes with every arc of `u0` unable to relax. -/
theorem uspdScan_inv (k : Nat) (hk : 0 < k) (g : Graph) (hg : Graph.wf g)
    (f : Bool) (v u0 d : Nat) :
    ∀ (arcs pre : List (Nat × Nat)) (s : USPDijkstra),
    g.adj f u0 = pre ++ arcs →
    KHeapWF k g.n s.bd.queue →
    (∀ w, s.bd.queue.present w → s.bd.distance w ≠ infty) →
    s.bd.distance v = 0 →
    s.hops v = 0 →
    (∀ w, s.bd.distance w ≤ infty) →
    (∀ w, s.bd.distance w ≠ infty →
      PathTo g f v w (s.bd.distance w) (s.hops w)) →
    (∀ w, s.bd.distance w ≠ infty →
      w = u0 ∨ s.bd.queue.present w ∨ noRelax g f s w) →
    (∀ u, s.bd.distance u ≠ infty → u ≠ v →
      ∃ w len, s.bd.parent u = some w ∧ (u, len) ∈ g.adj f w ∧
        s.bd.distance w ≠ infty ∧
        s.bd.distance w + len ≤ s.bd.distance u ∧
        (s.bd.distance w + len = s.bd.distance u →
          s.hops w + 1 ≤ s.hops u)) →
    s.bd.distance u0 = d → d ≠ infty → ¬ s.bd.queue.present u0 →
    (∀ b ∈ pre, d + b.2 < infty ∧ ¬ guardP s u0 d b) →
    ∀ s2, uspdRelaxList k hk u0 d arcs s = some s2 →
    UPack k g f v s2 := by
  intro arcs
  induction arcs with
  | nil =>
    intro pre s hsplit hwf hpres hdv hhv hbound hsound hscan hpar hd hdinf
      hnp hpre s2 hrun
    rw [uspdRelaxList] at hrun
    simp only [Option.some.injEq] at hrun
    subst hrun
    refine ⟨hwf, hpres, hdv, hhv, hbound, hsound, ?_, hpar⟩
    intro w hw
    rcases hscan w hw with rfl | h | h
    · right
      intro b hb
      rw [List.append_nil] at hsplit
      rw [hsplit] at hb
      obtain ⟨h1, h2⟩ := hpre b hb
      rw [hd]
      exact ⟨h1, h2⟩
    · exact Or.inl h
    · exact Or.inr h
  | cons a arcs ih =>
    intro pre s hsplit hwf hpres hdv hhv hbound hsound hscan hpar hd hdinf
      hnp hpre s2 hrun
    have hsplit2 : g.adj f u0 = (pre ++ [a]) ++ arcs := by
      rw [hsplit, List.append_assoc]
      rfl
    have ha : a ∈ g.adj f u0 := by
      rw [hsplit]
      exact List.mem_append_right pre (List.mem_cons_self a arcs)
    rw [uspdRelaxList] at hrun
    cases hrel : uspdRelax k hk u0 d s a with
    | none =>
      simp only [hrel] at hrun
      exact Option.noConfusion hrun
    | some s1 =>
      simp only [hrel] at hrun
      rw [uspdRelax] at hrel
      by_cases hassert : d + a.2 ≤ d ∨ infty ≤ d + a.2
      · rw [if_pos hassert] at hrel
        exact Option.noConfusion hrel
      · rw [if_neg hassert] at hrel
        push_neg at hassert
        obtain ⟨hgt, hlt⟩ := hassert
        by_cases hguard : guardP s u0 d a
        · rw [if_pos hguard] at hrel
          have hs1 : s1 =
              uspd_update k hk s a.1 (d + a.2) (s.hops u0 + 1) (some u0) := by
            injection hrel with h
            exact h.symm
          subst hs1
          have hxn : a.1 < g.n := (hg f u0 a ha).1
          have hxu0 : a.1 ≠ u0 := by
            intro he
            rcases hguard with h1 | ⟨h1, _⟩ | ⟨h1, _, _⟩ <;>
              rw [he, hd] at h1 <;> omega
          have hu0x : u0 ≠ a.1 := fun he => hxu0 he.symm
          have hxv : a.1 ≠ v := by
            intro he
            rcases hguard with h1 | ⟨h1, _⟩ | ⟨h1, _, _⟩ <;>
              rw [he, hdv] at h1 <;> omega
          have hvx : v ≠ a.1 := fun he => hxv he.symm
          have hdist_le : d + a.2 ≤ s.bd.distance a.1 := by
            rcases hguard with h1 | ⟨h1, _⟩ | ⟨h1, _, _⟩ <;> omega
          have hhops_le : d + a.2 = s.bd.distance a.1 →
              s.hops u0 + 1 ≤ s.hops a.1 := by
            intro he
            rcases hguard with h1 | ⟨h1, h2⟩ | ⟨h1, h2, _⟩ <;> omega
          have hupd := update_WF k g.n hk s.bd.queue a.1 (d + a.2) hwf hxn
          set s' := uspd_update k hk s a.1 (d + a.2) (s.hops u0 + 1) (some u0)
            with hs'
          have hDd : s'.bd.distance =
            Function.update s.bd.distance a.1 (d + a.2) := rfl
          have hDp : s'.bd.parent =
            Function.update s.bd.parent a.1 (some u0) := rfl
          have hDh : s'.hops =
            Function.update s.hops a.1 (s.hops u0 + 1) := rfl
          have hp0 : PathTo g f v u0 d (s.hops u0) := by
            have hps := hsound u0 (by rw [hd]; exact hdinf)
            rw [hd] at hps
            exact hps
          have harc2 : (a.1, a.2) ∈ g.adj f u0 := by
            rw [Prod.mk.eta]
            exact ha
          refine ih (pre ++ [a]) s' hsplit2 hupd.1 ?_ ?_ ?_ ?_ ?_ ?_ ?_ ?_
            hdinf ?_ ?_ s2 hrun
          · -- pres
            intro w hw
            rw [hDd]
            by_cases hwx : w = a.1
            · rw [hwx, Function.update_same]
              omega
            · rw [Function.update_noteq hwx]
              rcases (hupd.2.2.1 w).mp hw with h | h
              · exact hpres w h
              · exact absurd h hwx
          · -- dv
            rw [hDd, Function.update_noteq hvx]
            exact hdv
          · -- hv
            rw [hDh, Function.update_noteq hvx]
            exact hhv
          · -- bound
            intro w
            rw [hDd]
            by_cases hwx : w = a.1
            · rw [hwx, Function.update_same]
              omega
            · rw [Function.update_noteq hwx]
              exact hbound w
          · -- sound
            intro w hw
            rw [hDd] at hw ⊢
            rw [hDh]
            by_cases hwx : w = a.1
            · subst hwx
              rw [Function.update_same, Function.update_same]
              exact PathTo.step hp0 harc2
            · rw [Function.update_noteq hwx] at hw ⊢
              rw [Function.update_noteq hwx]
              exact hsound w hw
          · -- scan
            intro w hw
            by_cases hwx : w = a.1
            · right
              left
              exact (hupd.2.2.1 w).mpr (Or.inr hwx)
            · rw [hDd, Function.update_noteq hwx] at hw
              rcases hscan w hw with rfl | hprw | hnr
              · exact Or.inl rfl
              · exact Or.inr (Or.inl ((hupd.2.2.1 w).mpr (Or.inl hprw)))
              · right
                right
                intro b hb
                obtain ⟨hb1, hb2⟩ := hnr b hb
                constructor
                · rw [hDd, Function.update_noteq hwx]
                  exact hb1
                · have hgoal := guard_stable s.bd.distance s.hops s.bd.parent
                    u0 a.1 (d + a.2) w (s.bd.distance w) b hguard hb2
                  simp only [guardP, hDd, hDh, hDp, Function.update_noteq hwx]
                  exact hgoal
          · -- par
            intro u hu huv
            by_cases hux : u = a.1
            · subst hux
              refine ⟨u0, a.2, ?_, harc2, ?_, ?_, ?_⟩
              · rw [hDp, Function.update_same]
              · rw [hDd, Function.update_noteq hu0x, hd]
                exact hdinf
              · rw [hDd, Function.update_noteq hu0x, hd, Function.update_same]
              · rw [hDd, hDh, Function.update_noteq hu0x, hd,
                  Function.update_same, Function.update_noteq hu0x,
                  Function.update_same]
                intro _
                exact Nat.le_refl _
            · rw [hDd, Function.update_noteq hux] at hu
              obtain ⟨w, len, hpar1, harc1, hwr, hle, himp⟩ := hpar u hu huv
              by_cases hwx2 : w = a.1
              · subst hwx2
                refine ⟨a.1, len, ?_, harc1, ?_, ?_, ?_⟩
                · rw [hDp, Function.update_noteq hux]
                  exact hpar1
                · rw [hDd, Function.update_same]
                  omega
                · rw [hDd, Function.update_same, Function.update_noteq hux]
                  omega
                · rw [hDd, hDh, Function.update_same,
                    Function.update_noteq hux, Function.update_same,
                    Function.update_noteq hux]
                  intro he
                  have hda : d + a.2 = s.bd.distance a.1 := by omega
                  have h1 := himp (by omega)
                  have h2 := hhops_le hda
                  omega
              · refine ⟨w, len, ?_, harc1, ?_, ?_, ?_⟩
                · rw [hDp, Function.update_noteq hux]
                  exact hpar1
                · rw [hDd, Function.update_noteq hwx2]
                  exact hwr
                · rw [hDd, Function.update_noteq hwx2,
                    Function.update_noteq hux]
                  exact hle
                · rw [hDd, hDh, Function.update_noteq hwx2,
                    Function.update_noteq hux, Function.update_noteq hwx2,
                    Function.update_noteq hux]
                  exact himp
          · -- distance of u0 unchanged
            rw [hDd, Function.update_noteq hu0x]
            exact hd
          · -- u0 still absent
            intro hp2
            rcases (hupd.2.2.1 u0).mp hp2 with h | h
            · exact hnp h
            · exact hu0x h
          · -- extended prefix
            intro b hb
            rcases List.mem_append.mp hb with hbp | hba
            · obtain ⟨hb1, hb2⟩ := hpre b hbp
              refine ⟨hb1, ?_⟩
              have hgoal := guard_stable s.bd.distance s.hops s.bd.parent
                u0 a.1 (d + a.2) u0 d b hguard hb2
              simp only [guardP, hDd, hDh, hDp, Function.update_noteq hu0x]
              exact hgoal
            · rw [List.mem_singleton] at hba
              subst hba
              refine ⟨hlt, ?_⟩
              simp only [guardP, hDd, hDh, hDp, Function.update_noteq hu0x,
                Function.update_same]
              rintro (hc | ⟨hc1, hc2⟩ | ⟨hc1, hc2, hc3⟩)
              · omega
              · omega
              · have : u0 < u0 := hc3
                omega
        · rw [if_neg hguard] at hrel
          injection hrel with hs1
          subst hs1
          refine ih (pre ++ [a]) s hsplit2 hwf hpres hdv hhv hbound hsound
            hscan hpar hd hdinf hnp ?_ s2 hrun
          intro b hb
          rcases List.mem_append.mp hb with hbp | hba
          · exact hpre b hbp
          · rw [List.mem_singleton] at hba
            subst hba
            exact ⟨hlt, hguard⟩

/-- The pop loop of `USPDijkstra::run` preserves the invariant and drains
the queue. -/
theorem uspdLoop_inv (k : Nat) (hk : 0 < k) (g : Graph) (hg : Graph.wf g)
    (f : Bool) (v : Nat) :
    ∀ (fuel : Nat) (s : USPDijkstra), UPack k g f v s →
    ∀ s2, uspdLoop k hk g f fuel s = some s2 →
    UPack k g f v s2 ∧ s2.bd.queue.size = 0 := by
  intro fuel
  induction fuel with
  | zero =>
    intro s hp s2 hrun
    rw [uspdLoop] at hrun
    by_cases hz : s.bd.queue.size = 0
    · rw [if_pos hz] at hrun
      simp only [Option.some.injEq] at hrun
      subst hrun
      exact ⟨hp, hz⟩
    · rw [if_neg hz] at hrun
      exact Option.noConfusion hrun
  | succ fuel ih =>
    intro s hp s2 hrun
    rw [uspdLoop] at hrun
    by_cases hz : s.bd.queue.size = 0
    · rw [if_pos hz] at hrun
      simp only [Option.some.injEq] at hrun
      subst hrun
      exact ⟨hp, hz⟩
    · rw [if_neg hz] at hrun
      have hpos : 0 < s.bd.queue.size := Nat.pos_of_ne_zero hz
      have hszinv : s.bd.queue.size < invalidPos :=
        Nat.lt_of_le_of_lt hp.wf.size_le hp.wf.n_lt
      set u0 := s.bd.queue.top with hu0
      have hpr : s.bd.queue.present u0 :=
        inHeap_present s.bd.queue hp.wf.pos hszinv ⟨0, hpos, rfl⟩
      have hrch : s.bd.distance u0 ≠ infty := hp.pres u0 hpr
      have hext := extract_WF k g.n hk s.bd.queue u0 hp.wf
      cases hscan : uspdRelaxList k hk u0 (s.bd.distance u0) (g.adj f u0)
          ⟨{ s.bd with queue := KHeap.extract k hk s.bd.queue u0 },
            s.hops⟩ with
      | none =>
        simp only [hscan] at hrun
        exact Option.noConfusion hrun
      | some s3 =>
        simp only [hscan] at hrun
        have hps3 := uspdScan_inv k hk g hg f v u0 (s.bd.distance u0)
          (g.adj f u0) []
          ⟨{ s.bd with queue := KHeap.extract k hk s.bd.queue u0 }, s.hops⟩
          (List.nil_append _).symm hext.1
          (fun w hw => hp.pres w ((hext.2.2.1 w).mp hw).1)
          hp.dv hp.hv hp.bound hp.sound
          (fun w hw => by
            rcases hp.scan w hw with hprw | hnr
            · by_cases hwu : w = u0
              · exact Or.inl hwu
              · exact Or.inr (Or.inl ((hext.2.2.1 w).mpr ⟨hprw, hwu⟩))
            · exact Or.inr (Or.inr hnr))
          hp.par rfl hrch
          (fun hp2 => ((hext.2.2.1 u0).mp hp2).2 rfl)
          (fun b hb => absurd hb (List.not_mem_nil b))
          s3 hscan
        exact ih s3 hps3 s2 hrun

/-- C3: after `USPDijkstra::run(v, forward)` completes from a consistent
state, `distance` is the shortest-path distance, `hops` is the minimum
arc count among shortest paths, and every reachable `u ≠ v` has
`parent[u]` equal to the predecessor that, among all arcs `(w, u)` with
`distance[w] + length = distance[u]`, has the minimum hop count from `v`
and, among those, the smallest vertex id; so the shortest-path tree is
determined by the graph, the source and the direction alone. -/
theorem claim_C3_usp_dijkstra (k : Nat) (hk : 0 < k) (g : Graph)
    (hg : Graph.wf g) (hn : g.n < invalidPos) (v : Nat) (hv : v < g.n)
    (f : Bool) (fuel : Nat) (s0 : USPDijkstra)
    (hq0 : KHeapWF k g.n s0.bd.queue) (hclean : StClean s0)
    (st : USPDijkstra)
    (hrun : USPDijkstra.run k hk g v f fuel s0 = some st) :
    (∀ u d h, PathTo g f v u d h →
      st.bd.distance u ≤ d ∧ (st.bd.distance u = d → st.hops u ≤ h)) ∧
    (∀ u d h, PathTo g f v u d h → st.bd.distance u ≠ infty) ∧
    (∀ u, st.bd.distance u ≠ infty →
      PathTo g f v u (st.bd.distance u) (st.hops u)) ∧
    (∀ u, u ≠ v → st.bd.distance u ≠ infty →
      ∃ w len, st.bd.parent u = some w ∧ (u, len) ∈ g.adj f w ∧
        st.bd.distance w + len = st.bd.distance u ∧
        st.hops w + 1 = st.hops u ∧
        (∀ w2 len2, (u, len2) ∈ g.adj f w2 →
          st.bd.distance w2 + len2 = st.bd.distance u →
          st.hops w2 + 1 = st.hops u → w ≤ w2)) := by
  have hclrq := clear_WF k g.n s0.bd.queue hq0
  have habsq := clear_absent k g.n s0.bd.queue hq0
  have hcd : ∀ w, (uspd_clear s0).bd.distance w = infty := by
    intro w
    show s0.bd.dirty.foldl (fun d u => Function.update d u infty)
      s0.bd.distance w = infty
    rw [foldl_const_update]
    by_cases hw : w ∈ s0.bd.dirty
    · rw [if_pos hw]
    · rw [if_neg hw]
      by_contra hc
      exact hw (hclean w hc)
  have hupd0 := update_WF k g.n hk (uspd_clear s0).bd.queue v 0 hclrq hv
  have hstart : UPack k g f v (uspd_update k hk (uspd_clear s0) v 0 0 none) := by
    refine ⟨hupd0.1, ?_, ?_, ?_, ?_, ?_, ?_, ?_⟩
    · intro w hw
      have hwv : w = v := by
        rcases (hupd0.2.2.1 w).mp hw with h | h
        · exact absurd (habsq w) h
        · exact h
      rw [hwv]
      show Function.update (uspd_clear s0).bd.distance v 0 v ≠ infty
      rw [Function.update_same]
      exact fun hc => absurd hc (by decide)
    · show Function.update (uspd_clear s0).bd.distance v 0 v = 0
      rw [Function.update_same]
    · show Function.update (uspd_clear s0).hops v 0 v = 0
      rw [Function.update_same]
    · intro w
      show Function.update (uspd_clear s0).bd.distance v 0 w ≤ infty
      by_cases hwv : w = v
      · rw [hwv, Function.update_same]
        exact Nat.zero_le _
      · rw [Function.update_noteq hwv, hcd w]
    · intro w hw
      by_cases hwv : w = v
      · rw [hwv]
        show PathTo g f v v (Function.update (uspd_clear s0).bd.distance v 0 v)
          (Function.update (uspd_clear s0).hops v 0 v)
        rw [Function.update_same, Function.update_same]
        exact PathTo.refl
      · exact absurd (show Function.update (uspd_clear s0).bd.distance v 0 w =
            infty by rw [Function.update_noteq hwv, hcd w]) hw
    · intro w hw
      by_cases hwv : w = v
      · exact Or.inl ((hupd0.2.2.1 w).mpr (Or.inr hwv))
      · exact absurd (show Function.update (uspd_clear s0).bd.distance v 0 w =
            infty by rw [Function.update_noteq hwv, hcd w]) hw
    · intro u hu huv
      by_cases huv2 : u = v
      · exact absurd huv2 huv
      · exact absurd (show Function.update (uspd_clear s0).bd.distance v 0 u =
            infty by rw [Function.update_noteq huv2, hcd u]) hu
  rw [USPDijkstra.run] at hrun
  obtain ⟨hp, hsz⟩ := uspdLoop_inv k hk g hg f v fuel _ hstart st hrun
  have hnopres : ∀ w, ¬ st.bd.queue.present w := by
    intro w hw
    obtain ⟨q, hq, _⟩ := present_loc st.bd.queue hp.wf.clean hw
    omega
  have hscanAll : ∀ w, st.bd.distance w ≠ infty → noRelax g f st w := by
    intro w hw
    rcases hp.scan w hw with h | h
    · exact absurd h (hnopres w)
    · exact h
  have hopt : ∀ u d h, PathTo g f v u d h →
      st.bd.distance u ≤ d ∧ (st.bd.distance u = d → st.hops u ≤ h) := by
    intro u d h hpath
    induction hpath with
    | refl =>
      constructor
      · rw [hp.dv]
      · intro _
        rw [hp.hv]
    | @step w d2 h2 u2 len hpath harc ihp =>
      obtain ⟨ih1, ih2⟩ := ihp
      by_cases hw : st.bd.distance w = infty
      · have hdge : infty ≤ d2 := hw ▸ ih1
        have hlen : 1 ≤ len := (hg f w (u2, len) harc).2
        constructor
        · exact Nat.le_trans (Nat.le_trans (hp.bound u2) hdge)
            (Nat.le_add_right _ _)
        · intro he
          have := hp.bound u2
          omega
      · obtain ⟨hb1, hb2⟩ := hscanAll w hw (u2, len) harc
        have hb2' : ¬ (st.bd.distance w + len < st.bd.distance u2 ∨
            (st.bd.distance w + len = st.bd.distance u2 ∧
              st.hops w + 1 < st.hops u2) ∨
            (st.bd.distance w + len = st.bd.distance u2 ∧
              st.hops w + 1 = st.hops u2 ∧ vlt w (st.bd.parent u2))) := hb2
        have h1 : st.bd.distance u2 ≤ st.bd.distance w + len := by
          by_contra hc
          exact hb2' (Or.inl (by omega))
        constructor
        · omega
        · intro he
          have hdw : st.bd.distance w = d2 := by omega
          have hh : st.hops u2 ≤ st.hops w + 1 := by
            by_contra hc
            exact hb2' (Or.inr (Or.inl ⟨by omega, by omega⟩))
          have := ih2 hdw
          omega
  refine ⟨hopt, ?_, hp.sound, ?_⟩
  · intro u d h hpath
    induction hpath with
    | refl =>
      rw [hp.dv]
      exact fun hc => absurd hc (by decide)
    | @step w d2 h2 u2 len hpath harc ihp =>
      obtain ⟨hb1, hb2⟩ := hscanAll w ihp (u2, len) harc
      have hb2' : ¬ (st.bd.distance w + len < st.bd.distance u2 ∨
          (st.bd.distance w + len = st.bd.distance u2 ∧
            st.hops w + 1 < st.hops u2) ∨
          (st.bd.distance w + len = st.bd.distance u2 ∧
            st.hops w + 1 = st.hops u2 ∧ vlt w (st.bd.parent u2))) := hb2
      have h1 : st.bd.distance u2 ≤ st.bd.distance w + len := by
        by_contra hc
        exact hb2' (Or.inl (by omega))
      omega
  · intro u huv hu
    obtain ⟨w, len, hpar, harc, hwr, hle, himp⟩ := hp.par u hu huv
    obtain ⟨hb1, hb2⟩ := hscanAll w hwr (u, len) harc
    have hb2' : ¬ (st.bd.distance w + len < st.bd.distance u ∨
        (st.bd.distance w + len = st.bd.distance u ∧
          st.hops w + 1 < st.hops u) ∨
        (st.bd.distance w + len = st.bd.distance u ∧
          st.hops w + 1 = st.hops u ∧ vlt w (st.bd.parent u))) := hb2
    have hge : st.bd.distance u ≤ st.bd.distance w + len := by
      by_contra hc
      exact hb2' (Or.inl (by omega))
    have heq : st.bd.distance w + len = st.bd.distance u := by omega
    have hh1 : st.hops u ≤ st.hops w + 1 := by
      by_contra hc
      exact hb2' (Or.inr (Or.inl ⟨heq, by omega⟩))
    have hh2 : st.hops w + 1 ≤ st.hops u := himp heq
    refine ⟨w, len, hpar, harc, heq, by omega, ?_⟩
    intro w2 len2 harc2 hsum2 hhop2
    have hw2r : st.bd.distance w2 ≠ infty := by
      have := hp.bound u
      omega
    obtain ⟨hc1, hc2⟩ := hscanAll w2 hw2r (u, len2) harc2
    have hc2' : ¬ (st.bd.distance w2 + len2 < st.bd.distance u ∨
        (st.bd.distance w2 + len2 = st.bd.distance u ∧
          st.hops w2 + 1 < st.hops u) ∨
        (st.bd.distance w2 + len2 = st.bd.distance u ∧
          st.hops w2 + 1 = st.hops u ∧ vlt w2 (st.bd.parent u))) := hc2
    by_contra hcw
    push_neg at hcw
    refine hc2' (Or.inr (Or.inr ⟨hsum2, hhop2, ?_⟩))
    rw [hpar]
    show w2 < w
    omega

/-- A fresh `USPDijkstra(g)` object for the witness. -/
def wUSP0 : USPDijkstra := ⟨BasicDijkstra.init, fun _ => 0⟩

/-- The state after seeding the source in the witness run. -/
def wUSP1 : USPDijkstra := uspd_update 4 (by decide) (uspd_clear wUSP0) 0 0 0 none

/-- The final state of the witness run (source popped, no arcs). -/
def wUSPend : USPDijkstra :=
  ⟨{ wUSP1.bd with
      queue := KHeap.extract 4 (by decide) wUSP1.bd.queue wUSP1.bd.queue.top },
    wUSP1.hops⟩

set_option maxHeartbeats 2000000 in
theorem claim_C3_usp_dijkstra_witness :
    ((0 : Nat) < 4 ∧ Graph.wf wGraph4 ∧ wGraph4.n < invalidPos ∧
      (0 : Nat) < wGraph4.n ∧ KHeapWF 4 wGraph4.n wUSP0.bd.queue ∧
      StClean wUSP0 ∧
      USPDijkstra.run 4 (by decide) wGraph4 0 true 2 wUSP0 = some wUSPend) ∧
      (∀ u, u ≠ 0 → wUSPend.bd.distance u ≠ infty →
        ∃ w len, wUSPend.bd.parent u = some w ∧
          (u, len) ∈ wGraph4.adj true w ∧
          wUSPend.bd.distance w + len = wUSPend.bd.distance u ∧
          wUSPend.hops w + 1 = wUSPend.hops u ∧
          (∀ w2 len2, (u, len2) ∈ wGraph4.adj true w2 →
            wUSPend.bd.distance w2 + len2 = wUSPend.bd.distance u →
            wUSPend.hops w2 + 1 = wUSPend.hops u → w ≤ w2)) := by
  have hwf : Graph.wf wGraph4 := fun f u a ha => absurd ha (List.not_mem_nil a)
  have hq0 : KHeapWF 4 wGraph4.n wUSP0.bd.queue := init_WF 4 1 (by decide)
  have hclean : StClean wUSP0 := fun w h => absurd rfl h
  have hrun : USPDijkstra.run 4 (by decide) wGraph4 0 true 2 wUSP0 =
      some wUSPend := by
    simp [USPDijkstra.run, uspdLoop, uspdRelaxList, uspd_update, uspd_clear,
      BasicDijkstra.update, BasicDijkstra.clear, BasicDijkstra.init,
      KHeap.update, KHeap.fixup, KHeap.siftDown, KHeap.siftUp, KHeap.kid,
      kidGo, KHeap.extract, KHeap.top, KHeap.clear, KHeap.init,
      KHeap.swapPos, Function.update, infty, invalidPos, wGraph4, wUSP0,
      wUSP1, wUSPend]
  exact ⟨⟨by decide, hwf, by decide, by decide, hq0, hclean, hrun⟩,
    (claim_C3_usp_dijkstra 4 (by decide) wGraph4 hwf (by decide) 0 (by decide)
      true 2 wUSP0 hq0 hclean wUSPend hrun).2.2.2⟩

/-- Rewrite the indices of a walk. -/
theorem pathTo_cast {g : Graph} {f : Bool} {v u d h d2 h2 : Nat}
    (hp : PathTo g f v u d h) (hd : d = d2) (hh : h = h2) :
    PathTo g f v u d2 h2 := hd ▸ hh ▸ hp

/-- Walks concatenate. -/
theorem pathTo_trans {g : Graph} {f : Bool} {a b c d1 h1 d2 h2 : Nat}
    (p1 : PathTo g f a b d1 h1) (p2 : PathTo g f b c d2 h2) :
    PathTo g f a c (d1 + d2) (h1 + h2) := by
  induction p2 with
  | refl => exact pathTo_cast p1 (by omega) (by omega)
  | step hp harc ih =>
    exact pathTo_cast (PathTo.step ih harc) (by omega) (by omega)

/-- The reverse-adjacency contract of the graph store: an arc appears on
one side exactly when its reversal appears on the other. -/
def Graph.symm (g : Graph) : Prop :=
  ∀ f a b len, (b, len) ∈ g.adj f a ↔ (a, len) ∈ g.adj (!f) b

/-- Walks reverse between the two sides. -/
theorem pathTo_rev {g : Graph} (hrev : Graph.symm g) {f : Bool}
    {v u d h : Nat} (hp : PathTo g f v u d h) : PathTo g (!f) u v d h := by
  induction hp with
  | refl => exact PathTo.refl
  | @step w d2 h2 u2 len hp harc ih =>
    have harc2 : (w, len) ∈ g.adj (!f) u2 := (hrev f w u2 len).mp harc
    exact pathTo_cast (pathTo_trans (PathTo.step PathTo.refl harc2) ih)
      (by omega) (by omega)

/-- Every nonempty set of naturals has a least element. -/
theorem exists_least (P : Nat → Prop) : (∃ n, P n) →
    ∃ n, P n ∧ ∀ m, m < n → ¬ P m := by
  rintro ⟨n, hn⟩
  induction n using Nat.strong_induction_on with
  | _ n ih =>
    by_cases h : ∃ m, m < n ∧ P m
    · obtain ⟨m, hm, hPm⟩ := h
      exact ih m hm hPm
    · push_neg at h
      exact ⟨n, hn, h⟩

/-- `d` is the shortest-walk distance from `a` to `b` on side `f`. -/
def DRel (g : Graph) (f : Bool) (a b d : Nat) : Prop :=
  (∃ h, PathTo g f a b d h) ∧ ∀ d2 h2, PathTo g f a b d2 h2 → d ≤ d2

theorem dRel_exists {g : Graph} {f : Bool} {a b : Nat}
    (hreach : ∃ d h, PathTo g f a b d h) : ∃ d, DRel g f a b d := by
  obtain ⟨d0, h0, hp⟩ := hreach
  obtain ⟨d, hd, hmin⟩ :=
    exists_least (fun d => ∃ h, PathTo g f a b d h) ⟨d0, h0, hp⟩
  refine ⟨d, hd, fun d2 h2 hp2 => ?_⟩
  by_contra hc
  exact hmin d2 (by omega) ⟨h2, hp2⟩

theorem dRel_unique {g : Graph} {f : Bool} {a b d d2 : Nat}
    (h1 : DRel g f a b d) (h2 : DRel g f a b d2) : d = d2 := by
  obtain ⟨⟨hh1, hp1⟩, hm1⟩ := h1
  obtain ⟨⟨hh2, hp2⟩, hm2⟩ := h2
  exact Nat.le_antisymm (hm1 _ _ hp2) (hm2 _ _ hp1)

theorem dRel_refl (g : Graph) (f : Bool) (a : Nat) : DRel g f a a 0 :=
  ⟨⟨0, PathTo.refl⟩, fun d2 h2 _ => Nat.zero_le _⟩

/-- Triangle inequality of shortest distances. -/
theorem dRel_triangle {g : Graph} {f : Bool} {a b c dac d1 h1 d2 h2 : Nat}
    (hac : DRel g f a c dac) (p1 : PathTo g f a b d1 h1)
    (p2 : PathTo g f b c d2 h2) : dac ≤ d1 + d2 :=
  hac.2 _ _ (pathTo_trans p1 p2)

theorem dRel_rev {g : Graph} (hrev : Graph.symm g) {f : Bool} {a b d : Nat}
    (h : DRel g f a b d) : DRel g (!f) b a d := by
  obtain ⟨⟨h1, hp⟩, hm⟩ := h
  refine ⟨⟨h1, pathTo_rev hrev hp⟩, ?_⟩
  intro d2 h2 hp2
  have := pathTo_rev hrev hp2
  rw [Bool.not_not] at this
  exact hm d2 h2 this

/-- `x` lies on some shortest `a → b` walk on side `f`. -/
def OnShortest (g : Graph) (f : Bool) (a b x : Nat) : Prop :=
  ∃ d1 d2 d, DRel g f a x d1 ∧ DRel g f x b d2 ∧ DRel g f a b d ∧
    d1 + d2 = d

/-- A vertex on a shortest prefix of a shortest walk lies on the full
shortest walk. -/
theorem onShortest_splice {g : Graph} {f : Bool} {a u x z : Nat}
    (hz : OnShortest g f a x z) (hx : OnShortest g f a u x) :
    OnShortest g f a u z := by
  obtain ⟨e1, e2, e3, hz1, hz2, hz3, hze⟩ := hz
  obtain ⟨g1, g2, g3, hx1, hx2, hx3, hxe⟩ := hx
  have he3g1 : e3 = g1 := dRel_unique hz3 hx1
  obtain ⟨hz2h, hz2p⟩ := hz2.1
  obtain ⟨hx2h, hx2p⟩ := hx2.1
  obtain ⟨dzu, hzu⟩ := dRel_exists ⟨e2 + g2, _, pathTo_trans hz2p hx2p⟩
  have hle1 : dzu ≤ e2 + g2 := hzu.2 _ _ (pathTo_trans hz2p hx2p)
  obtain ⟨hz1h, hz1p⟩ := hz1.1
  obtain ⟨hzuh, hzup⟩ := hzu.1
  have hle2 : g3 ≤ e1 + dzu := dRel_triangle hx3 hz1p hzup
  refine ⟨e1, dzu, g3, hz1, ?_, hx3, by omega⟩
  refine ⟨hzu.1, hzu.2⟩

/-- A vertex on a shortest suffix of a shortest walk lies on the full
shortest walk. -/
theorem onShortest_splice2 {g : Graph} {f : Bool} {a u x z : Nat}
    (hz : OnShortest g f x u z) (hx : OnShortest g f a u x) :
    OnShortest g f a u z := by
  obtain ⟨e1, e2, e3, hz1, hz2, hz3, hze⟩ := hz
  obtain ⟨g1, g2, g3, hx1, hx2, hx3, hxe⟩ := hx
  have he3g2 : e3 = g2 := dRel_unique hz3 hx2
  obtain ⟨hz1h, hz1p⟩ := hz1.1
  obtain ⟨hx1h, hx1p⟩ := hx1.1
  obtain ⟨daz, haz⟩ := dRel_exists ⟨g1 + e1, _, pathTo_trans hx1p hz1p⟩
  have hle1 : daz ≤ g1 + e1 := haz.2 _ _ (pathTo_trans hx1p hz1p)
  obtain ⟨hz2h, hz2p⟩ := hz2.1
  obtain ⟨hazh, hazp⟩ := haz.1
  have hle2 : g3 ≤ daz + e2 := dRel_triangle hx3 hazp hz2p
  exact ⟨daz, e2, g3, haz, hz2, hx3, by omega⟩

/-- A certified common-hub bound between `src` and `hd` in the current
labeling. -/
def HubCert (lab : Labeling) (src hd : Nat) (f : Bool) (bound : Nat) : Prop :=
  ∃ e g2, e ∈ lab.label src f ∧ g2 ∈ lab.label hd (!f) ∧ e.1 = g2.1 ∧
    e.2 + g2.2 ≤ bound

theorem commonSums_intro (xs ys : Label) (e g2 : Nat × Nat)
    (he : e ∈ xs) (hg : g2 ∈ ys) (hig : e.1 = g2.1) :
    e.2 + g2.2 ∈ commonSums xs ys := by
  simp only [commonSums, List.mem_flatMap, List.mem_filterMap]
  exact ⟨e, he, g2, hg, by rw [if_pos hig]⟩

theorem foldr_min_le (l : List Nat) (r a : Nat) (ha : a ∈ l) :
    l.foldr min r ≤ a := by
  induction l with
  | nil => exact absurd ha (List.not_mem_nil a)
  | cons b l ih =>
    rcases List.mem_cons.mp ha with rfl | h
    · exact Nat.min_le_left _ _
    · exact Nat.le_trans (Nat.min_le_right _ _) (ih h)

theorem foldr_min_cases (l : List Nat) (r : Nat) :
    l.foldr min r = r ∨ l.foldr min r ∈ l := by
  induction l with
  | nil => exact Or.inl rfl
  | cons b l ih =>
    simp only [List.foldr_cons]
    rcases Nat.le_total b (l.foldr min r) with h | h
    · rw [Nat.min_eq_left h]
      exact Or.inr (List.mem_cons_self b l)
    · rw [Nat.min_eq_right h]
      rcases ih with h2 | h2
      · exact Or.inl h2
      · exact Or.inr (List.mem_cons_of_mem b h2)

/-- A common hub bounds the query from above (sorted lists). -/
theorem query_le_of_entries (L : Labeling) (a b : Nat) (f : Bool)
    (hx : (L.label a f).Pairwise hubLt) (hy : (L.label b (!f)).Pairwise hubLt)
    (e g2 : Nat × Nat) (he : e ∈ L.label a f) (hg : g2 ∈ L.label b (!f))
    (hig : e.1 = g2.1) : L.query a b f ≤ e.2 + g2.2 := by
  have hq : L.query a b f =
      (commonSums (L.label a f) (L.label b (!f))).foldr min infty :=
    queryLoop_eq (L.label a f) (L.label b (!f)) infty hx hy
  rw [hq]
  exact foldr_min_le _ _ _ (commonSums_intro _ _ e g2 he hg hig)

/-- A query below `infty` is a common-hub sum (sorted lists). -/
theorem query_realized (L : Labeling) (a b : Nat) (f : Bool)
    (hx : (L.label a f).Pairwise hubLt) (hy : (L.label b (!f)).Pairwise hubLt)
    (hne : L.query a b f ≠ infty) :
    ∃ e ∈ L.label a f, ∃ g2 ∈ L.label b (!f), e.1 = g2.1 ∧
      L.query a b f = e.2 + g2.2 := by
  have hq : L.query a b f =
      (commonSums (L.label a f) (L.label b (!f))).foldr min infty :=
    queryLoop_eq (L.label a f) (L.label b (!f)) infty hx hy
  rcases foldr_min_cases (commonSums (L.label a f) (L.label b (!f))) infty
    with h | h
  · rw [hq] at hne
    exact absurd h hne
  · obtain ⟨e, he, g2, hg, hig, hsum⟩ := mem_commonSums _ _ _ h
    exact ⟨e, he, g2, hg, hig, by rw [hq, hsum]⟩

/-- Dirty bookkeeping of `BasicDijkstra::update`: the `is_dirty` flags and
the dirty list stay in sync, old flags survive, and the target is dirty. -/
theorem dirt_update (k : Nat) (hk : 0 < k) (s : BasicDijkstra) (v d2 : Nat)
    (p : Option Nat) (h1 : ∀ w, s.is_dirty w = true ↔ w ∈ s.dirty) :
    (∀ w, (BasicDijkstra.update k hk s v d2 p).is_dirty w = true ↔
      w ∈ (BasicDijkstra.update k hk s v d2 p).dirty) ∧
    (∀ w, s.is_dirty w = true →
      (BasicDijkstra.update k hk s v d2 p).is_dirty w = true) ∧
    (BasicDijkstra.update k hk s v d2 p).is_dirty v = true := by
  refine ⟨?_, ?_, ?_⟩
  · intro w
    show (if s.is_dirty v then s.is_dirty else
      Function.update s.is_dirty v true) w = true ↔
      w ∈ (if s.is_dirty v then s.dirty else s.dirty ++ [v])
    by_cases hv : s.is_dirty v = true
    · rw [if_pos hv, if_pos hv]
      exact h1 w
    · rw [if_neg hv, if_neg hv]
      by_cases hw : w = v
      · subst hw
        rw [Function.update_same]
        constructor
        · intro _
          exact List.mem_append_right _ (List.mem_singleton.mpr rfl)
        · intro _
          rfl
      · rw [Function.update_noteq hw, h1 w]
        simp only [List.mem_append, List.mem_singleton]
        refine ⟨fun h2 => Or.inl h2, ?_⟩
        rintro (h2 | h2)
        · exact h2
        · exact absurd h2 hw
  · intro w hw
    show (if s.is_dirty v then s.is_dirty else
      Function.update s.is_dirty v true) w = true
    by_cases hv : s.is_dirty v = true
    · rw [if_pos hv]
      exact hw
    · rw [if_neg hv]
      by_cases hwv : w = v
      · subst hwv
        rw [Function.update_same]
      · rw [Function.update_noteq hwv]
        exact hw
  · show (if s.is_dirty v then s.is_dirty else
      Function.update s.is_dirty v true) v = true
    by_cases hv : s.is_dirty v = true
    · rw [if_pos hv]
      exact hv
    · rw [if_neg hv, Function.update_same]

/-- Every arc of `l` out of `u` has been accounted for: its head already
has a no-better distance, or a common hub certifies the relaxed value, or
the relaxed value is out of range. -/
def AScan (g : Graph) (lab : Labeling) (src : Nat) (f : Bool)
    (dist : Nat → Nat) (u : Nat) (l : List (Nat × Nat)) : Prop :=
  ∀ a ∈ l, dist a.1 ≤ dist u + a.2 ∨
    HubCert lab src a.1 f (dist u + a.2) ∨ infty ≤ dist u + a.2

theorem hubCert_mono (lab lab2 : Labeling) (src hd : Nat) (f : Bool)
    (b1 b2 : Nat) (hb : b1 ≤ b2)
    (hext : ∀ u t, ∃ sfx, lab2.label u t = lab.label u t ++ sfx)
    (h : HubCert lab src hd f b1) : HubCert lab2 src hd f b2 := by
  obtain ⟨e, g2, he, hg, hig, hs⟩ := h
  obtain ⟨s1, hs1⟩ := hext src f
  obtain ⟨s2, hs2⟩ := hext hd (!f)
  refine ⟨e, g2, ?_, ?_, hig, Nat.le_trans hs hb⟩
  · rw [hs1]
    exact List.mem_append_left _ he
  · rw [hs2]
    exact List.mem_append_left _ hg

/-- Strengthened loop invariant of `Akiba::iteration` for claim C1: the C4
invariant plus distance soundness, the pinned value of each emitted entry,
the scan discipline on popped vertices, and dirty-list bookkeeping. -/
structure AInv (k n : Nat) (g : Graph) (src i : Nat) (f : Bool)
    (base lab : Labeling) (d : Nat) (s : BasicDijkstra) : Prop where
  wf : KHeapWF k n s.queue
  sync : ∀ w, s.queue.present w → s.queue.key w = s.distance w
  low : ∀ w, s.queue.present w → d ≤ s.distance w
  done : ∀ u, lab.label u (!f) ≠ base.label u (!f) →
    ¬ s.queue.present u ∧ s.distance u ≤ d
  frame : ∀ u t, t ≠ !f → lab.label u t = base.label u t
  app : ∀ u, lab.label u (!f) = base.label u (!f) ∨
    lab.label u (!f) = base.label u (!f) ++ [(i, s.distance u)]
  sound : ∀ w, s.queue.present w ∨ lab.label w (!f) ≠ base.label w (!f) →
    ∃ h2, PathTo g f src w (s.distance w) h2
  srcd : s.distance src = 0
  touched : ∀ w, s.distance w ≠ infty →
    s.queue.present w ∨ lab.label w (!f) ≠ base.label w (!f)
  scanned : ∀ u, lab.label u (!f) ≠ base.label u (!f) →
    AScan g lab src f s.distance u (g.adj f u)
  dirt1 : ∀ w, s.is_dirty w = true ↔ w ∈ s.dirty
  dirt2 : ∀ w, s.distance w ≠ infty → s.is_dirty w = true

/-- The invariant in the middle of the arc fold of one popped vertex
`u0`: `AInv` with the scan discipline restricted to earlier pops, plus the
scan facts for the prefix `pre` of the arcs of `u0` already processed. -/
structure AFold (k n : Nat) (g : Graph) (src i : Nat) (f : Bool)
    (base lab : Labeling) (u0 : Nat) (pre : List (Nat × Nat)) (d : Nat)
    (s : BasicDijkstra) : Prop where
  wf : KHeapWF k n s.queue
  sync : ∀ w, s.queue.present w → s.queue.key w = s.distance w
  low : ∀ w, s.queue.present w → d ≤ s.distance w
  done : ∀ u, lab.label u (!f) ≠ base.label u (!f) →
    ¬ s.queue.present u ∧ s.distance u ≤ d
  frame : ∀ u t, t ≠ !f → lab.label u t = base.label u t
  app : ∀ u, lab.label u (!f) = base.label u (!f) ∨
    lab.label u (!f) = base.label u (!f) ++ [(i, s.distance u)]
  sound : ∀ w, s.queue.present w ∨ lab.label w (!f) ≠ base.label w (!f) →
    ∃ h2, PathTo g f src w (s.distance w) h2
  srcd : s.distance src = 0
  touched : ∀ w, s.distance w ≠ infty →
    s.queue.present w ∨ lab.label w (!f) ≠ base.label w (!f)
  scanx : ∀ u, lab.label u (!f) ≠ base.label u (!f) → u ≠ u0 →
    AScan g lab src f s.distance u (g.adj f u)
  prescan : AScan g lab src f s.distance u0 pre
  du0 : s.distance u0 = d
  u0app : lab.label u0 (!f) ≠ base.label u0 (!f)
  dirt1 : ∀ w, s.is_dirty w = true ↔ w ∈ s.dirty
  dirt2 : ∀ w, s.distance w ≠ infty → s.is_dirty w = true

/-- During an iteration every hub list of a vertex below `n` stays
sorted, given the shape fields of the invariant and the base facts. -/
theorem ainv_sorted (i : Nat) (f : Bool) (base lab : Labeling) (n : Nat)
    (hframe : ∀ u t, t ≠ !f → lab.label u t = base.label u t)
    (happ : ∀ u, lab.label u (!f) = base.label u (!f) ∨
      ∃ dd, lab.label u (!f) = base.label u (!f) ++ [(i, dd)])
    (hbs : ∀ u, u < n → ∀ t, (base.label u t).Pairwise hubLt)
    (hbhf : ∀ u, u < n → ∀ p ∈ base.label u (!f), (p : Nat × Nat).1 < i) :
    ∀ u, u < n → ∀ t, (lab.label u t).Pairwise hubLt := by
  intro u hu t
  exact (lshape_sorted i f base lab u ⟨hframe, happ⟩ (hbs u hu)
    (fun p hp => hbhf u hu p hp)).1 t

/-- The arc fold of one popped vertex carries the mid-fold invariant to
the full loop invariant once all its arcs are processed. -/
theorem ascanFold (k n : Nat) (hk : 0 < k) (g : Graph) (src : Nat)
    (hsrcn : src < n) (i : Nat) (f : Bool) (base : Labeling)
    (hbs : ∀ u, u < n → ∀ t, (base.label u t).Pairwise hubLt)
    (hbhf : ∀ u, u < n → ∀ p ∈ base.label u (!f), (p : Nat × Nat).1 < i)
    (lab : Labeling) (u0 d : Nat) :
    ∀ (arcs pre : List (Nat × Nat)), g.adj f u0 = pre ++ arcs →
    (∀ a ∈ arcs, a.1 < n ∧ 1 ≤ a.2) →
    ∀ s : BasicDijkstra, AFold k n g src i f base lab u0 pre d s →
    AInv k n g src i f base lab d
      (arcs.foldl (arcRelax k hk src f lab d) s) := by
  intro arcs
  induction arcs with
  | nil =>
    intro pre hsplit _ s h
    rw [List.append_nil] at hsplit
    rw [List.foldl_nil]
    refine ⟨h.wf, h.sync, h.low, h.done, h.frame, h.app, h.sound, h.srcd,
      h.touched, ?_, h.dirt1, h.dirt2⟩
    intro u hu
    by_cases huu : u = u0
    · subst huu
      rw [hsplit]
      exact h.prescan
    · exact h.scanx u hu huu
  | cons a arcs ih =>
    intro pre hsplit harcs s h
    rw [List.foldl_cons]
    have hsplit2 : g.adj f u0 = (pre ++ [a]) ++ arcs := by
      rw [hsplit, List.append_assoc]
      rfl
    have hamem : a ∈ g.adj f u0 := by
      rw [hsplit]
      exact List.mem_append_right _ (List.mem_cons_self a arcs)
    obtain ⟨hx1, hx2⟩ := harcs a (List.mem_cons_self a arcs)
    have harcs2 : ∀ b ∈ arcs, b.1 < n ∧ 1 ≤ b.2 :=
      fun b hb => harcs b (List.mem_cons_of_mem a hb)
    rw [arcRelax]
    by_cases hguard : d + a.2 < s.distance a.1 ∧
      d + a.2 < lab.query src a.1 f
    · rw [if_pos hguard]
      obtain ⟨hg1, hg2⟩ := hguard
      have hxfresh : lab.label a.1 (!f) = base.label a.1 (!f) := by
        by_contra hne
        have hda := (h.done a.1 hne).2
        omega
      have hxu0 : a.1 ≠ u0 := fun he => h.u0app (he ▸ hxfresh)
      have hxsrc : a.1 ≠ src := by
        intro he
        rw [he, h.srcd] at hg1
        omega
      have hupd := update_WF k n hk s.queue a.1 (d + a.2) h.wf hx1
      have hdirt := dirt_update k hk s a.1 (d + a.2) none h.dirt1
      refine ih (pre ++ [a]) hsplit2 harcs2 _
        ⟨hupd.1, ?_, ?_, ?_, h.frame, ?_, ?_, ?_, ?_, ?_, ?_, ?_, h.u0app,
          hdirt.1, ?_⟩
      · intro w hw
        show (KHeap.update k hk s.queue a.1 (d + a.2)).key w =
          Function.update s.distance a.1 (d + a.2) w
        rw [hupd.2.1]
        by_cases hwa : w = a.1
        · rw [hwa, Function.update_same, Function.update_same]
        · rw [Function.update_noteq hwa, Function.update_noteq hwa]
          refine h.sync w ?_
          rcases (hupd.2.2.1 w).mp hw with h1 | h1
          · exact h1
          · exact absurd h1 hwa
      · intro w hw
        show d ≤ Function.update s.distance a.1 (d + a.2) w
        by_cases hwa : w = a.1
        · rw [hwa, Function.update_same]
          omega
        · rw [Function.update_noteq hwa]
          refine h.low w ?_
          rcases (hupd.2.2.1 w).mp hw with h1 | h1
          · exact h1
          · exact absurd h1 hwa
      · intro u hu
        obtain ⟨hnp, hdu⟩ := h.done u hu
        have hua : u ≠ a.1 := by
          intro he
          rw [he] at hdu
          omega
        refine ⟨?_, ?_⟩
        · intro hp
          rcases (hupd.2.2.1 u).mp hp with h1 | h1
          · exact hnp h1
          · exact hua h1
        · show Function.update s.distance a.1 (d + a.2) u ≤ d
          rw [Function.update_noteq hua]
          exact hdu
      · intro u
        by_cases hua : u = a.1
        · subst hua
          exact Or.inl hxfresh
        · rcases h.app u with h1 | h1
          · exact Or.inl h1
          · right
            show lab.label u (!f) = base.label u (!f) ++
              [(i, Function.update s.distance a.1 (d + a.2) u)]
            rw [Function.update_noteq hua]
            exact h1
      · intro w hw
        by_cases hwa : w = a.1
        · subst hwa
          show ∃ h2, PathTo g f src a.1
            (Function.update s.distance a.1 (d + a.2) a.1) h2
          rw [Function.update_same]
          obtain ⟨h0, hp0⟩ := h.sound u0 (Or.inr h.u0app)
          rw [h.du0] at hp0
          exact ⟨h0 + 1, PathTo.step hp0 hamem⟩
        · show ∃ h2, PathTo g f src w
            (Function.update s.distance a.1 (d + a.2) w) h2
          rw [Function.update_noteq hwa]
          refine h.sound w ?_
          rcases hw with hp | hp
          · rcases (hupd.2.2.1 w).mp hp with h1 | h1
            · exact Or.inl h1
            · exact absurd h1 hwa
          · exact Or.inr hp
      · show Function.update s.distance a.1 (d + a.2) src = 0
        rw [Function.update_noteq (Ne.symm hxsrc)]
        exact h.srcd
      · intro w hw2
        by_cases hwa : w = a.1
        · left
          exact (hupd.2.2.1 w).mpr (Or.inr hwa)
        · have hw2b : Function.update s.distance a.1 (d + a.2) w ≠ infty := hw2
          rw [Function.update_noteq hwa] at hw2b
          rcases h.touched w hw2b with hp | hp
          · left
            exact (hupd.2.2.1 w).mpr (Or.inl hp)
          · exact Or.inr hp
      · intro u hu huu0
        intro b hb
        have hua : u ≠ a.1 := by
          intro he
          rw [he] at hu
          exact hu hxfresh
        show Function.update s.distance a.1 (d + a.2) b.1 ≤
            Function.update s.distance a.1 (d + a.2) u + b.2 ∨
          HubCert lab src b.1 f
            (Function.update s.distance a.1 (d + a.2) u + b.2) ∨
          infty ≤ Function.update s.distance a.1 (d + a.2) u + b.2
        rw [Function.update_noteq hua]
        rcases h.scanx u hu huu0 b hb with h1 | h1 | h1
        · left
          by_cases hba : b.1 = a.1
          · rw [hba, Function.update_same]
            rw [hba] at h1
            omega
          · rw [Function.update_noteq hba]
            exact h1
        · exact Or.inr (Or.inl h1)
        · exact Or.inr (Or.inr h1)
      · intro b hb
        show Function.update s.distance a.1 (d + a.2) b.1 ≤
            Function.update s.distance a.1 (d + a.2) u0 + b.2 ∨
          HubCert lab src b.1 f
            (Function.update s.distance a.1 (d + a.2) u0 + b.2) ∨
          infty ≤ Function.update s.distance a.1 (d + a.2) u0 + b.2
        rw [Function.update_noteq (Ne.symm hxu0)]
        rcases List.mem_append.mp hb with hb1 | hb1
        · rcases h.prescan b hb1 with h1 | h1 | h1
          · left
            by_cases hba : b.1 = a.1
            · rw [hba, Function.update_same]
              rw [hba] at h1
              omega
            · rw [Function.update_noteq hba]
              exact h1
          · exact Or.inr (Or.inl h1)
          · exact Or.inr (Or.inr h1)
        · rw [List.mem_singleton] at hb1
          subst hb1
          left
          rw [Function.update_same, h.du0]
      · show Function.update s.distance a.1 (d + a.2) u0 = d
        rw [Function.update_noteq (Ne.symm hxu0)]
        exact h.du0
      · intro w hw2
        by_cases hwa : w = a.1
        · rw [hwa]
          exact hdirt.2.2
        · have hw2b : Function.update s.distance a.1 (d + a.2) w ≠ infty := hw2
          rw [Function.update_noteq hwa] at hw2b
          exact hdirt.2.1 w (h.dirt2 w hw2b)
    · rw [if_neg hguard]
      refine ih (pre ++ [a]) hsplit2 harcs2 s
        ⟨h.wf, h.sync, h.low, h.done, h.frame, h.app, h.sound, h.srcd,
          h.touched, h.scanx, ?_, h.du0, h.u0app, h.dirt1, h.dirt2⟩
      intro b hb
      rcases List.mem_append.mp hb with hb1 | hb1
      · exact h.prescan b hb1
      · rw [List.mem_singleton] at hb1
        rw [hb1]
        by_cases hA : d + a.2 < s.distance a.1
        · have hB : ¬ d + a.2 < lab.query src a.1 f :=
            fun hB => hguard ⟨hA, hB⟩
          have hqle : lab.query src a.1 f ≤ d + a.2 := Nat.le_of_not_lt hB
          by_cases hqi : lab.query src a.1 f = infty
          · right
            right
            rw [h.du0, ← hqi]
            exact hqle
          · right
            left
            have hsorted := ainv_sorted i f base lab n h.frame
              (fun u => (h.app u).imp id (fun hx => ⟨s.distance u, hx⟩))
              hbs hbhf
            obtain ⟨e, he, g2, hg2, hig, hq⟩ := query_realized lab src a.1 f
              (hsorted src hsrcn f) (hsorted a.1 hx1 (!f)) hqi
            show ∃ e g2, e ∈ lab.label src f ∧ g2 ∈ lab.label a.1 (!f) ∧
              e.1 = g2.1 ∧ e.2 + g2.2 ≤ s.distance u0 + a.2
            refine ⟨e, g2, he, hg2, hig, ?_⟩
            rw [h.du0]
            omega
        · left
          rw [h.du0]
          omega

/-- The pop loop of `Akiba::iteration` preserves the strengthened
invariant and entry soundness, and drains the queue. -/
theorem akibaLoopC1 (k : Nat) (hk : 0 < k) (g : Graph) (hg : Graph.wf g)
    (hrev : Graph.symm g) (vtx : Nat → Nat) (src : Nat) (hsrcn : src < g.n)
    (i : Nat) (hvtx : vtx i = src) (f : Bool) (base : Labeling)
    (hbs : ∀ u, u < g.n → ∀ t, (base.label u t).Pairwise hubLt)
    (hbhf : ∀ u, u < g.n → ∀ p ∈ base.label u (!f), (p : Nat × Nat).1 < i) :
    ∀ (fuel : Nat) (lab : Labeling) (s : BasicDijkstra) (d : Nat),
    AInv k g.n g src i f base lab d s →
    (∀ u, u < g.n → ∀ t, ∀ p ∈ lab.label u t,
      ∃ h2, PathTo g t u (vtx (p : Nat × Nat).1) p.2 h2) →
    ∀ lab2 s2, akibaLoop k hk g src i f fuel lab s = some (lab2, s2) →
    ∃ d2, AInv k g.n g src i f base lab2 d2 s2 ∧ s2.queue.size = 0 ∧
    (∀ u, u < g.n → ∀ t, ∀ p ∈ lab2.label u t,
      ∃ h2, PathTo g t u (vtx (p : Nat × Nat).1) p.2 h2) := by
  intro fuel
  induction fuel with
  | zero =>
    intro lab s d hinv hls lab2 s2 hrun
    rw [akibaLoop] at hrun
    by_cases hz : s.queue.size = 0
    · rw [if_pos hz] at hrun
      simp only [Option.some.injEq, Prod.mk.injEq] at hrun
      obtain ⟨h1, h2⟩ := hrun
      subst h1
      subst h2
      exact ⟨d, hinv, hz, hls⟩
    · rw [if_neg hz] at hrun
      exact Option.noConfusion hrun
  | succ fuel ih =>
    intro lab s d hinv hls lab2 s2 hrun
    rw [akibaLoop] at hrun
    by_cases hz : s.queue.size = 0
    · rw [if_pos hz] at hrun
      simp only [Option.some.injEq, Prod.mk.injEq] at hrun
      obtain ⟨h1, h2⟩ := hrun
      subst h1
      subst h2
      exact ⟨d, hinv, hz, hls⟩
    · rw [if_neg hz] at hrun
      have hpos : 0 < s.queue.size := Nat.pos_of_ne_zero hz
      obtain ⟨htop, hmin⟩ := top_min k g.n hk s.queue hinv.wf hpos
      set u := s.queue.top with hu
      set d2 := s.distance u with hd2
      have hun : u < g.n :=
        hinv.wf.elems u (present_loc s.queue hinv.wf.clean htop)
      have hfresh : lab.label u (!f) = base.label u (!f) := by
        by_contra hne
        exact (hinv.done u hne).1 htop
      have hdd2 : d ≤ d2 := hinv.low u htop
      have hmind : ∀ w, s.queue.present w → d2 ≤ s.distance w := by
        intro w hw
        have hle := hmin w hw
        rw [hinv.sync u htop, hinv.sync w hw] at hle
        exact hle
      have hext := extract_WF k g.n hk s.queue u hinv.wf
      have hne_u : (lab.add u (!f) i d2).label u (!f) ≠
          base.label u (!f) := by
        rw [add_label_same, hfresh]
        intro hc
        have h2 := congrArg List.length hc
        rw [List.length_append, List.length_singleton] at h2
        omega
      have hlabext : ∀ w t, ∃ sfx,
          (lab.add u (!f) i d2).label w t = lab.label w t ++ sfx := by
        intro w t
        by_cases hc : w = u ∧ t = !f
        · exact ⟨[(i, d2)], by rw [add_label, if_pos hc]⟩
        · exact ⟨[], by rw [add_label, if_neg hc, List.append_nil]⟩
      have hAF : AFold k g.n g src i f base (lab.add u (!f) i d2) u [] d2
          { s with queue := KHeap.extract k hk s.queue u } := by
        refine ⟨hext.1, ?_, ?_, ?_, ?_, ?_, ?_, hinv.srcd, ?_, ?_, ?_, rfl,
          hne_u, hinv.dirt1, hinv.dirt2⟩
        · intro w hw
          have hw2 : s.queue.present w := ((hext.2.2.1 w).mp hw).1
          show (KHeap.extract k hk s.queue u).key w = s.distance w
          rw [hext.2.1]
          exact hinv.sync w hw2
        · intro w hw
          exact hmind w ((hext.2.2.1 w).mp hw).1
        · intro w hne
          by_cases hwu : w = u
          · subst hwu
            refine ⟨?_, Nat.le_refl _⟩
            intro hp
            exact ((hext.2.2.1 u).mp hp).2 rfl
          · rw [add_label_other lab u (!f) i d2 w (!f)
              (fun hc => hwu hc.1)] at hne
            obtain ⟨hnp, hdw⟩ := hinv.done w hne
            refine ⟨?_, Nat.le_trans hdw hdd2⟩
            intro hp
            exact hnp ((hext.2.2.1 w).mp hp).1
        · intro w t ht
          rw [add_label_other lab u (!f) i d2 w t (fun hc => ht hc.2)]
          exact hinv.frame w t ht
        · intro w
          by_cases hwu : w = u
          · subst hwu
            right
            rw [add_label_same, hfresh]
          · rw [add_label_other lab u (!f) i d2 w (!f) (fun hc => hwu hc.1)]
            exact hinv.app w
        · intro w hw
          rcases hw with hp | hp
          · exact hinv.sound w (Or.inl ((hext.2.2.1 w).mp hp).1)
          · by_cases hwu : w = u
            · subst hwu
              exact hinv.sound u (Or.inl htop)
            · rw [add_label_other lab u (!f) i d2 w (!f)
                (fun hc => hwu hc.1)] at hp
              exact hinv.sound w (Or.inr hp)
        · intro w hw
          rcases hinv.touched w hw with hp | hp
          · by_cases hwu : w = u
            · subst hwu
              exact Or.inr hne_u
            · exact Or.inl ((hext.2.2.1 w).mpr ⟨hp, hwu⟩)
          · right
            by_cases hwu : w = u
            · subst hwu
              exact hne_u
            · rw [add_label_other lab u (!f) i d2 w (!f)
                (fun hc => hwu hc.1)]
              exact hp
        · intro w hne hwu
          rw [add_label_other lab u (!f) i d2 w (!f)
            (fun hc => hwu hc.1)] at hne
          intro b hb
          rcases hinv.scanned w hne b hb with h1 | h1 | h1
          · exact Or.inl h1
          · exact Or.inr (Or.inl
              (hubCert_mono lab _ src b.1 f _ _ (Nat.le_refl _) hlabext h1))
          · exact Or.inr (Or.inr h1)
        · intro b hb
          exact absurd hb (List.not_mem_nil b)
      have hAInv2 := ascanFold k g.n hk g src hsrcn i f base hbs hbhf
        (lab.add u (!f) i d2) u d2 (g.adj f u) []
        (List.nil_append _).symm (fun a ha => hg f u a ha) _ hAF
      have hls2 : ∀ w, w < g.n → ∀ t,
          ∀ p ∈ (lab.add u (!f) i d2).label w t,
          ∃ h2, PathTo g t w (vtx (p : Nat × Nat).1) p.2 h2 := by
        intro w hw t p hp
        by_cases hc : w = u ∧ t = !f
        · rw [add_label, if_pos hc] at hp
          rcases List.mem_append.mp hp with hp1 | hp1
          · exact hls w hw t p hp1
          · rw [List.mem_singleton] at hp1
            subst hp1
            obtain ⟨h0, hp0⟩ := hinv.sound u (Or.inl htop)
            obtain ⟨hcw, hct⟩ := hc
            subst hcw
            subst hct
            rw [hvtx]
            exact ⟨h0, pathTo_rev hrev hp0⟩
        · rw [add_label, if_neg hc] at hp
          exact hls w hw t p hp
      exact ih (lab.add u (!f) i d2) _ d2 hAInv2 hls2 lab2 s2 hrun

/-- The chain argument for claim C1: once `iteration(i, f)` from `src` has
drained its queue, every vertex on a shortest `src → u` walk got its exact
shortest distance, provided no vertex of rank below `i` lies on a shortest
`src → u` walk. -/
theorem akibaChain (k : Nat) (g : Graph) (hg : Graph.wf g)
    (hrev : Graph.symm g) (vtx : Nat → Nat) (src : Nat) (hsrcn : src < g.n)
    (i : Nat) (f : Bool) (base lab2 : Labeling) (d : Nat)
    (s2 : BasicDijkstra)
    (hinv : AInv k g.n g src i f base lab2 d s2)
    (hempty : s2.queue.size = 0)
    (hls : ∀ w, w < g.n → ∀ t, ∀ p ∈ lab2.label w t,
      ∃ h2, PathTo g t w (vtx (p : Nat × Nat).1) p.2 h2)
    (hbh2 : ∀ u, u < g.n → ∀ t, ∀ p ∈ base.label u t,
      (p : Nat × Nat).1 ≤ i)
    (hbhf : ∀ u, u < g.n → ∀ p ∈ base.label u (!f),
      (p : Nat × Nat).1 < i)
    (u δu : Nat)
    (hNoLow : ∀ j2, j2 < i → ¬ OnShortest g f src u (vtx j2))
    (hδu : DRel g f src u δu) (hfin : δu < infty) :
    ∀ dx, ∀ x, DRel g f src x dx → OnShortest g f src u x →
      s2.distance x ≤ dx := by
  have happn : ∀ w, s2.distance w ≠ infty →
      lab2.label w (!f) ≠ base.label w (!f) := by
    intro w hw
    rcases hinv.touched w hw with hp | hp
    · exfalso
      obtain ⟨q, hq, _⟩ := present_loc s2.queue hinv.wf.clean hp
      omega
    · exact hp
  intro dx
  induction dx using Nat.strong_induction_on with
  | _ dx ihd =>
    intro x hx hon
    obtain ⟨d1, d2x, dd, hon1, hon2, hon3, honsum⟩ := hon
    have honfull : OnShortest g f src u x :=
      ⟨d1, d2x, dd, hon1, hon2, hon3, honsum⟩
    have hddu : dd = δu := dRel_unique hon3 hδu
    have hd1x : d1 = dx := dRel_unique hon1 hx
    have hdxle : dx ≤ δu := by omega
    obtain ⟨hx_h, hx_p⟩ := hx.1
    cases hx_p with
    | refl =>
      rw [hinv.srcd]
    | @step w dw hh x len hp harc =>
      obtain ⟨hxn0, hlen⟩ := hg f w (x, len) harc
      have hxn : x < g.n := hxn0
      have hwle : ∀ db hb, PathTo g f src w db hb → dw ≤ db := by
        intro db hb hpb
        by_contra hc
        have hshort := hx.2 (db + len) (hb + 1) (PathTo.step hpb harc)
        omega
      have hDw : DRel g f src w dw := ⟨⟨hh, hp⟩, hwle⟩
      have honw : OnShortest g f src u w := by
        obtain ⟨h2h, h2p⟩ := hon2.1
        obtain ⟨dwu, hDwu⟩ := dRel_exists
          ⟨_, _, pathTo_trans (PathTo.step PathTo.refl harc) h2p⟩
        have hwle2 : dwu ≤ 0 + len + d2x :=
          hDwu.2 _ _ (pathTo_trans (PathTo.step PathTo.refl harc) h2p)
        obtain ⟨hzh, hzp⟩ := hDwu.1
        have htr : δu ≤ dw + dwu := dRel_triangle hδu hp hzp
        exact ⟨dw, dwu, δu, hDw, hDwu, hδu, by omega⟩
      have hIH : s2.distance w ≤ dw := ihd dw (by omega) w hDw honw
      have hwinf : s2.distance w ≠ infty := by omega
      have hwapp := happn w hwinf
      rcases hinv.scanned w hwapp (x, len) harc with h1 | h1 | h1
      · have h1b : s2.distance x ≤ s2.distance w + len := h1
        omega
      · obtain ⟨e, g2, he, hg2, hig, hbound⟩ := h1
        have hbound2 : e.2 + g2.2 ≤ s2.distance w + len := hbound
        have hg2b : g2 ∈ lab2.label x (!f) := hg2
        have hef : lab2.label src f = base.label src f :=
          hinv.frame src f (by cases f <;> decide)
        have hei : e.1 ≤ i := by
          rw [hef] at he
          exact hbh2 src hsrcn f e he
        by_cases hji : e.1 = i
        · rcases hinv.app x with h2 | h2
          · rw [h2] at hg2b
            have hlt := hbhf x hxn g2 hg2b
            omega
          · rw [h2] at hg2b
            rcases List.mem_append.mp hg2b with h3 | h3
            · have hlt := hbhf x hxn g2 h3
              omega
            · rw [List.mem_singleton] at h3
              have hg22 : g2.2 = s2.distance x := by rw [h3]
              omega
        · have hjlt : e.1 < i := by omega
          exfalso
          obtain ⟨he_h, he_p⟩ := hls src hsrcn f e he
          obtain ⟨hg_h, hg_p⟩ := hls x hxn (!f) g2 hg2b
          have hg_p2 : PathTo g f (vtx g2.1) x g2.2 hg_h := by
            have hr := pathTo_rev hrev hg_p
            rwa [Bool.not_not] at hr
          rw [← hig] at hg_p2
          obtain ⟨da, hDa⟩ := dRel_exists ⟨e.2, he_h, he_p⟩
          obtain ⟨db, hDb⟩ := dRel_exists ⟨g2.2, hg_h, hg_p2⟩
          have hda_le : da ≤ e.2 := hDa.2 _ _ he_p
          have hdb_le : db ≤ g2.2 := hDb.2 _ _ hg_p2
          obtain ⟨hah, hap⟩ := hDa.1
          obtain ⟨hbh2x, hbp⟩ := hDb.1
          have htri : dw + len ≤ da + db := dRel_triangle hx hap hbp
          have honj : OnShortest g f src x (vtx e.1) :=
            ⟨da, db, dw + len, hDa, hDb, hx, by omega⟩
          exact hNoLow e.1 hjlt (onShortest_splice honj honfull)
      · have h1b : infty ≤ s2.distance w + len := h1
        omega

/-- Full correctness interface of one `Akiba::iteration` call for claim
C1: label shape, queue and dirty-state contracts, entry soundness, and the
exact hub entry for every pair covered at this rank. -/
theorem iterationC1 (k : Nat) (hk : 0 < k) (g : Graph) (hg : Graph.wf g)
    (hrev : Graph.symm g) (vtx : Nat → Nat) (i : Nat) (f : Bool)
    (src : Nat) (hsrcn : src < g.n) (hvtx : vtx i = src) (fuel : Nat)
    (lab : Labeling) (s : BasicDijkstra)
    (hq : KHeapWF k g.n s.queue)
    (hd1 : ∀ w, s.is_dirty w = true ↔ w ∈ s.dirty)
    (hd2 : ∀ w, s.distance w ≠ infty → s.is_dirty w = true)
    (hbs : ∀ u, u < g.n → ∀ t, (lab.label u t).Pairwise hubLt)
    (hbh2 : ∀ u, u < g.n → ∀ t, ∀ p ∈ lab.label u t,
      (p : Nat × Nat).1 ≤ i)
    (hbhf : ∀ u, u < g.n → ∀ p ∈ lab.label u (!f),
      (p : Nat × Nat).1 < i)
    (hls : ∀ w, w < g.n → ∀ t, ∀ p ∈ lab.label w t,
      ∃ h2, PathTo g t w (vtx (p : Nat × Nat).1) p.2 h2)
    (lab2 : Labeling) (s2 : BasicDijkstra)
    (hrun : Akiba.iteration k hk g i f src fuel lab s = some (lab2, s2)) :
    (∀ u t, t ≠ !f → lab2.label u t = lab.label u t) ∧
    (∀ u, lab2.label u (!f) = lab.label u (!f) ∨
      ∃ dd, lab2.label u (!f) = lab.label u (!f) ++ [(i, dd)]) ∧
    KHeapWF k g.n s2.queue ∧
    (∀ w, s2.is_dirty w = true ↔ w ∈ s2.dirty) ∧
    (∀ w, s2.distance w ≠ infty → s2.is_dirty w = true) ∧
    (∀ w, w < g.n → ∀ t, ∀ p ∈ lab2.label w t,
      ∃ h2, PathTo g t w (vtx (p : Nat × Nat).1) p.2 h2) ∧
    (∀ u δ, u < g.n →
      (∀ j2, j2 < i → ¬ OnShortest g f src u (vtx j2)) →
      DRel g f src u δ → δ < infty →
      (i, δ) ∈ lab2.label u (!f)) := by
  rw [Akiba.iteration] at hrun
  have hclr := clear_WF k g.n s.queue hq
  have habs := clear_absent k g.n s.queue hq
  have hcd : ∀ w, s.clear.distance w = infty := by
    intro w
    show s.dirty.foldl (fun d u => Function.update d u infty)
      s.distance w = infty
    rw [foldl_const_update]
    by_cases hw : w ∈ s.dirty
    · rw [if_pos hw]
    · rw [if_neg hw]
      by_contra hne
      exact hw ((hd1 w).mp (hd2 w hne))
  have hcb : ∀ w, s.clear.is_dirty w = false := by
    intro w
    show s.dirty.foldl (fun b u => Function.update b u false)
      s.is_dirty w = false
    rw [foldl_const_update]
    by_cases hw : w ∈ s.dirty
    · rw [if_pos hw]
    · rw [if_neg hw]
      cases hbv : s.is_dirty w with
      | false => rfl
      | true => exact absurd ((hd1 w).mp hbv) hw
  have hupd := update_WF k g.n hk s.queue.clear src 0 hclr hsrcn
  have hdirt0 : ∀ w, s.clear.is_dirty w = true ↔
      w ∈ ([] : List Nat) := by
    intro w
    rw [hcb w]
    exact ⟨fun hb => absurd hb (by decide),
      fun hm => absurd hm (List.not_mem_nil w)⟩
  have hdupd := dirt_update k hk
    { s.clear with distance := Function.update s.clear.distance src 0 }
    src 0 none hdirt0
  have hAInv0 : AInv k g.n g src i f lab lab 0
      (BasicDijkstra.update k hk
        { s.clear with distance := Function.update s.clear.distance src 0 }
        src 0 none) := by
    refine ⟨hupd.1, ?_, ?_, ?_, fun _ _ _ => rfl, fun _ => Or.inl rfl, ?_,
      ?_, ?_, ?_, hdupd.1, ?_⟩
    · intro w hw
      have hwv : w = src := by
        rcases (hupd.2.2.1 w).mp hw with h1 | h1
        · exact absurd (habs w) h1
        · exact h1
      subst hwv
      show (KHeap.update k hk s.queue.clear w 0).key w =
        Function.update (Function.update s.clear.distance w 0) w 0 w
      rw [hupd.2.1, Function.update_same, Function.update_same]
    · intro w _
      exact Nat.zero_le _
    · intro w hne
      exact absurd rfl hne
    · intro w hw
      rcases hw with hp | hp
      · have hwv : w = src := by
          rcases (hupd.2.2.1 w).mp hp with h1 | h1
          · exact absurd (habs w) h1
          · exact h1
        subst hwv
        show ∃ h2, PathTo g f w w
          (Function.update (Function.update s.clear.distance w 0) w 0
            w) h2
        rw [Function.update_same]
        exact ⟨0, PathTo.refl⟩
      · exact absurd rfl hp
    · show Function.update (Function.update s.clear.distance src 0) src 0
        src = 0
      rw [Function.update_same]
    · intro w hw
      by_cases hwv : w = src
      · subst hwv
        exact Or.inl ((hupd.2.2.1 w).mpr (Or.inr rfl))
      · exfalso
        have hwb : Function.update (Function.update s.clear.distance src 0)
            src 0 w ≠ infty := hw
        rw [Function.update_noteq hwv, Function.update_noteq hwv] at hwb
        exact hwb (hcd w)
    · intro u hu
      exact absurd rfl hu
    · intro w hw
      by_cases hwv : w = src
      · rw [hwv]
        exact hdupd.2.2
      · exfalso
        have hwb : Function.update (Function.update s.clear.distance src 0)
            src 0 w ≠ infty := hw
        rw [Function.update_noteq hwv, Function.update_noteq hwv] at hwb
        exact hwb (hcd w)
  obtain ⟨dend, hinvE, hempty, hlsE⟩ := akibaLoopC1 k hk g hg hrev vtx src
    hsrcn i hvtx f lab hbs hbhf fuel lab _ 0 hAInv0 hls lab2 s2 hrun
  refine ⟨hinvE.frame, ?_, hinvE.wf, hinvE.dirt1, hinvE.dirt2, hlsE, ?_⟩
  · intro u
    exact (hinvE.app u).imp id (fun h => ⟨s2.distance u, h⟩)
  · intro u δ hun hNoLow hD hfin
    have hchain := akibaChain k g hg hrev vtx src hsrcn i f lab lab2 dend
      s2 hinvE hempty hlsE hbh2 hbhf u δ hNoLow hD hfin
    have hdu : s2.distance u ≤ δ :=
      hchain δ u hD ⟨δ, 0, δ, hD, dRel_refl g f u, hD, by omega⟩
    have hne : s2.distance u ≠ infty := by omega
    have happd : lab2.label u (!f) ≠ lab.label u (!f) := by
      rcases hinvE.touched u hne with hp | hp
      · exfalso
        obtain ⟨q, hq, _⟩ := present_loc s2.queue hinvE.wf.clean hp
        omega
      · exact hp
    obtain ⟨h0, hp0⟩ := hinvE.sound u (Or.inr happd)
    have hge : δ ≤ s2.distance u := hD.2 _ _ hp0
    have hdeq : s2.distance u = δ := by omega
    rcases hinvE.app u with h2 | h2
    · exact absurd h2 happd
    · rw [h2, hdeq]
      exact List.mem_append_right _ (List.mem_singleton.mpr rfl)

theorem drop_eq_nil_le :
    ∀ (l : List Nat) (n : Nat), List.drop n l = [] → l.length ≤ n := by
  intro l
  induction l with
  | nil =>
    intro n _
    exact Nat.zero_le n
  | cons a l ih =>
    intro n h
    cases n with
    | zero => exact List.noConfusion h
    | succ n =>
      have hle := ih n h
      show l.length + 1 ≤ n + 1
      omega

theorem drop_getD (order : List Nat) :
    ∀ (i : Nat) (v : Nat) (rest2 : List Nat),
    List.drop i order = v :: rest2 →
    order.getD i 0 = v ∧ List.drop (i + 1) order = rest2 ∧
    i < order.length := by
  induction order with
  | nil =>
    intro i v rest2 h
    rw [List.drop_nil] at h
    exact List.noConfusion h
  | cons a order ih =>
    intro i v rest2 h
    cases i with
    | zero =>
      injection h with h1 h2
      subst h1
      subst h2
      exact ⟨rfl, rfl, Nat.succ_pos _⟩
    | succ i =>
      obtain ⟨g1, g2, g3⟩ := ih i v rest2 h
      refine ⟨g1, g2, ?_⟩
      show i + 1 < order.length + 1
      omega

/-- The main loop of `Akiba::run` for claim C1: labels only grow, every
entry is realized by a walk to its hub vertex, and every rank still to be
processed covers its pairs with an exact hub entry. -/
theorem runGoC1 (k : Nat) (hk : 0 < k) (g : Graph) (hg : Graph.wf g)
    (hrev : Graph.symm g) (order : List Nat) (fuel : Nat) :
    ∀ (rest : List Nat) (i : Nat) (lab : Labeling) (s : BasicDijkstra),
    rest = List.drop i order →
    (∀ v2 ∈ order, v2 < g.n) →
    KHeapWF k g.n s.queue →
    (∀ w, s.is_dirty w = true ↔ w ∈ s.dirty) →
    (∀ w, s.distance w ≠ infty → s.is_dirty w = true) →
    (∀ u, u < g.n → ∀ t, (lab.label u t).Pairwise hubLt) →
    (∀ u, u < g.n → ∀ t, ∀ p ∈ lab.label u t, (p : Nat × Nat).1 < i) →
    (∀ w, w < g.n → ∀ t, ∀ p ∈ lab.label w t,
      ∃ h2, PathTo g t w (order.getD (p : Nat × Nat).1 0) p.2 h2) →
    ∀ lab2, Akiba.runGo k hk g fuel i rest lab s = some lab2 →
    (∀ u t, ∃ sfx, lab2.label u t = lab.label u t ++ sfx) ∧
    (∀ w, w < g.n → ∀ t, ∀ p ∈ lab2.label w t,
      ∃ h2, PathTo g t w (order.getD (p : Nat × Nat).1 0) p.2 h2) ∧
    (∀ j f2 u δ, i ≤ j → j < order.length → u < g.n →
      (∀ j2, j2 < j →
        ¬ OnShortest g f2 (order.getD j 0) u (order.getD j2 0)) →
      DRel g f2 (order.getD j 0) u δ → δ < infty →
      (j, δ) ∈ lab2.label u (!f2)) := by
  intro rest
  induction rest with
  | nil =>
    intro i lab s hdrop hord hq hdi1 hdi2 hsorted hbelow hls lab2 hrun
    rw [Akiba.runGo] at hrun
    simp only [Option.some.injEq] at hrun
    subst hrun
    refine ⟨fun u t => ⟨[], (List.append_nil _).symm⟩, hls, ?_⟩
    intro j f2 u δ hij hjlen _ _ _ _
    exfalso
    have hlen : order.length ≤ i := drop_eq_nil_le order i hdrop.symm
    omega
  | cons v rest2 ih =>
    intro i lab s hdrop hord hq hdi1 hdi2 hsorted hbelow hls lab2 hrun
    obtain ⟨hvi, hdrop2, hilen⟩ := drop_getD order i v rest2 hdrop.symm
    have hvmem : v ∈ List.drop i order := by
      rw [← hdrop]
      exact List.mem_cons_self v rest2
    have hvin : v < g.n := hord v (List.mem_of_mem_drop hvmem)
    rw [Akiba.runGo] at hrun
    cases h1 : Akiba.iteration k hk g i false v fuel lab s with
    | none =>
      rw [h1] at hrun
      exact Option.noConfusion hrun
    | some p1 =>
      obtain ⟨lab1, s1⟩ := p1
      simp only [h1] at hrun
      have hit1 := iterationC1 k hk g hg hrev (fun j => order.getD j 0) i
        false v hvin hvi fuel lab s hq hdi1 hdi2 hsorted
        (fun u hu t p hp => Nat.le_of_lt (hbelow u hu t p hp))
        (fun u hu p hp => hbelow u hu (!false) p hp) hls lab1 s1 h1
      obtain ⟨hfr1, hap1, hq1, hdi1a, hdi2a, hls1, hex1⟩ := hit1
      have hsorted1 : ∀ u, u < g.n → ∀ t,
          (lab1.label u t).Pairwise hubLt :=
        ainv_sorted i false lab lab1 g.n hfr1 hap1 hsorted
          (fun u hu p hp => hbelow u hu (!false) p hp)
      have hb1f : ∀ u, u < g.n → ∀ p ∈ lab1.label u (!true),
          (p : Nat × Nat).1 < i := by
        intro u hu p hp
        rw [hfr1 u (!true) (by decide)] at hp
        exact hbelow u hu (!true) p hp
      have hb12 : ∀ u, u < g.n → ∀ t, ∀ p ∈ lab1.label u t,
          (p : Nat × Nat).1 ≤ i := by
        intro u hu t p hp
        by_cases ht : t = !false
        · subst ht
          rcases hap1 u with h3 | ⟨dd2, h3⟩
          · rw [h3] at hp
            exact Nat.le_of_lt (hbelow u hu (!false) p hp)
          · rw [h3] at hp
            rcases List.mem_append.mp hp with h4 | h4
            · exact Nat.le_of_lt (hbelow u hu (!false) p h4)
            · rw [List.mem_singleton] at h4
              rw [h4]
        · rw [hfr1 u t ht] at hp
          exact Nat.le_of_lt (hbelow u hu t p hp)
      cases h2 : Akiba.iteration k hk g i true v fuel lab1 s1 with
      | none =>
        rw [h2] at hrun
        exact Option.noConfusion hrun
      | some p2 =>
        obtain ⟨lab2x, s2⟩ := p2
        simp only [h2] at hrun
        have hit2 := iterationC1 k hk g hg hrev (fun j => order.getD j 0) i
          true v hvin hvi fuel lab1 s1 hq1 hdi1a hdi2a hsorted1 hb12 hb1f
          hls1 lab2x s2 h2
        obtain ⟨hfr2, hap2, hq2, hdi1b, hdi2b, hls2, hex2⟩ := hit2
        have hsorted2 : ∀ u, u < g.n → ∀ t,
            (lab2x.label u t).Pairwise hubLt :=
          ainv_sorted i true lab1 lab2x g.n hfr2 hap2 hsorted1 hb1f
        have hbelow2 : ∀ u, u < g.n → ∀ t, ∀ p ∈ lab2x.label u t,
            (p : Nat × Nat).1 < i + 1 := by
          intro u hu t p hp
          by_cases ht : t = !true
          · subst ht
            rcases hap2 u with h3 | ⟨dd2, h3⟩
            · rw [h3] at hp
              exact Nat.lt_succ_of_lt (hb1f u hu p hp)
            · rw [h3] at hp
              rcases List.mem_append.mp hp with h4 | h4
              · exact Nat.lt_succ_of_lt (hb1f u hu p h4)
              · rw [List.mem_singleton] at h4
                rw [h4]
                exact Nat.lt_succ_self i
          · rw [hfr2 u t ht] at hp
            have hle := hb12 u hu t p hp
            omega
        have hrec := ih (i + 1) lab2x s2 hdrop2.symm hord hq2 hdi1b hdi2b
          hsorted2 hbelow2 hls2 lab2 hrun
        obtain ⟨hext_r, hls_r, hcov_r⟩ := hrec
        have hext12 : ∀ u t, ∃ sfx,
            lab2x.label u t = lab.label u t ++ sfx := by
          intro u t
          by_cases ht1 : t = !false
          · subst ht1
            have he2 : lab2x.label u (!false) = lab1.label u (!false) :=
              hfr2 u (!false) (by decide)
            rcases hap1 u with h3 | ⟨dd2, h3⟩
            · exact ⟨[], by rw [he2, h3, List.append_nil]⟩
            · exact ⟨[(i, dd2)], by rw [he2, h3]⟩
          · have ht2 : t = !true := by
              cases t with
              | false => rfl
              | true => exact absurd rfl ht1
            subst ht2
            have he1 : lab1.label u (!true) = lab.label u (!true) :=
              hfr1 u (!true) (by decide)
            rcases hap2 u with h3 | ⟨dd2, h3⟩
            · exact ⟨[], by rw [h3, he1, List.append_nil]⟩
            · exact ⟨[(i, dd2)], by rw [h3, he1]⟩
        refine ⟨?_, hls_r, ?_⟩
        · intro u t
          obtain ⟨sfx1, hsf1⟩ := hext12 u t
          obtain ⟨sfx2, hsf2⟩ := hext_r u t
          exact ⟨sfx1 ++ sfx2, by rw [hsf2, hsf1, List.append_assoc]⟩
        · intro j f2 u δ hij hjlen hun hNoLow hD hfin
          by_cases hji : j = i
          · subst hji
            rw [hvi] at hNoLow hD
            cases f2 with
            | false =>
              have hmem := hex1 u δ hun hNoLow hD hfin
              have hpres : lab2x.label u (!false) = lab1.label u (!false) :=
                hfr2 u (!false) (by decide)
              obtain ⟨sfx, hsfx⟩ := hext_r u (!false)
              rw [hsfx, hpres]
              exact List.mem_append_left _ hmem
            | true =>
              have hmem := hex2 u δ hun hNoLow hD hfin
              obtain ⟨sfx, hsfx⟩ := hext_r u (!true)
              rw [hsfx]
              exact List.mem_append_left _ hmem
          · have hij2 : i + 1 ≤ j := by omega
            exact hcov_r j f2 u δ hij2 hjlen hun hNoLow hD hfin

theorem getD_eq_getElem_zero :
    ∀ (l : List Nat) (j : Nat) (h : j < l.length), l.getD j 0 = l[j] := by
  intro l
  induction l with
  | nil =>
    intro j h
    exact absurd h (Nat.not_lt_zero j)
  | cons a l ih =>
    intro j h
    cases j with
    | zero => rfl
    | succ j =>
      show l.getD j 0 = (a :: l)[j + 1]
      rw [List.getElem_cons_succ]
      have h3 : j < l.length := by
        have h4 : j + 1 < l.length + 1 := h
        omega
      exact ih j h3

/-- C1: after `Akiba::run(order, labeling)` on a well-formed graph whose
adjacency store is reverse-consistent and whose finite shortest distances
stay below `INFTY`, with `order` a permutation of the vertices,
`labeling.query(u, v, f)` equals the shortest-path distance from `u` to
`v` along side-`f` arcs, and equals `INFTY` exactly when `v` is
unreachable from `u` on that side. -/
theorem claim_C1_akiba_query (k : Nat) (hk : 0 < k) (g : Graph)
    (hg : Graph.wf g) (hrev : Graph.symm g) (hn : g.n < invalidPos)
    (order : List Nat) (hperm : order.Perm (List.range g.n)) (fuel : Nat)
    (lab0 lab2 : Labeling) (hlabn : lab0.n = g.n)
    (hfin : ∀ f a b δ, a < g.n → b < g.n → DRel g f a b δ → δ < infty)
    (hrun : Akiba.run k hk g order fuel lab0 = some lab2) :
    ∀ u w, u < g.n → w < g.n → ∀ f,
      (∀ δ, DRel g f u w δ → lab2.query u w f = δ) ∧
      (lab2.query u w f = infty ↔ ¬ ∃ d h2, PathTo g f u w d h2) := by
  have hord : ∀ v2 ∈ order, v2 < g.n :=
    fun v hv => List.mem_range.mp (hperm.mem_iff.mp hv)
  rw [Akiba.run] at hrun
  have hbelow0 : ∀ u, u < g.n → ∀ t, ∀ p ∈ lab0.clear.label u t,
      (p : Nat × Nat).1 < 0 := by
    intro u hu t p hp
    rw [clear_label, if_pos (by omega : u < lab0.n)] at hp
    exact absurd hp (List.not_mem_nil p)
  have hsort0 : ∀ u, u < g.n → ∀ t,
      (lab0.clear.label u t).Pairwise hubLt := by
    intro u hu t
    rw [clear_label, if_pos (by omega : u < lab0.n)]
    exact List.Pairwise.nil
  have hls0 : ∀ w, w < g.n → ∀ t, ∀ p ∈ lab0.clear.label w t,
      ∃ h2, PathTo g t w (order.getD (p : Nat × Nat).1 0) p.2 h2 := by
    intro w hw t p hp
    rw [clear_label, if_pos (by omega : w < lab0.n)] at hp
    exact absurd hp (List.not_mem_nil p)
  obtain ⟨hextF, hlsF, hcovF⟩ := runGoC1 k hk g hg hrev order fuel order 0
    lab0.clear BasicDijkstra.init rfl hord (init_WF k g.n hn)
    (fun w => ⟨fun hb => Bool.noConfusion hb,
      fun hm => absurd hm (List.not_mem_nil w)⟩)
    (fun w hw => absurd rfl hw) hsort0 hbelow0 hls0 lab2 hrun
  have hsortF : ∀ u, u < g.n → ∀ t, (lab2.label u t).Pairwise hubLt :=
    runGo_sorted k hk g hg fuel order 0 lab0.clear BasicDijkstra.init hord
      (init_WF k g.n hn) hbelow0 hsort0 lab2 hrun
  have hidx : ∀ z, z < g.n → ∃ j, j < order.length ∧ order.getD j 0 = z := by
    intro z hz
    have hzmem : z ∈ order := hperm.mem_iff.mpr (List.mem_range.mpr hz)
    obtain ⟨j, hj, hje⟩ := List.mem_iff_getElem.mp hzmem
    exact ⟨j, hj, by rw [getD_eq_getElem_zero order j hj, hje]⟩
  intro u w hu hw f
  have hmain : ∀ δ, DRel g f u w δ → δ < infty →
      lab2.query u w f ≤ δ := by
    intro δ hD hfi
    obtain ⟨ju, hju, hjue⟩ := hidx u hu
    have hself : OnShortest g f u w (order.getD ju 0) := by
      rw [hjue]
      exact ⟨0, δ, δ, dRel_refl g f u, hD, hD, by omega⟩
    obtain ⟨js, hjsP, hjsmin⟩ := exists_least
      (fun j => j < order.length ∧ OnShortest g f u w (order.getD j 0))
      ⟨ju, hju, hself⟩
    obtain ⟨hjslen, hjsOn⟩ := hjsP
    have hzn : order.getD js 0 < g.n := by
      refine hord (order.getD js 0) ?_
      rw [getD_eq_getElem_zero order js hjslen]
      exact List.getElem_mem hjslen
    have hNL : ∀ j2, j2 < js →
        ¬ OnShortest g f u w (order.getD j2 0) := by
      intro j2 hj2 hOn
      exact hjsmin j2 hj2 ⟨by omega, hOn⟩
    obtain ⟨d1, d2v, δ2, hD1, hD2, hD3, hsum⟩ := hjsOn
    have hjsOn2 : OnShortest g f u w (order.getD js 0) :=
      ⟨d1, d2v, δ2, hD1, hD2, hD3, hsum⟩
    have hδeq : δ2 = δ := dRel_unique hD3 hD
    have hD1r : DRel g (!f) (order.getD js 0) u d1 := dRel_rev hrev hD1
    have hNL1 : ∀ j2, j2 < js →
        ¬ OnShortest g (!f) (order.getD js 0) u (order.getD j2 0) := by
      intro j2 hj2 hOn
      refine hNL j2 hj2 ?_
      obtain ⟨e1, e2, e3, hOn1, hOn2, hOn3, hOne⟩ := hOn
      have r1 : DRel g f (order.getD j2 0) (order.getD js 0) e1 := by
        have hr := dRel_rev hrev hOn1
        rwa [Bool.not_not] at hr
      have r2 : DRel g f u (order.getD j2 0) e2 := by
        have hr := dRel_rev hrev hOn2
        rwa [Bool.not_not] at hr
      have r3 : DRel g f u (order.getD js 0) e3 := by
        have hr := dRel_rev hrev hOn3
        rwa [Bool.not_not] at hr
      have hOnf : OnShortest g f u (order.getD js 0) (order.getD j2 0) :=
        ⟨e2, e1, e3, r2, r1, r3, by omega⟩
      exact onShortest_splice hOnf hjsOn2
    have hfi1 : d1 < infty := by omega
    have hmem1 : (js, d1) ∈ lab2.label u f := by
      have hm := hcovF js (!f) u d1 (Nat.zero_le js) hjslen hu hNL1 hD1r
        hfi1
      rwa [Bool.not_not] at hm
    have hNL2 : ∀ j2, j2 < js →
        ¬ OnShortest g f (order.getD js 0) w (order.getD j2 0) := by
      intro j2 hj2 hOn
      exact hNL j2 hj2 (onShortest_splice2 hOn hjsOn2)
    have hfi2 : d2v < infty := by omega
    have hmem2 : (js, d2v) ∈ lab2.label w (!f) :=
      hcovF js f w d2v (Nat.zero_le js) hjslen hw hNL2 hD2 hfi2
    have hqb := query_le_of_entries lab2 u w f (hsortF u hu f)
      (hsortF w hw (!f)) (js, d1) (js, d2v) hmem1 hmem2 rfl
    have hqb2 : lab2.query u w f ≤ d1 + d2v := hqb
    omega
  have hreal : lab2.query u w f ≠ infty →
      ∃ h2, PathTo g f u w (lab2.query u w f) h2 := by
    intro hne
    obtain ⟨e, he, g2, hg2, hig, hq⟩ := query_realized lab2 u w f
      (hsortF u hu f) (hsortF w hw (!f)) hne
    obtain ⟨hh1, hp1⟩ := hlsF u hu f e he
    obtain ⟨hh2, hp2⟩ := hlsF w hw (!f) g2 hg2
    have hp2b : PathTo g f (order.getD g2.1 0) w g2.2 hh2 := by
      have hr := pathTo_rev hrev hp2
      rwa [Bool.not_not] at hr
    rw [← hig] at hp2b
    exact ⟨hh1 + hh2, pathTo_cast (pathTo_trans hp1 hp2b) hq.symm rfl⟩
  refine ⟨?_, ?_⟩
  · intro δ hD
    have hfi := hfin f u w δ hu hw hD
    have hle := hmain δ hD hfi
    have hne : lab2.query u w f ≠ infty := by omega
    obtain ⟨h2, hp⟩ := hreal hne
    have hge : δ ≤ lab2.query u w f := hD.2 _ _ hp
    omega
  · constructor
    · intro hinf hreach
      obtain ⟨d, h2, hp⟩ := hreach
      obtain ⟨δ, hDδ⟩ := dRel_exists ⟨d, h2, hp⟩
      have hfi := hfin f u w δ hu hw hDδ
      have hle := hmain δ hDδ hfi
      omega
    · intro hunreach
      by_contra hne
      obtain ⟨h2, hp⟩ := hreal hne
      exact hunreach ⟨lab2.query u w f, h2, hp⟩

set_option maxHeartbeats 4000000 in
theorem claim_C1_akiba_query_witness :
    (Graph.wf wGraph4 ∧ Graph.symm wGraph4 ∧ wGraph4.n < invalidPos ∧
      ([0] : List Nat).Perm (List.range wGraph4.n) ∧
      (Labeling.init 1).n = wGraph4.n ∧
      (∀ f a b δ, a < wGraph4.n → b < wGraph4.n → DRel wGraph4 f a b δ →
        δ < infty) ∧
      Akiba.run 4 (by decide) wGraph4 [0] 2 (Labeling.init 1) =
        some wLab4) ∧
    (∀ u w, u < wGraph4.n → w < wGraph4.n → ∀ f,
      (∀ δ, DRel wGraph4 f u w δ → wLab4.query u w f = δ) ∧
      (wLab4.query u w f = infty ↔
        ¬ ∃ d h2, PathTo wGraph4 f u w d h2)) := by
  have hwf : Graph.wf wGraph4 :=
    fun f u a ha => absurd ha (List.not_mem_nil a)
  have hrev : Graph.symm wGraph4 := fun f a b len =>
    ⟨fun h => absurd h (List.not_mem_nil _),
      fun h => absurd h (List.not_mem_nil _)⟩
  have hfin : ∀ f a b δ, a < wGraph4.n → b < wGraph4.n →
      DRel wGraph4 f a b δ → δ < infty := by
    intro f a b δ _ _ hD
    obtain ⟨⟨h2, hp⟩, _⟩ := hD
    cases hp with
    | refl => decide
    | step hq harc => exact absurd harc (List.not_mem_nil _)
  have hrun : Akiba.run 4 (by decide) wGraph4 [0] 2 (Labeling.init 1) =
      some wLab4 := by
    simp [Akiba.run, Akiba.runGo, Akiba.iteration, akibaLoop, arcRelax,
      BasicDijkstra.update, BasicDijkstra.clear, BasicDijkstra.init,
      KHeap.update, KHeap.fixup, KHeap.siftDown, KHeap.siftUp, KHeap.kid,
      kidGo, KHeap.extract, KHeap.top, KHeap.clear, KHeap.init,
      KHeap.swapPos, Function.update, infty, invalidPos, wGraph4, wLab4]
  have hperm : ([0] : List Nat).Perm (List.range wGraph4.n) := by decide
  exact ⟨⟨hwf, hrev, by decide, hperm, rfl, hfin, hrun⟩,
    claim_C1_akiba_query 4 (by decide) wGraph4 hwf hrev (by decide) [0]
      hperm 2 (Labeling.init 1) wLab4 rfl hfin hrun⟩

theorem claim_C7_sort_sorted_witness :
    (((dupHubLabeling.sort).label 0 true).Sorted pairLe ∧
      ((((dupHubLabeling.sort).label 0 true).map Prod.fst).Nodup →
        ((dupHubLabeling.sort).label 0 true).Pairwise hubLt)) :=
  claim_C7_sort_sorted dupHubLabeling
    (ReachableAdds.add 0 true 5 2 (ReachableAdds.add 0 true 5 1 (ReachableAdds.init 1)))
    0 (by decide) true

end HL
